import Mathlib

/-!
# Enterprise bundle discovery (`cli/install_ee`)

A shallow embedding of the version order (`version.go`), the link classifier
(`crawler.go`, `findReferences`) and the bundle grammar (`install_ee.go`,
`compileVersionRegexp` / `getVersions`), followed by the properties proved
about them.

Go strings are modelled as lists of characters, unsigned 64-bit fields as
natural numbers (the order only compares them, nothing overflows).
-/

namespace InstallEE

/-! ## Data model -/

/-- Release of `cli/version`: `Typ` is the field `Type`, as the integer that
`uint64(Release.Type)` yields, and the release number. -/
structure Release where
  Typ : Nat
  Num : Nat
  deriving DecidableEq, Repr

/-- Modelled from the spec: the constant `version.TypeAlpha` of `cli/version`, which is not
among the sources; the spec fixes only the order `alpha < beta < rc < release`. -/
def TypeAlpha : Nat := 0

/-- Modelled from the spec: the constant `version.TypeBeta` of `cli/version`
(`alpha < beta < rc < release`). -/
def TypeBeta : Nat := 1

/-- Modelled from the spec: the constant `version.TypeRC` of `cli/version`
(`alpha < beta < rc < release`). -/
def TypeRC : Nat := 2

/-- Modelled from the spec: the constant `version.TypeRelease` of `cli/version`
(`alpha < beta < rc < release`). -/
def TypeRelease : Nat := 3

/-- Version of `cli/version`, with the fields the package `install_ee` and its
tests read and write. -/
structure Version where
  Major : Nat
  Minor : Nat
  Patch : Nat
  Additional : Nat
  Revision : Nat
  Release : Release
  Hash : List Char
  Str : List Char
  Tarball : List Char
  deriving DecidableEq, Repr

/-- EEVersion of `version.go`: information about one SDK bundle. -/
structure EEVersion where
  VersionInfo : Version
  Prefix : List Char
  deriving DecidableEq, Repr

/-! ## Errors and host parameters -/

/-- An error value: a fixed message built by `fmt.Errorf`, the message
`HTTP request error: <status text>` for a status code, or an error handed up
from a callee outside the package (HTTP client, `util.GetOs`, `util.GetArch`,
`version.GetVersionDetails`). -/
inductive Err where
  | text (msg : List Char)
  | httpStatus (code : Nat)
  | external (msg : List Char)
  deriving DecidableEq, Repr

deriving instance DecidableEq for Except

/-- The values of `util.OsType` that `util.GetOs` returns without an error. -/
inductive OsType where
  | OsLinux
  | OsMacos
  deriving DecidableEq, Repr

/-- SearchEECtx of `install_ee.go`: what the search must include. -/
structure SearchEECtx where
  Dbg : Bool
  Dev : Bool
  deriving DecidableEq, Repr

/-! ## Link classifier (`crawler.go`) -/

/-- The library predicate `strings.HasPrefix`. -/
def HasPrefix : List Char → List Char → Bool
  | _, [] => true
  | [], _ :: _ => false
  | c :: s, d :: p => c == d && HasPrefix s p

/-- The library predicate `strings.Contains`: `substr` occurs in `s`, compared
character by character (case-sensitive). -/
def Contains : List Char → List Char → Bool
  | [], substr => HasPrefix [] substr
  | c :: s, substr => HasPrefix (c :: s) substr || Contains s substr

/-- The token kinds of `golang.org/x/net/html`. -/
inductive TokenType where
  | ErrorToken
  | TextToken
  | StartTagToken
  | EndTagToken
  | SelfClosingTagToken
  | CommentToken
  | DoctypeToken
  deriving DecidableEq, Repr

/-- An attribute of a tag (`html.Attribute`). -/
structure Attribute where
  Key : List Char
  Val : List Char
  deriving DecidableEq, Repr

/-- A token of the page (`html.Token`): `Typ` is the field `Type`. -/
structure Token where
  Typ : TokenType
  Data : List Char
  Attr : List Attribute
  deriving DecidableEq, Repr

/-- What `client.Do(req)` hands back: a transport error, or a response with
its status code and the tokens that the HTML tokenizer yields from its body,
in order (after the last one the tokenizer reports `ErrorToken`). -/
inductive HttpResult where
  | failed (err : Err)
  | response (StatusCode : Nat) (body : List Token)
  deriving Repr

/-- getHref of `crawler.go`: the value of the first `href` attribute. -/
def getHref (token : Token) : Option (List Char) :=
  match token.Attr.find? (fun a => a.Key == "href".toList) with
  | some a => some a.Val
  | none => none

/-- The `for` loop of `findReferences` over the tokens of the page, with the
two slices it appends to; returns `(downloadUrls, traverseUrls)`. -/
def scanTokens (searchCtx : SearchEECtx) (avoidOs : List Char) :
    List Token → List (List Char) → List (List Char) → List (List Char) × List (List Char)
  | [], downloadUrls, traverseUrls => (downloadUrls, traverseUrls)
  | token :: rest, downloadUrls, traverseUrls =>
    match token.Typ with
    | TokenType.ErrorToken => (downloadUrls, traverseUrls)
    | TokenType.StartTagToken =>
      if !(token.Data == "a".toList) then
        scanTokens searchCtx avoidOs rest downloadUrls traverseUrls
      else
        match getHref token with
        | none => scanTokens searchCtx avoidOs rest downloadUrls traverseUrls
        | some hrefValue =>
          let isBackLink := Contains hrefValue "../".toList
          let isSameLink := Contains hrefValue "./".toList
          let isBundleLink := Contains hrefValue ".tar.gz".toList
          let isWrongOsLink := Contains hrefValue ("/".toList ++ avoidOs ++ "/".toList)
          let isSHA256Link := Contains hrefValue ".sha256".toList
          let isDevPrefix := Contains hrefValue "/dev/".toList
          let isDebugPrefix := Contains hrefValue "/debug/".toList
          if (!searchCtx.Dev && isDevPrefix) || (!searchCtx.Dbg && isDebugPrefix) then
            scanTokens searchCtx avoidOs rest downloadUrls traverseUrls
          else if !isBundleLink && !isBackLink && !isWrongOsLink && !isSameLink then
            scanTokens searchCtx avoidOs rest downloadUrls (traverseUrls ++ [hrefValue])
          else if isBundleLink && !isBackLink && !isWrongOsLink && !isSHA256Link &&
              !isSameLink then
            scanTokens searchCtx avoidOs rest (downloadUrls ++ [hrefValue]) traverseUrls
          else
            scanTokens searchCtx avoidOs rest downloadUrls traverseUrls
    | _ => scanTokens searchCtx avoidOs rest downloadUrls traverseUrls

/-- findReferences of `crawler.go`: from the answer to the request and the
result of `util.GetOs`, the URLs that hold bundles and the URLs that can be
crawled, `(downloadUrls, traverseUrls)`, or an error. -/
def findReferences (searchCtx : SearchEECtx) (res : HttpResult) (getOs : Except Err OsType) :
    Except Err (List (List Char) × List (List Char)) :=
  match res with
  | HttpResult.failed err => Except.error err
  | HttpResult.response StatusCode body =>
    if StatusCode ≠ 200 then Except.error (Err.httpStatus StatusCode)
    else
      match getOs with
      | Except.error err => Except.error err
      | Except.ok osID =>
        let avoidOs := if osID = OsType.OsLinux then "macos".toList else "linux".toList
        Except.ok (scanTokens searchCtx avoidOs body [] [])

/-- The hrefs of the anchors of a page, in document order (§4.2): the `href`
attribute of every `<a>` start tag that has one, up to the first error token. -/
def anchorHrefs : List Token → List (List Char)
  | [] => []
  | token :: rest =>
    if token.Typ = TokenType.ErrorToken then []
    else if token.Typ = TokenType.StartTagToken ∧ token.Data = "a".toList then
      match getHref token with
      | some hrefValue => hrefValue :: anchorHrefs rest
      | none => anchorHrefs rest
    else anchorHrefs rest

/-- The name of the other operating system in the `wrongOsLink` row of §4.2. -/
def otherOs : OsType → List Char
  | OsType.OsLinux => "macos".toList
  | OsType.OsMacos => "linux".toList

/-- The predicate table of §4.2: substring tests on an href. -/
def backLink (href : List Char) : Bool := decide ("../".toList <:+: href)

/-- The href contains `./`. -/
def selfLink (href : List Char) : Bool := decide ("./".toList <:+: href)

/-- The href contains `.tar.gz`. -/
def bundleLink (href : List Char) : Bool := decide (".tar.gz".toList <:+: href)

/-- The href contains `.sha256`. -/
def checksumLink (href : List Char) : Bool := decide (".sha256".toList <:+: href)

/-- The href contains `/macos/` on a Linux host, `/linux/` on a macOS host. -/
def wrongOsLink (host : OsType) (href : List Char) : Bool :=
  decide ("/".toList ++ otherOs host ++ "/".toList <:+: href)

/-- The href contains `/dev/`. -/
def devChannel (href : List Char) : Bool := decide ("/dev/".toList <:+: href)

/-- The href contains `/debug/`. -/
def debugChannel (href : List Char) : Bool := decide ("/debug/".toList <:+: href)

/-- The rule for the traverse list: both channel checks pass and the href is
no bundle, back, wrong-OS or self link. -/
def traverseRule (searchCtx : SearchEECtx) (host : OsType) (href : List Char) : Bool :=
  !(devChannel href && !searchCtx.Dev) && !(debugChannel href && !searchCtx.Dbg) &&
    !bundleLink href && !backLink href && !wrongOsLink host href && !selfLink href

/-- The rule for the download list: both channel checks pass, the href is a
bundle link and no back, wrong-OS, checksum or self link. -/
def downloadRule (searchCtx : SearchEECtx) (host : OsType) (href : List Char) : Bool :=
  !(devChannel href && !searchCtx.Dev) && !(debugChannel href && !searchCtx.Dbg) &&
    bundleLink href && !backLink href && !wrongOsLink host href && !checksumLink href &&
    !selfLink href

/-- A page of the classifier examples: a parent link, a directory, a dev
directory, a bundle, its checksum and a bundle of the other system. -/
def samplePage : List Token :=
  [ { Typ := TokenType.StartTagToken, Data := "a".toList,
      Attr := [{ Key := "href".toList, Val := "../".toList }] },
    { Typ := TokenType.TextToken, Data := "up".toList, Attr := [] },
    { Typ := TokenType.StartTagToken, Data := "a".toList,
      Attr := [{ Key := "href".toList, Val := "/enterprise/release/".toList }] },
    { Typ := TokenType.StartTagToken, Data := "a".toList,
      Attr := [{ Key := "href".toList, Val := "/enterprise/dev/".toList }] },
    { Typ := TokenType.StartTagToken, Data := "a".toList,
      Attr := [{ Key := "href".toList, Val := "/enterprise/debug/".toList }] },
    { Typ := TokenType.StartTagToken, Data := "a".toList,
      Attr := [{ Key := "href".toList, Val := "/e/macos/sdk-r1.tar.gz".toList }] },
    { Typ := TokenType.StartTagToken, Data := "a".toList,
      Attr := [{ Key := "href".toList, Val := "/e/linux/sdk-r1.tar.gz".toList }] },
    { Typ := TokenType.StartTagToken, Data := "a".toList,
      Attr := [{ Key := "href".toList, Val := "/e/linux/sdk-r1.tar.gz.sha256".toList }] } ]

/-! ## Regular expressions (the library `regexp`, as far as the patterns here use it) -/

/-- A pattern item that matches one character: a literal, `.` (any character
but a newline), `[0-9]` or `\d`. -/
inductive CharClass where
  | lit (c : Char)
  | any
  | digit
  deriving DecidableEq, Repr

/-- Does the character belong to the class? -/
def CharClass.test : CharClass → Char → Bool
  | CharClass.lit c, x => x == c
  | CharClass.any, x => x != '\n'
  | CharClass.digit, x => x.isDigit

/-- Patterns: the empty pattern, one character of a class, a greedy `*` of a
class, concatenation, alternation `r1|r2` (left preferred), a greedy `r?`,
and a numbered capturing group. A non-capturing group `(?:r)` is `r`. -/
inductive Re where
  | eps
  | chr (p : CharClass)
  | star (p : CharClass)
  | seq (r1 r2 : Re)
  | alt (r1 r2 : Re)
  | opt (r : Re)
  | group (n : Nat) (r : Re)
  deriving DecidableEq, Repr

/-- The pattern `p+`. -/
def Re.plus (p : CharClass) : Re := Re.seq (Re.chr p) (Re.star p)

/-- The pattern for a literal text. -/
def Re.str : List Char → Re
  | [] => Re.eps
  | c :: cs => Re.seq (Re.chr (CharClass.lit c)) (Re.str cs)

/-- The concatenation of a list of patterns. -/
def Re.seqs : List Re → Re
  | [] => Re.eps
  | r :: rs => Re.seq r (Re.seqs rs)

/-- The texts of the capturing groups set so far, newest first. -/
abbrev Caps := List (Nat × List Char)

/-- The text of group `n` in a match; the empty text if the group took no part. -/
def capture (caps : Caps) (n : Nat) : List Char :=
  match caps.lookup n with
  | some text => text
  | none => []

/-- What can remain after a greedy `p*` at the head of `s`, longest match first. -/
def starRests (p : CharClass) : List Char → List (List Char)
  | [] => [[]]
  | x :: s => if p.test x then starRests p s ++ [x :: s] else [x :: s]

/-- All ways to match `r` at the head of `s`, as (remaining input, captures),
in the order in which a backtracking matcher tries them. The library returns
the first one (leftmost-first semantics). -/
def Re.run : Re → List Char → Caps → List (List Char × Caps)
  | Re.eps, s, caps => [(s, caps)]
  | Re.chr p, s, caps =>
    match s with
    | [] => []
    | x :: rest => if p.test x then [(rest, caps)] else []
  | Re.star p, s, caps => (starRests p s).map (fun rest => (rest, caps))
  | Re.seq r1 r2, s, caps => (Re.run r1 s caps).flatMap (fun m => Re.run r2 m.1 m.2)
  | Re.alt r1 r2, s, caps => Re.run r1 s caps ++ Re.run r2 s caps
  | Re.opt r, s, caps => Re.run r s caps ++ [(s, caps)]
  | Re.group n r, s, caps =>
    (Re.run r s caps).map (fun m => (m.1, (n, s.take (s.length - m.1.length)) :: m.2))

/-- The match of `re` that starts at the head of `s`, if there is one. -/
def matchAt (re : Re) (s : List Char) : Option (List Char × Caps) :=
  (Re.run re s []).head?

/-- The scan of `FindAllStringSubmatch(s, -1)`: `skip` characters still belong
to the previous match; otherwise a match is tried at the head of `s`, and the
search goes on behind it. (A match needs at least one character, which holds
for every pattern of this package.) -/
def findAllFrom (re : Re) : List Char → Nat → List Caps
  | [], _ => []
  | _ :: s, skip + 1 => findAllFrom re s skip
  | c :: s, 0 =>
    match matchAt re (c :: s) with
    | some m => m.2 :: findAllFrom re s ((c :: s).length - m.1.length - 1)
    | none => findAllFrom re s 0

/-- The successive non-overlapping matches of `re` in `s`
(`re.FindAllStringSubmatch(s, -1)`), each with its captures. -/
def FindAllStringSubmatch (re : Re) (s : List Char) : List Caps :=
  findAllFrom re s 0

/-- The library predicate `unicode.IsSpace`. -/
def isSpace (c : Char) : Bool :=
  c == '\t' || c == '\n' || c.toNat == 0x0B || c.toNat == 0x0C || c == '\r' || c == ' ' ||
  c.toNat == 0x85 || c.toNat == 0xA0 || c.toNat == 0x1680 ||
  (0x2000 ≤ c.toNat && c.toNat ≤ 0x200A) || c.toNat == 0x2028 || c.toNat == 0x2029 ||
  c.toNat == 0x202F || c.toNat == 0x205F || c.toNat == 0x3000

/-- The library function `strings.TrimSpace`: leading and trailing white space
removed. -/
def TrimSpace (s : List Char) : List Char :=
  ((s.dropWhile isSpace).reverse.dropWhile isSpace).reverse

/-- The language of a pattern: the texts it can match, captures left aside. -/
def Re.Matches : Re → List Char → Prop
  | Re.eps, w => w = []
  | Re.chr p, w => ∃ x, w = [x] ∧ p.test x = true
  | Re.star p, w => ∀ x ∈ w, p.test x = true
  | Re.seq r1 r2, w => ∃ u v, w = u ++ v ∧ Re.Matches r1 u ∧ Re.Matches r2 v
  | Re.alt r1 r2, w => Re.Matches r1 w ∨ Re.Matches r2 w
  | Re.opt r, w => Re.Matches r w ∨ w = []
  | Re.group _ r, w => Re.Matches r w

/-- The text starts with `n` digits. -/
def startsDigits : Nat → List Char → Bool
  | 0, _ => true
  | _ + 1, [] => false
  | n + 1, c :: s => c.isDigit && startsDigits n s

/-- The text starts with `r` and three digits. -/
def revAt : List Char → Bool
  | [] => false
  | x :: s => x == 'r' && startsDigits 3 s

/-- Somewhere in the text there is an `r` followed by three digits. -/
def hasRevision : List Char → Bool
  | [] => false
  | c :: s => revAt (c :: s) || hasRevision s

/-- A name of letters, digits and `_`. -/
def plainName (name : List Char) : Bool :=
  name.all (fun c => c.isAlphanum || c == '_')

/-- The non-empty tails `u ++ t` of `w ++ t` that begin inside `w`, shortest first. -/
def tailsInto : List Char → List Char → List (List Char)
  | [], _ => []
  | x :: w, t => tailsInto w t ++ [x :: w ++ t]

/-! ## Bundle grammar (`install_ee.go`) -/

/-- The pattern `(?:(?:no)?gc64)`. -/
def gc64Re : Re := Re.seq (Re.opt (Re.str "no".toList)) (Re.str "gc64".toList)

/-- The pattern `(?:-|\.)`. -/
def sepRe : Re := Re.alt (Re.chr (CharClass.lit '-')) (Re.chr (CharClass.lit '.'))

/-- The pattern `(.*r[0-9]{3})` of group 3. -/
def revisionRe : Re :=
  Re.group 3 (Re.seqs [Re.star CharClass.any, Re.chr (CharClass.lit 'r'),
    Re.chr CharClass.digit, Re.chr CharClass.digit, Re.chr CharClass.digit])

/-- The pattern `(.+\/)` of group 1. -/
def dirRe : Re := Re.group 1 (Re.seq (Re.plus CharClass.any) (Re.chr (CharClass.lit '/')))

/-- The common head `tarantool-enterprise-(?:sdk|bundle)-(?:(?:no)?gc64)?(?:-)?`
of group 2. -/
def nameRe : Re :=
  Re.seqs [Re.str "tarantool-enterprise-".toList,
    Re.alt (Re.str "sdk".toList) (Re.str "bundle".toList),
    Re.chr (CharClass.lit '-'), Re.opt gc64Re, Re.opt (Re.chr (CharClass.lit '-'))]

/-- The pattern that `compileVersionRegexp` builds for Linux,
`(.+\/)(tarantool-enterprise-(?:sdk|bundle)-(?:(?:no)?gc64)?(?:-)?(.*r[0-9]{3})?`
`(?:(?:(?:-|\.)(?:no)?gc64)?(?:.linux.)?ARCH)?.tar.gz)`. The architecture name is
spliced into the pattern text; it is taken to consist of characters that stand
for themselves (letters, digits, `_`, as in `x86_64` or `aarch64`). -/
def linuxRe (arch : List Char) : Re :=
  Re.seq dirRe
    (Re.group 2 (Re.seqs [nameRe, Re.opt revisionRe,
      Re.opt (Re.seqs [Re.opt (Re.seq sepRe gc64Re),
        Re.opt (Re.seqs [Re.chr CharClass.any, Re.str "linux".toList, Re.chr CharClass.any]),
        Re.str arch]),
      Re.chr CharClass.any, Re.str "tar".toList, Re.chr CharClass.any, Re.str "gz".toList]))

/-- The pattern that `compileVersionRegexp` builds for macOS,
`(.+\/)(tarantool-enterprise-(?:sdk|bundle)-(?:(?:no)?gc64)?(?:-)?(.*r[0-9]{3})`
`(?:-|\.)macos(?:x)?(?:-|\.)ARCH\.tar\.gz)`. -/
def macosRe (arch : List Char) : Re :=
  Re.seq dirRe
    (Re.group 2 (Re.seqs [nameRe, revisionRe, sepRe, Re.str "macos".toList,
      Re.opt (Re.chr (CharClass.lit 'x')), sepRe, Re.str arch,
      Re.str ".tar.gz".toList]))

/-- compileVersionRegexp of `install_ee.go`, from the results of `util.GetArch`
and `util.GetOs`. -/
def compileVersionRegexp (getArch : Except Err (List Char)) (getOs : Except Err OsType) :
    Except Err Re :=
  match getArch with
  | Except.error err => Except.error err
  | Except.ok arch =>
    match getOs with
    | Except.error err => Except.error err
    | Except.ok osType =>
      match osType with
      | OsType.OsLinux => Except.ok (linuxRe arch)
      | OsType.OsMacos => Except.ok (macosRe arch)

/-! ## Version order (`version.go`) -/

/-- The slice `left` (or `right`) built by the comparator of `SortEEVersions`. -/
def sortKey (v : EEVersion) : List Nat :=
  [v.VersionInfo.Major, v.VersionInfo.Minor, v.VersionInfo.Patch,
   v.VersionInfo.Release.Typ, v.VersionInfo.Release.Num,
   v.VersionInfo.Additional, v.VersionInfo.Revision]

/-- The `for i := 0; i < largestLen; i++` loop of the comparator: `todo` is the
number of iterations still to run, `i` the current index. A missing element
counts as 0. -/
def lessLoop (left right : List Nat) : Nat → Nat → Bool
  | 0, _ => false
  | todo + 1, i =>
    let valLeft := if i < left.length then left.getD i 0 else 0
    let valRight := if i < right.length then right.getD i 0 else 0
    if valLeft ≠ valRight then decide (valLeft < valRight)
    else lessLoop left right todo (i + 1)

/-- The comparator closure handed to `sort.SliceStable` by `SortEEVersions`. -/
def less (verLeft verRight : EEVersion) : Bool :=
  let left := sortKey verLeft
  let right := sortKey verRight
  let largestLen := max left.length right.length
  lessLoop left right largestLen 0

/-- One insertion step of a stable sort: `a` goes in front of the first
element that is not less than it, so it stays ahead of its equals. -/
def insertStable (lt : α → α → Bool) (a : α) : List α → List α
  | [] => [a]
  | b :: l => if lt b a then b :: insertStable lt a l else a :: b :: l

/-- The library routine `sort.SliceStable`, by its contract: the slice is sorted by
`lt` and elements that compare equal keep their original order. For a
comparator that is a strict weak order this fixes the result; it is computed
here by insertion from the right. -/
def sliceStable (lt : α → α → Bool) : List α → List α
  | [] => []
  | a :: l => insertStable lt a (sliceStable lt l)

/-- SortEEVersions of `version.go`: sorts versions from oldest to newest
(the slice is sorted in place; the new contents are returned). -/
def SortEEVersions (versions : List EEVersion) : List EEVersion :=
  sliceStable less versions

/-- The key of §4.6 as a tuple under the lexicographic order: major, minor,
patch, release type, release number, additional, revision. -/
def keyTuple (v : EEVersion) : Nat ×ₗ Nat ×ₗ Nat ×ₗ Nat ×ₗ Nat ×ₗ Nat ×ₗ Nat :=
  toLex (v.VersionInfo.Major, toLex (v.VersionInfo.Minor, toLex (v.VersionInfo.Patch,
    toLex (v.VersionInfo.Release.Typ, toLex (v.VersionInfo.Release.Num,
    toLex (v.VersionInfo.Additional, v.VersionInfo.Revision))))))

/-! ## Version strings (`cli/version`, modelled from §4.5) -/

/-- The value of a run of decimal digits. -/
def digitsToNat (digits : List Char) : Nat :=
  digits.foldl (fun n c => 10 * n + (c.toNat - '0'.toNat)) 0

/-- A non-negative integer at the head of the text: its value and the rest. -/
def parseNumber (s : List Char) : Option (Nat × List Char) :=
  match s.span Char.isDigit with
  | ([], _) => none
  | (digits, rest) => some (digitsToNat digits, rest)

/-- The text behind a given beginning, if the text begins so. -/
def cutPrefix : List Char → List Char → Option (List Char)
  | [], s => some s
  | _ :: _, [] => none
  | c :: p, x :: s => if x == c then cutPrefix p s else none

/-- The optional `-additional` integer after the patch number. -/
def parseAdditional (s : List Char) : Nat × List Char :=
  match cutPrefix "-".toList s with
  | some rest =>
    match parseNumber rest with
    | some (n, rest1) => (n, rest1)
    | none => (0, s)
  | none => (0, s)

/-- The number after a release tag; 0 if there is none. -/
def parseReleaseNum (s : List Char) : Nat × List Char :=
  match parseNumber s with
  | some (n, rest) => (n, rest)
  | none => (0, s)

/-- The optional `-rcNUM`, `-betaNUM` or `-alphaNUM`; without it the type is
release and the number 0. -/
def parseRelease (s : List Char) : Release × List Char :=
  match cutPrefix "-rc".toList s with
  | some rest => ({ Typ := TypeRC, Num := (parseReleaseNum rest).1 }, (parseReleaseNum rest).2)
  | none =>
    match cutPrefix "-beta".toList s with
    | some rest =>
      ({ Typ := TypeBeta, Num := (parseReleaseNum rest).1 }, (parseReleaseNum rest).2)
    | none =>
      match cutPrefix "-alpha".toList s with
      | some rest =>
        ({ Typ := TypeAlpha, Num := (parseReleaseNum rest).1 }, (parseReleaseNum rest).2)
      | none => ({ Typ := TypeRelease, Num := 0 }, s)

/-- The mandatory three-digit revision `-rNNN`. -/
def parseRevision (s : List Char) : Option (Nat × List Char) :=
  match cutPrefix "-r".toList s with
  | some (a :: b :: c :: rest) =>
    if a.isDigit && b.isDigit && c.isDigit then some (digitsToNat [a, b, c], rest) else none
  | _ => none

/-- A lower-case hexadecimal digit. -/
def isHexDigit (c : Char) : Bool :=
  c.isDigit || ('a' ≤ c && c ≤ 'f')

/-- The optional commit hash suffix `-g<hex>`, which must end the text: the
hash (with its `g`), or nothing for a text that ends here. -/
def parseHash (s : List Char) : Option (List Char) :=
  match s with
  | [] => some []
  | _ :: _ =>
    match cutPrefix "-g".toList s with
    | some (h :: hex) => if (h :: hex).all isHexDigit then some ('g' :: h :: hex) else none
    | _ => none

/-- Modelled from the spec: the fields of a version text, or nothing for a text of
another shape (§4.5): `major.minor.patch`, an optional `-additional`, an optional
`-rcNUM` / `-betaNUM` / `-alphaNUM`, the mandatory `-rNNN`, an optional
`-g<hex>`; missing numbers are 0, a missing hash is empty, `Str` is the text
itself. -/
def parseVersion (verStr : List Char) : Option Version := do
  let (major, s1) ← parseNumber verStr
  let s2 ← cutPrefix ".".toList s1
  let (minor, s3) ← parseNumber s2
  let s4 ← cutPrefix ".".toList s3
  let (patch, s5) ← parseNumber s4
  let (additional, s6) := parseAdditional s5
  let (release, s7) := parseRelease s6
  let (revision, s8) ← parseRevision s7
  let hash ← parseHash s8
  pure { Major := major, Minor := minor, Patch := patch, Additional := additional,
         Revision := revision, Release := release, Hash := hash, Str := verStr,
         Tarball := [] }

/-- Modelled from the spec: `version.GetVersionDetails` of `cli/version`, which is not among
the sources. It parses a version text as §4.5 describes (`parseVersion`); a
text of another shape is a `VersionParseError`. -/
def GetVersionDetails (verStr : List Char) : Except Err Version :=
  match parseVersion verStr with
  | some version => Except.ok version
  | none => Except.error (Err.external "VersionParseError".toList)

/-! ## Catalog building (`install_ee.go`) -/

/-- A version text `major.minor.patch-additional-rNNN`. -/
def versionText (major minor patch additional : List Char) (n1 n2 n3 : Char) : List Char :=
  major ++ ('.' :: (minor ++ ('.' :: (patch ++ ('-' :: (additional ++ ['-', 'r', n1, n2, n3]))))))

/-- The file name `tarantool-enterprise-sdk-<version>.linux.<arch>.tar.gz`. -/
def linuxSdkName (version arch : List Char) : List Char :=
  "tarantool-enterprise-sdk-".toList ++ (version ++ (".linux.".toList ++
    (arch ++ ".tar.gz".toList)))

/-- All characters of the text are decimal digits, and there is at least one. -/
def isNumber (s : List Char) : Bool :=
  !s.isEmpty && s.all Char.isDigit

/-- The `for _, entry := range parsedData` loop of `getVersions`;
`getVersionDetails` stands for `version.GetVersionDetails`. -/
def collectVersions (getVersionDetails : List Char → Except Err Version) :
    List Caps → List EEVersion → Except Err (List EEVersion)
  | [], versions => Except.ok versions
  | entry :: rest, versions =>
    match getVersionDetails (capture entry 3) with
    | Except.error err => Except.error err
    | Except.ok version =>
      let version := { version with Tarball := capture entry 2 }
      let eeVersion : EEVersion := { VersionInfo := version, Prefix := capture entry 1 }
      collectVersions getVersionDetails rest (versions ++ [eeVersion])

/-- getVersions of `install_ee.go`: all available versions for the host
architecture, from the text of the collected references. The version parser
`version.GetVersionDetails` of `cli/version`, which is not among the sources,
is the parameter `getVersionDetails`; `getArch` and `getOs` are the results of
`util.GetArch` and `util.GetOs`. -/
def getVersions (getVersionDetails : List Char → Except Err Version)
    (getArch : Except Err (List Char)) (getOs : Except Err OsType)
    (data : List Char) : Except Err (List EEVersion) :=
  match compileVersionRegexp getArch getOs with
  | Except.error err => Except.error err
  | Except.ok re =>
    let parsedData := FindAllStringSubmatch re (TrimSpace data)
    if parsedData.length = 0 then
      Except.error (Err.text "no packages for this OS".toList)
    else
      match collectVersions getVersionDetails parsedData [] with
      | Except.error err => Except.error err
      | Except.ok versions => Except.ok (SortEEVersions versions)

/-- The library function `strings.Join`. -/
def Join : List (List Char) → List Char → List Char
  | [], _ => []
  | [a], _ => a
  | a :: b :: rest, sep => a ++ sep ++ Join (b :: rest) sep

/-- FetchVersions of `install_ee.go`, from the result of `getCreds` (whether
credentials were found) and the result of the crawl `collectBundleReferences`. -/
def FetchVersions (getVersionDetails : List Char → Except Err Version)
    (getCreds : Except Err Unit) (collected : Except Err (List (List Char)))
    (getArch : Except Err (List Char)) (getOs : Except Err OsType) :
    Except Err (List EEVersion) :=
  match getCreds with
  | Except.error err => Except.error err
  | Except.ok _ =>
    match collected with
    | Except.error err => Except.error err
    | Except.ok bundleReferences =>
      let resBody := Join bundleReferences "\n".toList
      match getVersions getVersionDetails getArch getOs resBody with
      | Except.error err => Except.error err
      | Except.ok versions => Except.ok versions

/-- The version `1.10.10-52-r419` of the ordering scenario (§8, scenario 6). -/
def v419 : EEVersion :=
  { VersionInfo :=
      { Major := 1
        Minor := 10
        Patch := 10
        Additional := 52
        Revision := 419
        Release := { Typ := TypeRelease, Num := 0 }
        Hash := []
        Str := "1.10.10-52-r419".toList
        Tarball := [] }
    Prefix := [] }

/-- The version `1.10.10-52-r420` of the ordering scenario. -/
def v420 : EEVersion :=
  { VersionInfo :=
      { Major := 1
        Minor := 10
        Patch := 10
        Additional := 52
        Revision := 420
        Release := { Typ := TypeRelease, Num := 0 }
        Hash := []
        Str := "1.10.10-52-r420".toList
        Tarball := [] }
    Prefix := [] }

/-- The version `1.10.10-rc1-r419` of the ordering scenario. -/
def vRC1 : EEVersion :=
  { VersionInfo :=
      { Major := 1
        Minor := 10
        Patch := 10
        Additional := 0
        Revision := 419
        Release := { Typ := TypeRC, Num := 1 }
        Hash := []
        Str := "1.10.10-rc1-r419".toList
        Tarball := [] }
    Prefix := [] }

/-- The version `v419` with a commit hash: same seven key fields, other `Hash`. -/
def v419Hashed : EEVersion :=
  { v419 with VersionInfo := { v419.VersionInfo with Hash := "g0df29b137".toList } }

/-! ## String queue (`queue.go`) -/

/-- The text of `emptyQueueError`. -/
def emptyQueueError : List Char := "empty queue".toList

/-- stringQueue of `queue.go`: a queue of strings. The mutex only serialises
the operations; each operation below is one such critical section, taking the
queue before it and giving the queue after it. -/
structure stringQueue where
  buf : List (List Char)
  deriving DecidableEq, Repr

/-- Insert of `queue.go`: inserts the passed value into the queue. -/
def stringQueue.Insert (q : stringQueue) (data : List Char) : stringQueue :=
  { buf := q.buf ++ [data] }

/-- InsertBatch of `queue.go`: inserts the passed slice of values into the queue. -/
def stringQueue.InsertBatch (q : stringQueue) (data : List (List Char)) : stringQueue :=
  { buf := q.buf ++ data }

/-- Pop of `queue.go`: takes the first element from the queue and removes it.
Returns the element (the empty string on failure), the error if any, and the
queue afterwards. -/
def stringQueue.Pop (q : stringQueue) : (List Char × Option Err) × stringQueue :=
  if q.buf.length = 0 then (([], some (Err.text emptyQueueError)), q)
  else
    match q.buf with
    | [] => (([], some (Err.text emptyQueueError)), q)
    | el :: rest => ((el, none), { buf := rest })

/-- GetAll of `queue.go`: returns all elements of the queue. Returns the slice
(`none` for a nil slice), the error if any, and the queue afterwards. -/
def stringQueue.GetAll (q : stringQueue) :
    (Option (List (List Char)) × Option Err) × stringQueue :=
  if q.buf.length = 0 then ((none, some (Err.text emptyQueueError)), q)
  else ((some q.buf, none), q)

/-- Len of `queue.go`: returns the length of the queue, and the queue afterwards. -/
def stringQueue.Len (q : stringQueue) : Nat × stringQueue :=
  (q.buf.length, q)

/-- One `Insert` for each value of the list, in order. -/
def insertEach (q : stringQueue) : List (List Char) → stringQueue
  | [] => q
  | x :: xs => insertEach (q.Insert x) xs

/-- The results of `n` successive calls of `Pop`, and the queue afterwards. -/
def popTimes : Nat → stringQueue → List (List Char × Option Err) × stringQueue
  | 0, q => ([], q)
  | n + 1, q => ((q.Pop).1 :: (popTimes n (q.Pop).2).1, (popTimes n (q.Pop).2).2)

/-! ## Single matches, the offline catalog and the short version (`install_ee.go`) -/

/-- The leftmost match of `re` in `s`: the matched text and the captures.
(As in `findAllFrom`, a match needs at least one character.) -/
def findFirst (re : Re) : List Char → Option (List Char × Caps)
  | [] => none
  | c :: s =>
    match matchAt re (c :: s) with
    | some m => some ((c :: s).take ((c :: s).length - m.1.length), m.2)
    | none => findFirst re s

/-- The library call `re.FindStringSubmatch(s)`: the captures of the leftmost match,
`none` for the nil slice returned when there is no match. -/
def FindStringSubmatch (re : Re) (s : List Char) : Option Caps :=
  match findFirst re s with
  | some m => some m.2
  | none => none

/-- The library call `re.FindString(s)`: the text of the leftmost match, the empty
string when there is no match. -/
def FindString (re : Re) (s : List Char) : List Char :=
  match findFirst re s with
  | some m => m.1
  | none => []

/-- The `for _, file := range files` loop of `FetchVersionsLocal`. -/
def collectLocal (getVersionDetails : List Char → Except Err Version) (re : Re) :
    List (List Char) → List EEVersion → Except Err (List EEVersion)
  | [], versions => Except.ok versions
  | file :: rest, versions =>
    match FindStringSubmatch re file with
    | none => collectLocal getVersionDetails re rest versions
    | some parsedData =>
      match getVersionDetails (capture parsedData 1) with
      | Except.error err => Except.error err
      | Except.ok version =>
        let version := { version with Tarball := file }
        let eeVer : EEVersion := { VersionInfo := version, Prefix := [] }
        collectLocal getVersionDetails re rest (versions ++ [eeVer])

/-- FetchVersionsLocal of `install_ee.go`: the versions of a list of file names. -/
def FetchVersionsLocal (getVersionDetails : List Char → Except Err Version)
    (getArch : Except Err (List Char)) (getOs : Except Err OsType)
    (files : List (List Char)) : Except Err (List EEVersion) :=
  match compileVersionRegexp getArch getOs with
  | Except.error err => Except.error err
  | Except.ok re =>
    match collectLocal getVersionDetails re files [] with
    | Except.error err => Except.error err
    | Except.ok versions => Except.ok (SortEEVersions versions)

/-- The pattern `(\d\.\d+)` of `getShortVersionFromBundleName`. -/
def shortVersionRe : Re :=
  Re.group 1 (Re.seqs [Re.chr CharClass.digit, Re.chr (CharClass.lit '.'),
    Re.plus CharClass.digit])

/-- getShortVersionFromBundleName of `install_ee.go`: parses the major and minor
version from the name of a bundle. -/
def getShortVersionFromBundleName (bundleName : List Char) : Except Err (List Char) :=
  let res := FindString shortVersionRe bundleName
  if res = [] then Except.error (Err.text "no version found".toList)
  else Except.ok res

/-- The success return of `collectBundleReferences`, `return bundleRefsQueue.GetAll()`,
as the value and error that `FetchVersions` receives. -/
def crawlReturn (bundleRefsQueue : stringQueue) : Except Err (List (List Char)) :=
  match (bundleRefsQueue.GetAll).1 with
  | (_, some err) => Except.error err
  | (some bundleReferences, none) => Except.ok bundleReferences
  | (none, none) => Except.ok []

/-- The text starts with a digit, a dot and a digit. -/
def shortVersionAt : List Char → Bool
  | a :: b :: c :: _ => a.isDigit && b == '.' && c.isDigit
  | _ => false

/-- Somewhere in the text there is a digit followed by a dot and a digit. -/
def hasShortVersion : List Char → Bool
  | [] => false
  | c :: s => shortVersionAt (c :: s) || hasShortVersion s

/-! ## Download request (`install_ee.go`, `GetTarantoolEE`) -/

/-- The elements of a path between its separators `/` (`strings.Split(path, "/")`). -/
def splitSlash : List Char → List (List Char)
  | [] => [[]]
  | c :: s =>
    if c = '/' then [] :: splitSlash s
    else
      match splitSlash s with
      | [] => [[c]]
      | h :: t => (c :: h) :: t

/-- One element in the lexical processing of the library function `filepath.Clean`; the
stack holds the elements kept so far, the last one first. An empty element (doubled
separator) and `.` are dropped, an inner `..` drops the element before it, a `..` at the
root is dropped, and a leading `..` of a relative path stays. -/
def cleanStep (rooted : Bool) (stack : List (List Char)) (elem : List Char) :
    List (List Char) :=
  if elem = [] ∨ elem = ".".toList then stack
  else if elem = "..".toList then
    match stack with
    | [] => if rooted then [] else [elem]
    | top :: below => if top = "..".toList then elem :: stack else below
  else elem :: stack

/-- The library function `filepath.Clean` on a system whose separator is `/`: the shortest
path equivalent to `path` by lexical processing; `.` for an empty result. -/
def Clean (path : List Char) : List Char :=
  let rooted := path.head? == some '/'
  let stack := (splitSlash path).foldl (cleanStep rooted) []
  let out := (if rooted then "/".toList else []) ++ Join stack.reverse "/".toList
  if out = [] then ".".toList else out

/-- The library function `filepath.Join`: the elements from the first non-empty one on,
joined with `/`, and the result cleaned; the empty string if all are empty. -/
def filepathJoin (elem : List (List Char)) : List Char :=
  match elem.dropWhile (fun e => e.isEmpty) with
  | [] => []
  | rest => Clean (Join rest "/".toList)

/-- The fields of `url.URL` that `GetTarantoolEE` uses. -/
structure URL where
  Scheme : List Char
  Host : List Char
  Path : List Char
  deriving DecidableEq, Repr

/-- The constant `eeSource`. -/
def eeSource : List Char := "https://download.tarantool.io/".toList

/-- The result of `url.Parse(eeSource)`. -/
def eeSourceURL : URL :=
  { Scheme := "https".toList, Host := "download.tarantool.io".toList, Path := "/".toList }

/-- The library predicate `shouldEscape(c, encodePath)` of `net/url`: letters, digits and
`- _ . ~ $ & + , / : ; = @` stay as they are. -/
def shouldEscapePath (c : Char) : Bool :=
  if c.isAlphanum then false
  else if c == '-' || c == '_' || c == '.' || c == '~' then false
  else if c == '$' || c == '&' || c == '+' || c == ',' || c == '/' || c == ':' || c == ';' ||
      c == '=' || c == '?' || c == '@' then c == '?'
  else true

/-- The hexadecimal digit of a value below 16, in upper case. -/
def upperHex (n : Nat) : Char :=
  "0123456789ABCDEF".toList.getD n '0'

/-- The escape `%XX` of one byte. -/
def escapeByte (b : Nat) : List Char :=
  ['%', upperHex (b / 16), upperHex (b % 16)]

/-- The library function `escape(s, encodePath)` of `net/url`: every byte of a character
that must be escaped becomes `%XX`. -/
def escapePath (s : List Char) : List Char :=
  s.flatMap (fun c =>
    if shouldEscapePath c then
      (String.utf8EncodeChar c).flatMap (fun b => escapeByte b.toNat)
    else [c])

/-- The library method `(*URL).String` for a URL with scheme and host and without user,
query and fragment: `scheme://host`, a `/` if the path does not begin with one, and the
escaped path. (The host here is a fixed name that needs no escaping.) -/
def URL.String (u : URL) : List Char :=
  let path := if u.Path = "*".toList then "*".toList else escapePath u.Path
  u.Scheme ++ ":".toList ++ "//".toList ++ u.Host ++
    (if path ≠ [] ∧ path.head? ≠ some '/' ∧ u.Host ≠ [] then "/".toList else []) ++ path

/-- GetTarantoolEE of `install_ee.go` up to `client.Do(req)`: the error returned before
the request is sent, or the URL that is requested. `dstExists` and `dstIsDir` are the
results of `os.Stat` and `util.IsDir` for `dst`, `getCreds` the result of `getCreds`. -/
def GetTarantoolEE (dstExists dstIsDir : Bool) (getCreds : Except Err Unit)
    (bundleName bundleSource dst : List Char) : Except Err (List Char) :=
  if !dstExists then Except.error (Err.text ("directory doesn't exist: ".toList ++ dst))
  else if !dstIsDir then Except.error (Err.text ("incorrect path: ".toList ++ dst))
  else
    match getCreds with
    | Except.error err => Except.error err
    | Except.ok _ =>
      let source := eeSourceURL
      let source := { source with Path := bundleSource }
      let source := { source with Path := filepathJoin [source.Path, bundleName] }
      Except.ok source.String

/-- An element of a path that `filepath.Clean` keeps as it is. -/
def plainElem (elem : List Char) : Bool :=
  !elem.isEmpty && elem != ".".toList && elem != "..".toList

/-- A rooted path that is already clean: it begins with `/`, and its elements are
non-empty and neither `.` nor `..`. -/
def cleanRooted (path : List Char) : Bool :=
  match splitSlash path with
  | [] :: elems => !elems.isEmpty && elems.all plainElem
  | _ => false

/-- The numbers of the capturing groups of a pattern. -/
def Re.groups : Re → List Nat
  | Re.eps => []
  | Re.chr _ => []
  | Re.star _ => []
  | Re.seq r1 r2 => Re.groups r1 ++ Re.groups r2
  | Re.alt r1 r2 => Re.groups r1 ++ Re.groups r2
  | Re.opt r => Re.groups r
  | Re.group n r => n :: Re.groups r

/-! ## Crawl coordination (`crawler.go`, `collectBundleReferences` and `crawlWorker`) -/

/-- The constant `eeCommonPrefix`. -/
def eeCommonPrefix : List Char := "/enterprise/".toList

/-- The constant `eeReleasePrefix`. -/
def eeReleasePrefix : List Char := "/enterprise/release/".toList

/-- The constant `eeDebugPrefix`. -/
def eeDebugPrefix : List Char := "/enterprise/debug/".toList

/-- The constant `eeDevPrefix`. -/
def eeDevPrefix : List Char := "/enterprise/dev/".toList

/-- The constant `eeMacosOldPrefix`. -/
def eeMacosOldPrefix : List Char := "/enterprise-macos/".toList

/-- The number of workers, `runtime.GOMAXPROCS(0) * 5`. -/
def vProcCount (gomaxprocs : Nat) : Nat := gomaxprocs * 5

/-- Where a `crawlWorker` goroutine stands: at its `select`; with a received path, before
`findReferences` returns; before `prefixQueue.InsertBatch(crawlUrls)`; before
`resultQueue.InsertBatch(foundReferences)`; before `freeAtomic.Set()`; before
`errChan <- err`; returned after an error; returned on `ctx.Done()`. -/
inductive WorkerPc where
  | waiting
  | fetching (path : List Char)
  | pushPrefixes (foundReferences crawlUrls : List (List Char))
  | pushResults (foundReferences : List (List Char))
  | setFree
  | sendErr (err : Err)
  | failed
  | done
  deriving DecidableEq, Repr

/-- Where the dispatch loop of `collectBundleReferences` stands: at the `select` on
`errChan`; before `freeAtomicSl[i].IsSet()`; before `prefixQueue.Pop()`; before
`freeAtomicSl[i].Unset()`; before `prefixChanSl[i] <- path`; with
`countFree == vProcCount`, before `cancel()`; before `return bundleRefsQueue.GetAll()`;
returned from there; with an error received, before `cancel()`; returned with that error. -/
inductive CoordPc where
  | selectErr
  | isSet (i countFree : Nat)
  | pop (i countFree : Nat)
  | unset (i countFree : Nat) (path : List Char)
  | send (i countFree : Nat) (path : List Char)
  | cancelAll
  | getAll
  | returnedAll (res : Except Err (List (List Char)))
  | cancelErr (err : Err)
  | returnedErr (err : Err)
  deriving DecidableEq, Repr

/-- The dispatch loop is at or behind its success return. -/
def CoordPc.succeeded : CoordPc → Bool
  | CoordPc.cancelAll => true
  | CoordPc.getAll => true
  | CoordPc.returnedAll _ => true
  | _ => false

/-- The dispatch loop is behind a call of `cancel()`. -/
def CoordPc.cancelDone : CoordPc → Bool
  | CoordPc.getAll => true
  | CoordPc.returnedAll _ => true
  | CoordPc.returnedErr _ => true
  | _ => false

/-- The worker holds no path: it waits at its `select`, or it returned on `ctx.Done()`. -/
def WorkerPc.idle : WorkerPc → Bool
  | WorkerPc.waiting => true
  | WorkerPc.done => true
  | _ => false

/-- The shared state of a crawl: the dispatch loop, the workers, the atomic flags, the
channels of capacity one (`none` for an empty channel), the two queues, the error channel
and whether the context is cancelled. Workers, flags and channels are indexed by the
worker number. -/
structure CrawlState where
  coord : CoordPc
  workers : Nat → WorkerPc
  freeAtomicSl : Nat → Bool
  prefixChanSl : Nat → Option (List Char)
  prefixQueue : stringQueue
  bundleRefsQueue : stringQueue
  errChan : List Err
  cancelled : Bool

/-- The state of `collectBundleReferences` for the host system `osType` when the workers
have been started: the traversal queue holds the seed paths, every flag is set, every
channel is empty. -/
def startCrawl (osType : OsType) : CrawlState :=
  { coord := CoordPc.selectErr
    workers := fun _ => WorkerPc.waiting
    freeAtomicSl := fun _ => true
    prefixChanSl := fun _ => none
    prefixQueue :=
      if osType = OsType.OsMacos then
        stringQueue.InsertBatch { buf := [] }
          [eeReleasePrefix, eeDebugPrefix, eeDevPrefix, eeMacosOldPrefix]
      else stringQueue.Insert { buf := [] } eeCommonPrefix
    bundleRefsQueue := { buf := [] }
    errChan := []
    cancelled := false }

/-- One atomic step of the dispatch loop of `collectBundleReferences` with `n` workers.
A send to a full channel blocks: the state stays as it is. -/
def coordStep (n : Nat) (s : CrawlState) : CrawlState :=
  match s.coord with
  | CoordPc.selectErr =>
    match s.errChan with
    | err :: rest => { s with errChan := rest, coord := CoordPc.cancelErr err }
    | [] => { s with coord := CoordPc.isSet 0 0 }
  | CoordPc.isSet i countFree =>
    if i < n then
      if s.freeAtomicSl i then { s with coord := CoordPc.pop i countFree }
      else { s with coord := CoordPc.isSet (i + 1) countFree }
    else { s with coord := CoordPc.selectErr }
  | CoordPc.pop i countFree =>
    match s.prefixQueue.Pop with
    | ((_, some _), q) =>
      if countFree + 1 = n then { s with prefixQueue := q, coord := CoordPc.cancelAll }
      else { s with prefixQueue := q, coord := CoordPc.isSet (i + 1) (countFree + 1) }
    | ((path, none), q) => { s with prefixQueue := q, coord := CoordPc.unset i countFree path }
  | CoordPc.unset i countFree path =>
    { s with freeAtomicSl := Function.update s.freeAtomicSl i false,
             coord := CoordPc.send i countFree path }
  | CoordPc.send i countFree path =>
    match s.prefixChanSl i with
    | none =>
      { s with prefixChanSl := Function.update s.prefixChanSl i (some path),
               coord := CoordPc.isSet (i + 1) countFree }
    | some _ => s
  | CoordPc.cancelAll => { s with cancelled := true, coord := CoordPc.getAll }
  | CoordPc.getAll => { s with coord := CoordPc.returnedAll (crawlReturn s.bundleRefsQueue) }
  | CoordPc.cancelErr err => { s with cancelled := true, coord := CoordPc.returnedErr err }
  | CoordPc.returnedAll _ => s
  | CoordPc.returnedErr _ => s

/-- One atomic step of the worker `i` (`crawlWorker`). `res` is the answer to its request
if the step is the call of `findReferences` (an error of `url.Parse` or `http.NewRequest`
has the effect of a failed request); `takeDone` tells whether the `select` takes
`ctx.Done()` when a path is ready as well. A worker with nothing to receive blocks. -/
def workerStep (searchCtx : SearchEECtx) (getOs : Except Err OsType) (i : Nat)
    (res : HttpResult) (takeDone : Bool) (s : CrawlState) : CrawlState :=
  match s.workers i with
  | WorkerPc.waiting =>
    match s.prefixChanSl i with
    | some path =>
      if s.cancelled && takeDone then
        { s with workers := Function.update s.workers i WorkerPc.done }
      else
        { s with prefixChanSl := Function.update s.prefixChanSl i none,
                 workers := Function.update s.workers i (WorkerPc.fetching path) }
    | none =>
      if s.cancelled then { s with workers := Function.update s.workers i WorkerPc.done }
      else s
  | WorkerPc.fetching _ =>
    match findReferences searchCtx res getOs with
    | Except.error err =>
      { s with workers := Function.update s.workers i (WorkerPc.sendErr err) }
    | Except.ok (foundReferences, crawlUrls) =>
      { s with workers :=
          Function.update s.workers i (WorkerPc.pushPrefixes foundReferences crawlUrls) }
  | WorkerPc.pushPrefixes foundReferences crawlUrls =>
    { s with prefixQueue := s.prefixQueue.InsertBatch crawlUrls,
             workers := Function.update s.workers i (WorkerPc.pushResults foundReferences) }
  | WorkerPc.pushResults foundReferences =>
    { s with bundleRefsQueue := s.bundleRefsQueue.InsertBatch foundReferences,
             workers := Function.update s.workers i WorkerPc.setFree }
  | WorkerPc.setFree =>
    { s with freeAtomicSl := Function.update s.freeAtomicSl i true,
             workers := Function.update s.workers i WorkerPc.waiting }
  | WorkerPc.sendErr err =>
    { s with errChan := s.errChan ++ [err],
             workers := Function.update s.workers i WorkerPc.failed }
  | WorkerPc.failed => s
  | WorkerPc.done => s

/-- What the scheduler does next: the dispatch loop takes a step, or the worker `i`
takes one (with the answer to its request and its choice at the `select`). -/
inductive CrawlEvent where
  | coordinator
  | worker (i : Nat) (res : HttpResult) (takeDone : Bool)

/-- One step of the crawl with `n` workers. -/
def crawlStep (searchCtx : SearchEECtx) (getOs : Except Err OsType) (n : Nat)
    (s : CrawlState) : CrawlEvent → CrawlState
  | CrawlEvent.coordinator => coordStep n s
  | CrawlEvent.worker i res takeDone =>
    if i < n then workerStep searchCtx getOs i res takeDone s else s

/-- The crawl under a schedule: the steps are taken in the order of the list. -/
def crawlRun (searchCtx : SearchEECtx) (getOs : Except Err OsType) (n : Nat)
    (events : List CrawlEvent) (s : CrawlState) : CrawlState :=
  events.foldl (crawlStep searchCtx getOs n) s

/-- What holds at each point of the dispatch loop with `n` workers: `countFree` counts
workers below `i`, and when it counts all of them their flags are set; at the `Pop` and
the `Unset` the flag of worker `i` is set; at the send the worker `i` waits with an empty
channel; at and behind the success return all flags are set and the traversal queue is
empty, and the returned value is the content of the results queue. -/
def coordInv (n : Nat) (s : CrawlState) : CoordPc → Prop
  | CoordPc.isSet i countFree =>
    countFree ≤ i ∧ (countFree = i → ∀ j, j < i → s.freeAtomicSl j = true)
  | CoordPc.pop i countFree =>
    i < n ∧ countFree ≤ i ∧ s.freeAtomicSl i = true ∧
      (countFree = i → ∀ j, j < i → s.freeAtomicSl j = true)
  | CoordPc.unset i countFree _ => i < n ∧ countFree ≤ i ∧ s.freeAtomicSl i = true
  | CoordPc.send i countFree _ =>
    i < n ∧ countFree ≤ i ∧ s.freeAtomicSl i = false ∧ s.workers i = WorkerPc.waiting ∧
      s.prefixChanSl i = none
  | CoordPc.cancelAll => (∀ j, j < n → s.freeAtomicSl j = true) ∧ s.prefixQueue.buf = []
  | CoordPc.getAll => (∀ j, j < n → s.freeAtomicSl j = true) ∧ s.prefixQueue.buf = []
  | CoordPc.returnedAll res =>
    (∀ j, j < n → s.freeAtomicSl j = true) ∧ s.prefixQueue.buf = [] ∧
      res = crawlReturn s.bundleRefsQueue
  | _ => True

/-- The invariant of the crawl with `n` workers: a worker whose flag is set holds no path
and its channel is empty; a path waits in a channel only for a worker that holds none;
the context is cancelled only behind a call of `cancel()`; a worker returns on
`ctx.Done()` only when the context is cancelled; and `coordInv` holds. -/
structure CrawlInv (n : Nat) (s : CrawlState) : Prop where
  free_idle : ∀ i, s.freeAtomicSl i = true →
    (s.workers i).idle = true ∧ s.prefixChanSl i = none
  chan_idle : ∀ i, s.prefixChanSl i ≠ none → (s.workers i).idle = true
  cancelled_coord : s.cancelled = true → s.coord.cancelDone = true
  done_cancelled : ∀ i, s.workers i = WorkerPc.done → s.cancelled = true
  coord_inv : coordInv n s s.coord

/-- A page with one bundle link. -/
def bundlePage : List Token :=
  [ { Typ := TokenType.StartTagToken, Data := "a".toList,
      Attr := [{ Key := "href".toList,
                 Val := "/enterprise/tarantool-enterprise-sdk-1.10.10-52-r419.linux.x86_64.tar.gz".toList }] } ]

/-- A schedule for five workers on Linux: the dispatch loop hands the seed path to
worker 0 and finishes its pass, worker 0 processes the path, and the dispatch loop makes
a second pass, in which it finds every worker free and the queue empty, and returns. -/
def sampleSchedule : List CrawlEvent :=
  List.replicate 14 CrawlEvent.coordinator ++
    List.replicate 5 (CrawlEvent.worker 0 (HttpResult.response 200 bundlePage) false) ++
    List.replicate 13 CrawlEvent.coordinator

/-! ## Properties of the version order -/

theorem less_iff_keyTuple_lt (a b : EEVersion) :
    less a b = true ↔ keyTuple a < keyTuple b := by
  simp only [less, sortKey, keyTuple, lessLoop, Prod.Lex.lt_iff, ofLex_toLex]
  simp
  split_ifs <;> simp_all
  all_goals omega

section StableSort

variable {α β : Type} [LinearOrder β] (lt : α → α → Bool) (k : α → β)

theorem mem_insertStable (a x : α) (l : List α) :
    x ∈ insertStable lt a l ↔ x = a ∨ x ∈ l := by
  induction l with
  | nil => simp [insertStable]
  | cons b l ih =>
    unfold insertStable
    split_ifs
    · simp only [List.mem_cons, ih]; tauto
    · simp only [List.mem_cons]

theorem pairwise_insertStable (hlt : ∀ a b, lt a b = true ↔ k a < k b) (a : α) (l : List α)
    (hl : l.Pairwise (fun x y => k x ≤ k y)) :
    (insertStable lt a l).Pairwise (fun x y => k x ≤ k y) := by
  induction l with
  | nil => simp [insertStable]
  | cons b l ih =>
    rw [List.pairwise_cons] at hl
    unfold insertStable
    split_ifs with h
    · rw [List.pairwise_cons]
      refine ⟨fun x hx => ?_, ih hl.2⟩
      rcases (mem_insertStable lt a x l).1 hx with rfl | hx
      · exact le_of_lt ((hlt _ _).1 h)
      · exact hl.1 x hx
    · have hab : k a ≤ k b := not_lt.1 (fun hc => h ((hlt _ _).2 hc))
      rw [List.pairwise_cons]
      refine ⟨fun x hx => ?_, List.pairwise_cons.2 hl⟩
      rcases List.mem_cons.1 hx with rfl | hx
      · exact hab
      · exact le_trans hab (hl.1 x hx)

theorem pairwise_sliceStable (hlt : ∀ a b, lt a b = true ↔ k a < k b) (l : List α) :
    (sliceStable lt l).Pairwise (fun x y => k x ≤ k y) := by
  induction l with
  | nil => simp [sliceStable]
  | cons a l ih => exact pairwise_insertStable lt k hlt a _ ih

theorem perm_insertStable (a : α) (l : List α) : (insertStable lt a l).Perm (a :: l) := by
  induction l with
  | nil => simp [insertStable]
  | cons b l ih =>
    unfold insertStable
    split_ifs
    · exact ((List.Perm.cons b ih).trans (List.Perm.swap a b l))
    · exact List.Perm.refl _

theorem perm_sliceStable (l : List α) : (sliceStable lt l).Perm l := by
  induction l with
  | nil => simp [sliceStable]
  | cons a l ih => exact (perm_insertStable lt a _).trans (List.Perm.cons a ih)

theorem filter_insertStable (hlt : ∀ a b, lt a b = true ↔ k a < k b) (c : β) (a : α)
    (l : List α) :
    (insertStable lt a l).filter (fun x => decide (k x = c)) =
      (a :: l).filter (fun x => decide (k x = c)) := by
  induction l with
  | nil => simp [insertStable]
  | cons b l ih =>
    unfold insertStable
    split_ifs with h
    · have hba : k b < k a := (hlt _ _).1 h
      by_cases hb : k b = c
      · have ha : k a ≠ c := fun hc => absurd hba (by rw [hb, hc]; exact lt_irrefl _)
        rw [List.filter_cons, ih]
        simp [List.filter_cons, hb, ha]
      · rw [List.filter_cons, ih]
        simp [List.filter_cons, hb]
    · rfl

theorem filter_sliceStable (hlt : ∀ a b, lt a b = true ↔ k a < k b) (c : β) (l : List α) :
    (sliceStable lt l).filter (fun x => decide (k x = c)) =
      l.filter (fun x => decide (k x = c)) := by
  induction l with
  | nil => simp [sliceStable]
  | cons a l ih =>
    show (insertStable lt a (sliceStable lt l)).filter _ = _
    rw [filter_insertStable lt k hlt c a, List.filter_cons, List.filter_cons, ih]

theorem sliceStable_eq_self_of_pairwise (hlt : ∀ a b, lt a b = true ↔ k a < k b)
    (l : List α) (hl : l.Pairwise (fun x y => k x ≤ k y)) : sliceStable lt l = l := by
  induction l with
  | nil => rfl
  | cons a l ih =>
    rw [List.pairwise_cons] at hl
    show insertStable lt a (sliceStable lt l) = a :: l
    rw [ih hl.2]
    cases l with
    | nil => rfl
    | cons b l =>
      have hab : k a ≤ k b := hl.1 b (List.mem_cons_self _ _)
      have : lt b a = false := by
        cases hc : lt b a
        · rfl
        · exact absurd ((hlt _ _).1 hc) (not_lt.2 hab)
      simp [insertStable, this]

end StableSort

theorem sortKey_eq_iff (a b : EEVersion) : sortKey a = sortKey b ↔ keyTuple a = keyTuple b := by
  simp only [sortKey, keyTuple, List.cons.injEq, and_true, EmbeddingLike.apply_eq_iff_eq,
    Prod.mk.injEq]

/-- C2 (as stated, refuted): `v419` and `v419Hashed` are distinct versions (they differ in
`Hash`), yet neither is less than the other. -/
theorem less_not_total_on_versions :
    v419 ≠ v419Hashed ∧ less v419 v419Hashed = false ∧ less v419Hashed v419 = false := by
  decide

/-- C2 (amended): `less` is irreflexive and transitive; of two versions whose seven key
fields differ exactly one is less than the other, and of two versions whose seven key
fields agree neither is. -/
theorem less_strict_weak_order :
    (∀ a : EEVersion, less a a = false) ∧
    (∀ a b c : EEVersion, less a b = true → less b c = true → less a c = true) ∧
    (∀ a b : EEVersion, sortKey a ≠ sortKey b →
      (less a b = true ∧ less b a = false) ∨ (less a b = false ∧ less b a = true)) ∧
    (∀ a b : EEVersion, sortKey a = sortKey b → less a b = false ∧ less b a = false) := by
  have hf : ∀ a b : EEVersion, less a b = false ↔ ¬ keyTuple a < keyTuple b := by
    intro a b
    rw [← less_iff_keyTuple_lt]
    simp
  refine ⟨fun a => ?_, fun a b c hab hbc => ?_, fun a b hne => ?_, fun a b he => ?_⟩
  · exact (hf a a).2 (lt_irrefl _)
  · rw [less_iff_keyTuple_lt] at *
    exact lt_trans hab hbc
  · rw [Ne, sortKey_eq_iff] at hne
    rw [less_iff_keyTuple_lt, less_iff_keyTuple_lt, hf, hf]
    rcases lt_or_gt_of_ne hne with h | h
    · exact Or.inl ⟨h, not_lt.2 (le_of_lt h)⟩
    · exact Or.inr ⟨not_lt.2 (le_of_lt h), h⟩
  · rw [sortKey_eq_iff] at he
    rw [hf, hf, he]
    exact ⟨lt_irrefl _, lt_irrefl _⟩

/-- Witness of C2 (amended) at `v419`, `v420`, `vRC1` and `v419Hashed`. -/
theorem less_strict_weak_order_witness :
    less vRC1 v419 = true ∧ less v419 v420 = true ∧ less vRC1 v420 = true ∧
    sortKey v419 = sortKey v419Hashed ∧ less v419 v419Hashed = false :=
  ⟨by decide, by decide,
    less_strict_weak_order.2.1 vRC1 v419 v420 (by decide) (by decide),
    by decide, (less_strict_weak_order.2.2.2 v419 v419Hashed (by decide)).1⟩

/-- C3: `SortEEVersions` is stable: for every key, the versions carrying these seven key
fields come out of the sort in the order in which they went in. -/
theorem SortEEVersions_stable (versions : List EEVersion) (key : List Nat) :
    (SortEEVersions versions).filter (fun v => decide (sortKey v = key)) =
      versions.filter (fun v => decide (sortKey v = key)) := by
  by_cases hk : ∃ w : EEVersion, sortKey w = key
  · obtain ⟨w, rfl⟩ := hk
    have h := filter_sliceStable less keyTuple less_iff_keyTuple_lt (keyTuple w) versions
    have e : (fun v : EEVersion => decide (sortKey v = sortKey w)) =
        (fun v => decide (keyTuple v = keyTuple w)) := by
      funext v
      simp only [sortKey_eq_iff]
    rw [e]
    exact h
  · have e : (fun v : EEVersion => decide (sortKey v = key)) = (fun _ => false) := by
      funext v
      exact decide_eq_false (fun h => hk ⟨v, h⟩)
    rw [e]
    simp

/-! ## Properties of the link classifier -/

theorem HasPrefix_iff (s p : List Char) : HasPrefix s p = true ↔ p <+: s := by
  induction p generalizing s with
  | nil => cases s <;> simp [HasPrefix]
  | cons d p ih =>
    cases s with
    | nil => simp [HasPrefix]
    | cons c s =>
      simp only [HasPrefix, Bool.and_eq_true, beq_iff_eq, ih, List.cons_prefix_cons]
      exact ⟨fun h => ⟨h.1.symm, h.2⟩, fun h => ⟨h.1.symm, h.2⟩⟩

theorem Contains_iff (s substr : List Char) : Contains s substr = true ↔ substr <:+: s := by
  induction s with
  | nil => simp [Contains, HasPrefix_iff]
  | cons c s ih =>
    simp only [Contains, Bool.or_eq_true, HasPrefix_iff, ih, List.infix_cons_iff]

theorem Contains_eq_decide (s substr : List Char) :
    Contains s substr = decide (substr <:+: s) := by
  cases h : Contains s substr
  · exact (decide_eq_false (fun hc => by rw [(Contains_iff s substr).2 hc] at h; cases h)).symm
  · exact (decide_eq_true ((Contains_iff s substr).1 h)).symm

theorem scanTokens_eq (searchCtx : SearchEECtx) (host : OsType) (body : List Token) :
    ∀ downloadUrls traverseUrls : List (List Char),
      scanTokens searchCtx (otherOs host) body downloadUrls traverseUrls =
        (downloadUrls ++ (anchorHrefs body).filter (downloadRule searchCtx host),
         traverseUrls ++ (anchorHrefs body).filter (traverseRule searchCtx host)) := by
  induction body with
  | nil => intro d t; simp [scanTokens, anchorHrefs]
  | cons token rest ih =>
    intro d t
    unfold scanTokens anchorHrefs
    cases hty : token.Typ
    case StartTagToken =>
      simp only [reduceCtorEq, if_false, true_and]
      by_cases hdata : token.Data = "a".toList
      · rw [if_pos hdata]
        have hb : (!(token.Data == "a".toList)) = false := by simp [hdata]
        rw [hb]
        simp only [Bool.false_eq_true, if_false]
        cases hh : getHref token with
        | none => simp only [ih]
        | some hrefValue =>
          simp only [Contains_eq_decide]
          have hd : downloadRule searchCtx host hrefValue =
              (!(devChannel hrefValue && !searchCtx.Dev) &&
                !(debugChannel hrefValue && !searchCtx.Dbg) &&
                bundleLink hrefValue && !backLink hrefValue && !wrongOsLink host hrefValue &&
                !checksumLink hrefValue && !selfLink hrefValue) := rfl
          have ht : traverseRule searchCtx host hrefValue =
              (!(devChannel hrefValue && !searchCtx.Dev) &&
                !(debugChannel hrefValue && !searchCtx.Dbg) &&
                !bundleLink hrefValue && !backLink hrefValue && !wrongOsLink host hrefValue &&
                !selfLink hrefValue) := rfl
          simp only [List.filter_cons, hd, ht, devChannel, debugChannel, bundleLink, backLink,
            wrongOsLink, checksumLink, selfLink, ih]
          cases searchCtx.Dev <;> cases searchCtx.Dbg <;>
            cases decide ("/dev/".toList <:+: hrefValue) <;>
            cases decide ("/debug/".toList <:+: hrefValue) <;>
            cases decide (".tar.gz".toList <:+: hrefValue) <;>
            cases decide ("../".toList <:+: hrefValue) <;>
            cases decide ("/".toList ++ otherOs host ++ "/".toList <:+: hrefValue) <;>
            cases decide (".sha256".toList <:+: hrefValue) <;>
            cases decide ("./".toList <:+: hrefValue) <;>
            simp
      · rw [if_neg hdata]
        have hb : (token.Data == "a".toList) = false := beq_false_of_ne hdata
        rw [hb]
        simp only [Bool.not_false, if_true, ih]
    all_goals simp [ih]

theorem findReferences_ok (searchCtx : SearchEECtx) (host : OsType) (body : List Token) :
    findReferences searchCtx (HttpResult.response 200 body) (Except.ok host) =
      Except.ok ((anchorHrefs body).filter (downloadRule searchCtx host),
        (anchorHrefs body).filter (traverseRule searchCtx host)) := by
  have havoid : (if host = OsType.OsLinux then "macos".toList else "linux".toList) =
      otherOs host := by
    cases host <;> rfl
  simp only [findReferences, ne_eq, not_true_eq_false, if_false, havoid, scanTokens_eq,
    List.nil_append]

theorem findReferences_inv (searchCtx : SearchEECtx) (res : HttpResult)
    (getOs : Except Err OsType) (downloadUrls traverseUrls : List (List Char))
    (h : findReferences searchCtx res getOs = Except.ok (downloadUrls, traverseUrls)) :
    ∃ host body, getOs = Except.ok host ∧
      downloadUrls = (anchorHrefs body).filter (downloadRule searchCtx host) ∧
      traverseUrls = (anchorHrefs body).filter (traverseRule searchCtx host) := by
  cases res with
  | failed err => simp [findReferences] at h
  | response code body =>
    by_cases hc : code = 200
    · subst hc
      cases getOs with
      | error err => simp [findReferences] at h
      | ok host =>
        rw [findReferences_ok] at h
        injection h with h
        injection h with h1 h2
        exact ⟨host, body, rfl, h1.symm, h2.symm⟩
    · simp [findReferences, hc] at h

theorem rule_of_mem (searchCtx : SearchEECtx) (host : OsType) (body : List Token)
    (href : List Char)
    (h : href ∈ (anchorHrefs body).filter (downloadRule searchCtx host) ++
      (anchorHrefs body).filter (traverseRule searchCtx host)) :
    downloadRule searchCtx host href = true ∨ traverseRule searchCtx host href = true := by
  rcases List.mem_append.1 h with h | h
  · exact Or.inl (List.mem_filter.1 h).2
  · exact Or.inr (List.mem_filter.1 h).2

/-- C4: for every page and all search options, `findReferences` returns as its traverse
list exactly the anchor hrefs, in document order, that pass both channel checks and are
no bundle, back, wrong-OS or self link, and as its download list exactly those that pass
both channel checks, are a bundle link and no back, wrong-OS, checksum or self link; an
href is in a list only if it satisfies that list's rule. -/
theorem findReferences_classifies (searchCtx : SearchEECtx) (host : OsType)
    (body : List Token) :
    findReferences searchCtx (HttpResult.response 200 body) (Except.ok host) =
      Except.ok ((anchorHrefs body).filter (downloadRule searchCtx host),
        (anchorHrefs body).filter (traverseRule searchCtx host)) ∧
    (∀ href : List Char, traverseRule searchCtx host href =
      (!(decide ("/dev/".toList <:+: href) && !searchCtx.Dev) &&
       !(decide ("/debug/".toList <:+: href) && !searchCtx.Dbg) &&
       !decide (".tar.gz".toList <:+: href) && !decide ("../".toList <:+: href) &&
       !decide ("/".toList ++ otherOs host ++ "/".toList <:+: href) &&
       !decide ("./".toList <:+: href))) ∧
    (∀ href : List Char, downloadRule searchCtx host href =
      (!(decide ("/dev/".toList <:+: href) && !searchCtx.Dev) &&
       !(decide ("/debug/".toList <:+: href) && !searchCtx.Dbg) &&
       decide (".tar.gz".toList <:+: href) && !decide ("../".toList <:+: href) &&
       !decide ("/".toList ++ otherOs host ++ "/".toList <:+: href) &&
       !decide (".sha256".toList <:+: href) && !decide ("./".toList <:+: href))) :=
  ⟨findReferences_ok searchCtx host body, fun _ => rfl, fun _ => rfl⟩

/-- C5: if `Dev` is false no href in either list returned by `findReferences` contains
`/dev/`, and if `Dbg` is false none contains `/debug/`. -/
theorem findReferences_channels (searchCtx : SearchEECtx) (res : HttpResult)
    (getOs : Except Err OsType) (downloadUrls traverseUrls : List (List Char))
    (h : findReferences searchCtx res getOs = Except.ok (downloadUrls, traverseUrls)) :
    (searchCtx.Dev = false →
      ∀ href ∈ downloadUrls ++ traverseUrls, ¬ "/dev/".toList <:+: href) ∧
    (searchCtx.Dbg = false →
      ∀ href ∈ downloadUrls ++ traverseUrls, ¬ "/debug/".toList <:+: href) := by
  obtain ⟨host, body, -, rfl, rfl⟩ := findReferences_inv searchCtx res getOs _ _ h
  constructor
  · intro hdev href hmem hin
    have hd : devChannel href = true := decide_eq_true hin
    have hr := rule_of_mem searchCtx host body href hmem
    simp [downloadRule, traverseRule, hdev, hd] at hr
  · intro hdbg href hmem hin
    have hd : debugChannel href = true := decide_eq_true hin
    have hr := rule_of_mem searchCtx host body href hmem
    simp [downloadRule, traverseRule, hdbg, hd] at hr

/-- Witness of C5 on the sample page, with `Dev` and `Dbg` both false. -/
theorem findReferences_channels_witness :
    findReferences ⟨false, false⟩ (HttpResult.response 200 samplePage)
        (Except.ok OsType.OsLinux) =
      Except.ok (["/e/linux/sdk-r1.tar.gz".toList], ["/enterprise/release/".toList]) ∧
    (∀ href ∈ ["/e/linux/sdk-r1.tar.gz".toList] ++ ["/enterprise/release/".toList],
      ¬ "/dev/".toList <:+: href) ∧
    (∀ href ∈ ["/e/linux/sdk-r1.tar.gz".toList] ++ ["/enterprise/release/".toList],
      ¬ "/debug/".toList <:+: href) :=
  ⟨rfl,
   (findReferences_channels ⟨false, false⟩ (HttpResult.response 200 samplePage)
      (Except.ok OsType.OsLinux) _ _ (rfl)).1 rfl,
   (findReferences_channels ⟨false, false⟩ (HttpResult.response 200 samplePage)
      (Except.ok OsType.OsLinux) _ _ (rfl)).2 rfl⟩

/-- C6: on a Linux host no href in the traverse or download list returned by
`findReferences` contains `/macos/`, and on a macOS host none contains `/linux/`. -/
theorem findReferences_host_os (searchCtx : SearchEECtx) (res : HttpResult) (host : OsType)
    (downloadUrls traverseUrls : List (List Char))
    (h : findReferences searchCtx res (Except.ok host) =
      Except.ok (downloadUrls, traverseUrls)) :
    (host = OsType.OsLinux →
      ∀ href ∈ downloadUrls ++ traverseUrls, ¬ "/macos/".toList <:+: href) ∧
    (host = OsType.OsMacos →
      ∀ href ∈ downloadUrls ++ traverseUrls, ¬ "/linux/".toList <:+: href) := by
  obtain ⟨host', body, hos, rfl, rfl⟩ := findReferences_inv searchCtx res _ _ _ h
  injection hos with hos
  subst hos
  constructor
  · intro hh href hmem hin
    subst hh
    have hw : wrongOsLink OsType.OsLinux href = true := decide_eq_true hin
    have hr := rule_of_mem searchCtx _ body href hmem
    simp [downloadRule, traverseRule, hw] at hr
  · intro hh href hmem hin
    subst hh
    have hw : wrongOsLink OsType.OsMacos href = true := decide_eq_true hin
    have hr := rule_of_mem searchCtx _ body href hmem
    simp [downloadRule, traverseRule, hw] at hr

/-- Witness of C6 on the sample page, on a macOS host with every channel included. -/
theorem findReferences_host_os_witness :
    findReferences ⟨true, true⟩ (HttpResult.response 200 samplePage)
        (Except.ok OsType.OsMacos) =
      Except.ok (["/e/macos/sdk-r1.tar.gz".toList],
        ["/enterprise/release/".toList, "/enterprise/dev/".toList,
         "/enterprise/debug/".toList]) ∧
    (∀ href ∈ ["/e/macos/sdk-r1.tar.gz".toList] ++
        ["/enterprise/release/".toList, "/enterprise/dev/".toList,
         "/enterprise/debug/".toList],
      ¬ "/linux/".toList <:+: href) :=
  ⟨rfl,
   (findReferences_host_os ⟨true, true⟩ (HttpResult.response 200 samplePage)
      OsType.OsMacos _ _ (rfl)).2 rfl⟩

/-- C7: no href containing `../` is in the traverse list or in the download list returned
by `findReferences`. -/
theorem findReferences_no_parent (searchCtx : SearchEECtx) (res : HttpResult)
    (getOs : Except Err OsType) (downloadUrls traverseUrls : List (List Char))
    (h : findReferences searchCtx res getOs = Except.ok (downloadUrls, traverseUrls)) :
    ∀ href ∈ downloadUrls ++ traverseUrls, ¬ "../".toList <:+: href := by
  obtain ⟨host, body, -, rfl, rfl⟩ := findReferences_inv searchCtx res getOs _ _ h
  intro href hmem hin
  have hb : backLink href = true := decide_eq_true hin
  have hr := rule_of_mem searchCtx host body href hmem
  simp [downloadRule, traverseRule, hb] at hr

/-- Witness of C7 on the sample page, whose first anchor is `../`. -/
theorem findReferences_no_parent_witness :
    findReferences { Dbg := true, Dev := false } (HttpResult.response 200 samplePage)
        (Except.ok OsType.OsLinux) =
      Except.ok (["/e/linux/sdk-r1.tar.gz".toList],
        ["/enterprise/release/".toList, "/enterprise/debug/".toList]) ∧
    (∀ href ∈ ["/e/linux/sdk-r1.tar.gz".toList] ++
        ["/enterprise/release/".toList, "/enterprise/debug/".toList],
      ¬ "../".toList <:+: href) :=
  ⟨rfl,
   findReferences_no_parent { Dbg := true, Dev := false } (HttpResult.response 200 samplePage)
      (Except.ok OsType.OsLinux) _ _ (rfl)⟩

/-! ## Properties of the matcher -/

theorem mem_starRests (p : CharClass) (s r : List Char) (h : r ∈ starRests p s) :
    ∃ w, s = w ++ r ∧ ∀ x ∈ w, p.test x = true := by
  induction s with
  | nil =>
    simp only [starRests, List.mem_singleton] at h
    exact ⟨[], by simp [h], by simp⟩
  | cons x s ih =>
    unfold starRests at h
    split_ifs at h with hx
    · rcases List.mem_append.1 h with h | h
      · obtain ⟨w, hw, hall⟩ := ih h
        refine ⟨x :: w, by simp [hw], ?_⟩
        intro y hy
        rcases List.mem_cons.1 hy with rfl | hy
        · exact hx
        · exact hall y hy
      · simp only [List.mem_singleton] at h
        exact ⟨[], by simp [h], by simp⟩
    · simp only [List.mem_singleton] at h
      exact ⟨[], by simp [h], by simp⟩

theorem run_sound (r : Re) : ∀ (s : List Char) (caps : Caps) (m : List Char × Caps),
    m ∈ Re.run r s caps → ∃ w, s = w ++ m.1 ∧ Re.Matches r w := by
  induction r with
  | eps =>
    intro s caps m h
    simp only [Re.run, List.mem_singleton] at h
    exact ⟨[], by simp [h], rfl⟩
  | chr p =>
    intro s caps m h
    cases s with
    | nil => simp [Re.run] at h
    | cons x rest =>
      simp only [Re.run] at h
      split_ifs at h with hx
      · simp only [List.mem_singleton] at h
        exact ⟨[x], by simp [h], x, rfl, hx⟩
      · simp at h
  | star p =>
    intro s caps m h
    simp only [Re.run, List.mem_map] at h
    obtain ⟨rest, hr, rfl⟩ := h
    exact mem_starRests p s rest hr
  | seq r1 r2 ih1 ih2 =>
    intro s caps m h
    simp only [Re.run, List.mem_flatMap] at h
    obtain ⟨m1, h1, h2⟩ := h
    obtain ⟨u, hu, hmu⟩ := ih1 s caps m1 h1
    obtain ⟨v, hv, hmv⟩ := ih2 m1.1 m1.2 m h2
    exact ⟨u ++ v, by rw [hu, hv, List.append_assoc], u, v, rfl, hmu, hmv⟩
  | alt r1 r2 ih1 ih2 =>
    intro s caps m h
    simp only [Re.run, List.mem_append] at h
    rcases h with h | h
    · obtain ⟨w, hw, hm⟩ := ih1 s caps m h
      exact ⟨w, hw, Or.inl hm⟩
    · obtain ⟨w, hw, hm⟩ := ih2 s caps m h
      exact ⟨w, hw, Or.inr hm⟩
  | opt r ih =>
    intro s caps m h
    simp only [Re.run, List.mem_append, List.mem_singleton] at h
    rcases h with h | h
    · obtain ⟨w, hw, hm⟩ := ih s caps m h
      exact ⟨w, hw, Or.inl hm⟩
    · exact ⟨[], by simp [h], Or.inr rfl⟩
  | group n r ih =>
    intro s caps m h
    simp only [Re.run, List.mem_map] at h
    obtain ⟨m1, h1, rfl⟩ := h
    exact ih s caps m1 h1

theorem matches_str (w v : List Char) (h : Re.Matches (Re.str w) v) : v = w := by
  induction w generalizing v with
  | nil => exact h
  | cons c cs ih =>
    obtain ⟨u, v2, rfl, ⟨x, rfl, hx⟩, h2⟩ := h
    simp only [CharClass.test, beq_iff_eq] at hx
    rw [ih v2 h2, hx]
    rfl

theorem mem_findAllFrom (re : Re) (s : List Char) :
    ∀ (skip : Nat) (caps : Caps), caps ∈ findAllFrom re s skip →
      ∃ t rest, t <:+ s ∧ matchAt re t = some (rest, caps) := by
  induction s with
  | nil => intro skip caps h; simp [findAllFrom] at h
  | cons c s ih =>
    intro skip caps h
    have step : ∀ k, caps ∈ findAllFrom re s k →
        ∃ t rest, t <:+ c :: s ∧ matchAt re t = some (rest, caps) := by
      intro k hk
      obtain ⟨t, rest, ht, hm⟩ := ih k caps hk
      exact ⟨t, rest, ht.trans (List.suffix_cons c s), hm⟩
    cases skip with
    | succ k => exact step k (by simpa [findAllFrom] using h)
    | zero =>
      unfold findAllFrom at h
      cases hm : matchAt re (c :: s) with
      | none =>
        rw [hm] at h
        exact step 0 h
      | some m =>
        rw [hm] at h
        rcases List.mem_cons.1 h with h | h
        · exact ⟨c :: s, m.1, List.suffix_refl _, by rw [hm, h]⟩
        · exact step _ h

theorem findAllFrom_eq_nil_of_short (re : Re) (s : List Char) :
    ∀ skip : Nat, s.length ≤ skip → findAllFrom re s skip = [] := by
  induction s with
  | nil => intro skip _; rfl
  | cons c s ih =>
    intro skip h
    cases skip with
    | zero => simp at h
    | succ k =>
      simp only [findAllFrom]
      exact ih k (by simpa using h)

theorem findAll_single (re : Re) (c : Char) (s : List Char) (caps : Caps)
    (h : matchAt re (c :: s) = some ([], caps)) :
    FindAllStringSubmatch re (c :: s) = [caps] := by
  simp only [FindAllStringSubmatch, findAllFrom, h]
  rw [findAllFrom_eq_nil_of_short]
  simp

theorem head_append_of_head {α : Type} (l1 l2 : List α) (x : α) (h : l1.head? = some x) :
    (l1 ++ l2).head? = some x := by
  cases l1 with
  | nil => simp at h
  | cons a l => simpa using h

theorem head_seq (r1 r2 : Re) (s : List Char) (caps : Caps) (m1 m2 : List Char × Caps)
    (h1 : (Re.run r1 s caps).head? = some m1)
    (h2 : (Re.run r2 m1.1 m1.2).head? = some m2) :
    (Re.run (Re.seq r1 r2) s caps).head? = some m2 := by
  simp only [Re.run]
  cases hl : Re.run r1 s caps with
  | nil => rw [hl] at h1; simp at h1
  | cons a l =>
    rw [hl] at h1
    simp only [List.head?_cons, Option.some.injEq] at h1
    subst h1
    rw [List.flatMap_cons]
    exact head_append_of_head _ _ _ h2

theorem head_seq_skip (r1 r2 : Re) (s : List Char) (caps : Caps) (m2 : List Char × Caps)
    (h1 : Re.run r1 s caps = [(s, caps)])
    (h2 : (Re.run r2 s caps).head? = some m2) :
    (Re.run (Re.seq r1 r2) s caps).head? = some m2 :=
  head_seq r1 r2 s caps (s, caps) m2 (by rw [h1]; rfl) h2

theorem head_opt (r : Re) (s : List Char) (caps : Caps) (m : List Char × Caps)
    (h : (Re.run r s caps).head? = some m) : (Re.run (Re.opt r) s caps).head? = some m := by
  simp only [Re.run]
  exact head_append_of_head _ _ _ h

theorem head_group (n : Nat) (r : Re) (w rest : List Char) (caps caps1 : Caps)
    (h : (Re.run r (w ++ rest) caps).head? = some (rest, caps1)) :
    (Re.run (Re.group n r) (w ++ rest) caps).head? = some (rest, (n, w) :: caps1) := by
  simp only [Re.run]
  cases hl : Re.run r (w ++ rest) caps with
  | nil => rw [hl] at h; simp at h
  | cons a l =>
    rw [hl] at h
    simp only [List.head?_cons, Option.some.injEq] at h
    subst h
    simp

theorem run_str_append (w rest : List Char) (caps : Caps) :
    Re.run (Re.str w) (w ++ rest) caps = [(rest, caps)] := by
  induction w with
  | nil => rfl
  | cons c cs ih =>
    simp only [Re.str, Re.run, List.cons_append, CharClass.test, beq_self_eq_true, if_true,
      List.flatMap_cons, List.flatMap_nil, List.append_nil, ih]

theorem run_seq_assoc (a b k : Re) (s : List Char) (caps : Caps) :
    Re.run (Re.seq (Re.seq a b) k) s caps = Re.run (Re.seq a (Re.seq b k)) s caps := by
  simp only [Re.run, List.flatMap_assoc]

theorem starRests_last (p : CharClass) (t : List Char) :
    ∃ l, starRests p t = l ++ [t] ∧ ∀ r ∈ l, r <:+ t ∧ r ≠ t := by
  induction t with
  | nil => exact ⟨[], rfl, by simp⟩
  | cons x t ih =>
    unfold starRests
    split_ifs with hx
    · refine ⟨starRests p t, rfl, ?_⟩
      intro r hr
      obtain ⟨w, hw, _⟩ := mem_starRests p t r hr
      have hsuf : r <:+ t := ⟨w, hw.symm⟩
      refine ⟨hsuf.trans (List.suffix_cons x t), ?_⟩
      intro he
      have := hsuf.length_le
      rw [he] at this
      simp at this
    · exact ⟨[], rfl, by simp⟩

theorem starRests_append (p : CharClass) (w t : List Char)
    (hw : ∀ x ∈ w, p.test x = true) :
    starRests p (w ++ t) = starRests p t ++ tailsInto w t := by
  induction w with
  | nil => simp [tailsInto]
  | cons x w ih =>
    have hx : p.test x = true := hw x (List.mem_cons_self _ _)
    have hw2 : ∀ y ∈ w, p.test y = true := fun y hy => hw y (List.mem_cons_of_mem _ hy)
    show starRests p (x :: (w ++ t)) = _
    simp only [starRests, hx, if_true, ih hw2, tailsInto, List.append_assoc, List.cons_append]

theorem flatMap_eq_nil_of_forall {α β : Type} (l : List α) (f : α → List β)
    (h : ∀ x ∈ l, f x = []) : l.flatMap f = [] := by
  induction l with
  | nil => rfl
  | cons a l ih =>
    rw [List.flatMap_cons, h a (List.mem_cons_self _ _),
      ih (fun x hx => h x (List.mem_cons_of_mem _ hx))]
    rfl

/-- A greedy `p*` followed by `k`: when `k` fails on every shorter rest, the
first match is the one that stops the star at `t`. -/
theorem head_star_seq (p : CharClass) (k : Re) (w t : List Char) (caps : Caps)
    (m : List Char × Caps) (hw : ∀ x ∈ w, p.test x = true)
    (hfail : ∀ r, r <:+ t → r ≠ t → Re.run k r caps = [])
    (hk : (Re.run k t caps).head? = some m) :
    (Re.run (Re.seq (Re.star p) k) (w ++ t) caps).head? = some m := by
  obtain ⟨l, hl, hlt⟩ := starRests_last p t
  simp only [Re.run, starRests_append p w t hw, hl, List.map_append, List.flatMap_append,
    List.map_cons, List.map_nil, List.flatMap_cons, List.flatMap_nil, List.append_nil]
  rw [flatMap_eq_nil_of_forall]
  · rw [List.nil_append]
    exact head_append_of_head _ _ _ hk
  · intro x hx
    obtain ⟨r, hr, rfl⟩ := List.mem_map.1 hx
    exact hfail r (hlt r hr).1 (hlt r hr).2

/-! ## The Linux pattern on a well-formed bundle path -/

theorem digit_ne (d : Char) (hd : d.isDigit = true) :
    d ≠ 'n' ∧ d ≠ 'g' ∧ d ≠ '-' ∧ d ≠ 'r' ∧ d ≠ '.' ∧ d ≠ '/' ∧ d ≠ '\n' := by
  refine ⟨?_, ?_, ?_, ?_, ?_, ?_, ?_⟩ <;> (rintro rfl; revert hd; decide)

theorem run_revTail (r : List Char) (caps : Caps) :
    Re.run (Re.seqs [Re.chr (CharClass.lit 'r'), Re.chr CharClass.digit,
      Re.chr CharClass.digit, Re.chr CharClass.digit]) r caps =
      if revAt r = true then [(r.drop 4, caps)] else [] := by
  rcases r with _ | ⟨x, _ | ⟨a, _ | ⟨b, _ | ⟨c, rest⟩⟩⟩⟩
  · rfl
  · by_cases hx : x = 'r' <;> simp [Re.seqs, Re.run, CharClass.test, revAt, startsDigits, hx]
  · by_cases hx : x = 'r' <;> by_cases ha : a.isDigit = true <;>
      simp [Re.seqs, Re.run, CharClass.test, revAt, startsDigits, hx, ha]
  · by_cases hx : x = 'r' <;> by_cases ha : a.isDigit = true <;>
      by_cases hb : b.isDigit = true <;>
      simp [Re.seqs, Re.run, CharClass.test, revAt, startsDigits, hx, ha, hb]
  · by_cases hx : x = 'r' <;> by_cases ha : a.isDigit = true <;>
      by_cases hb : b.isDigit = true <;> by_cases hc : c.isDigit = true <;>
      simp [Re.seqs, Re.run, CharClass.test, revAt, startsDigits, hx, ha, hb, hc]

theorem revAt_of_suffix (s r : List Char) (h : hasRevision s = false) (hr : r <:+ s) :
    revAt r = false := by
  induction s with
  | nil =>
    rw [List.suffix_nil] at hr
    subst hr
    rfl
  | cons c s ih =>
    simp only [hasRevision, Bool.or_eq_false_iff] at h
    rcases List.suffix_cons_iff.1 hr with rfl | hr
    · exact h.1
    · exact ih h.2 hr

theorem revAt_append_dot (a t : List Char) (h : revAt a = false) :
    revAt (a ++ '.' :: t) = false := by
  rcases a with _ | ⟨x, _ | ⟨a1, _ | ⟨a2, _ | ⟨a3, rest⟩⟩⟩⟩
  · simp [revAt]
  · simp [revAt, startsDigits]
  · simp [revAt, startsDigits]
  · simp [revAt, startsDigits]
  · simpa [revAt, startsDigits] using h

theorem hasRevision_append_dot (a t : List Char) (ha : hasRevision a = false)
    (ht : hasRevision ('.' :: t) = false) : hasRevision (a ++ '.' :: t) = false := by
  induction a with
  | nil => exact ht
  | cons x a ih =>
    simp only [hasRevision, Bool.or_eq_false_iff] at ha
    show hasRevision (x :: (a ++ '.' :: t)) = false
    simp only [hasRevision, Bool.or_eq_false_iff]
    exact ⟨revAt_append_dot (x :: a) t ha.1, ih ha.2⟩

theorem hasRevision_linux_tail (arch : List Char) (h : hasRevision arch = false) :
    hasRevision (".linux.".toList ++ (arch ++ ".tar.gz".toList)) = false := by
  have h1 : hasRevision (arch ++ ".tar.gz".toList) = false :=
    hasRevision_append_dot arch "tar.gz".toList h (by decide)
  show hasRevision ('.' :: 'l' :: 'i' :: 'n' :: 'u' :: 'x' :: '.' :: (arch ++ ".tar.gz".toList))
    = false
  simp only [hasRevision, revAt, startsDigits, Bool.false_and, Bool.and_false, Bool.false_or,
    Char.reduceBEq, Char.isDigit, Char.reduceVal]
  exact h1

theorem head_dirRe (q : Char) (dir file : List Char) (caps : Caps)
    (hq : q ≠ '\n') (hdir : ∀ x ∈ dir, x ≠ '\n') (hfile : ∀ x ∈ file, x ≠ '/') :
    (Re.run dirRe ((q :: dir ++ ['/']) ++ file) caps).head? =
      some (file, (1, q :: dir ++ ['/']) :: caps) := by
  apply head_group
  unfold Re.plus
  rw [run_seq_assoc]
  have hstar : (Re.run (Re.seq (Re.star CharClass.any) (Re.chr (CharClass.lit '/')))
      (dir ++ '/' :: file) caps).head? = some (file, caps) := by
    apply head_star_seq
    · intro x hx
      simpa [CharClass.test] using hdir x hx
    · intro r hr hne
      rcases List.suffix_cons_iff.1 hr with rfl | hr
      · exact absurd rfl hne
      · cases r with
        | nil => rfl
        | cons x r =>
          have hx : x ≠ '/' := hfile x (hr.subset (List.mem_cons_self _ _))
          simp [Re.run, CharClass.test, hx]
    · simp [Re.run, CharClass.test]
  apply head_seq _ _ _ _ (dir ++ '/' :: file, caps)
  · simp [Re.run, CharClass.test, hq]
  · exact hstar

theorem run_nameRe_sdk (d : Char) (rest : List Char) (caps : Caps) (hd : d.isDigit = true) :
    Re.run nameRe ("tarantool-enterprise-sdk-".toList ++ d :: rest) caps =
      [(d :: rest, caps)] := by
  obtain ⟨h1, h2, h3, -⟩ := digit_ne d hd
  simp [nameRe, gc64Re, Re.seqs, Re.str, Re.run, CharClass.test, h1, h2, h3]

theorem head_revisionRe (d : Char) (body tail : List Char) (n1 n2 n3 : Char) (caps : Caps)
    (hbody : ∀ x ∈ d :: body, x ≠ '\n')
    (h1 : n1.isDigit = true) (h2 : n2.isDigit = true) (h3 : n3.isDigit = true)
    (htail : hasRevision tail = false) :
    (Re.run revisionRe ((d :: body ++ ['r', n1, n2, n3]) ++ tail) caps).head? =
      some (tail, (3, d :: body ++ ['r', n1, n2, n3]) :: caps) := by
  apply head_group
  have e : (d :: body ++ ['r', n1, n2, n3]) ++ tail =
      (d :: body) ++ ('r' :: n1 :: n2 :: n3 :: tail) := by simp
  rw [e]
  show (Re.run (Re.seq (Re.star CharClass.any) (Re.seqs [Re.chr (CharClass.lit 'r'),
    Re.chr CharClass.digit, Re.chr CharClass.digit, Re.chr CharClass.digit])) _ caps).head? = _
  apply head_star_seq
  · intro x hx
    simpa [CharClass.test] using hbody x hx
  · intro r hr hne
    rw [run_revTail]
    have hrev : revAt r = false := by
      rcases List.suffix_cons_iff.1 hr with rfl | hr
      · exact absurd rfl hne
      · rcases List.suffix_cons_iff.1 hr with rfl | hr
        · simp [revAt, (digit_ne n1 h1).2.2.2.1]
        · rcases List.suffix_cons_iff.1 hr with rfl | hr
          · simp [revAt, (digit_ne n2 h2).2.2.2.1]
          · rcases List.suffix_cons_iff.1 hr with rfl | hr
            · simp [revAt, (digit_ne n3 h3).2.2.2.1]
            · exact revAt_of_suffix tail r htail hr
    simp [hrev]
  · rw [run_revTail]
    simp [revAt, startsDigits, h1, h2, h3]

theorem head_linux_tail (arch : List Char) (caps : Caps) :
    (Re.run (Re.seqs [Re.opt (Re.seqs [Re.opt (Re.seq sepRe gc64Re),
        Re.opt (Re.seqs [Re.chr CharClass.any, Re.str "linux".toList, Re.chr CharClass.any]),
        Re.str arch]),
      Re.chr CharClass.any, Re.str "tar".toList, Re.chr CharClass.any, Re.str "gz".toList])
      (".linux.".toList ++ (arch ++ ".tar.gz".toList)) caps).head? = some ([], caps) := by
  unfold Re.seqs
  apply head_seq _ _ _ _ (".tar.gz".toList, caps)
  · apply head_opt
    unfold Re.seqs
    apply head_seq_skip
    · simp [sepRe, gc64Re, Re.str, Re.run, CharClass.test]
    · unfold Re.seqs
      apply head_seq _ _ _ _ (arch ++ ".tar.gz".toList, caps)
      · simp [Re.seqs, Re.str, Re.run, CharClass.test]
      · simp only [Re.seqs, Re.run, run_str_append]
        rfl
  · simp [Re.seqs, Re.str, Re.run, CharClass.test]

theorem matchAt_linux (q d n1 n2 n3 : Char) (dir body arch : List Char)
    (hq : q ≠ '\n') (hdir : ∀ x ∈ dir, x ≠ '\n')
    (hd : d.isDigit = true) (hbody : ∀ x ∈ body, x ≠ '\n' ∧ x ≠ '/')
    (h1 : n1.isDigit = true) (h2 : n2.isDigit = true) (h3 : n3.isDigit = true)
    (harch : ∀ x ∈ arch, x ≠ '/') (hrev : hasRevision arch = false) :
    matchAt (linuxRe arch)
        ((q :: dir ++ ['/']) ++ ("tarantool-enterprise-sdk-".toList ++
          ((d :: body ++ ['r', n1, n2, n3]) ++ (".linux.".toList ++ (arch ++ ".tar.gz".toList))))) =
      some ([], [(2, "tarantool-enterprise-sdk-".toList ++
          ((d :: body ++ ['r', n1, n2, n3]) ++ (".linux.".toList ++ (arch ++ ".tar.gz".toList)))),
        (3, d :: body ++ ['r', n1, n2, n3]), (1, q :: dir ++ ['/'])]) := by
  have hdne := digit_ne d hd
  have hfile : ∀ x ∈ "tarantool-enterprise-sdk-".toList ++
      ((d :: body ++ ['r', n1, n2, n3]) ++ (".linux.".toList ++ (arch ++ ".tar.gz".toList))),
      x ≠ '/' := by
    have hl1 : ∀ x ∈ "tarantool-enterprise-sdk-".toList, x ≠ '/' := by decide
    have hl2 : ∀ x ∈ ".linux.".toList, x ≠ '/' := by decide
    have hl3 : ∀ x ∈ ".tar.gz".toList, x ≠ '/' := by decide
    intro x hx
    rcases List.mem_append.1 hx with hx | hx
    · exact hl1 x hx
    rcases List.mem_append.1 hx with hx | hx
    · rcases List.mem_append.1 hx with hx | hx
      · rcases List.mem_cons.1 hx with rfl | hx
        · exact hdne.2.2.2.2.2.1
        · exact (hbody x hx).2
      · simp only [List.mem_cons, List.mem_nil_iff, or_false] at hx
        rcases hx with rfl | rfl | rfl | rfl
        · decide
        · exact (digit_ne _ h1).2.2.2.2.2.1
        · exact (digit_ne _ h2).2.2.2.2.2.1
        · exact (digit_ne _ h3).2.2.2.2.2.1
    rcases List.mem_append.1 hx with hx | hx
    · exact hl2 x hx
    rcases List.mem_append.1 hx with hx | hx
    · exact harch x hx
    · exact hl3 x hx
  unfold matchAt linuxRe
  apply head_seq _ _ _ _ _ _ (head_dirRe q dir _ [] hq hdir hfile)
  have hg := head_group 2
    (Re.seqs [nameRe, Re.opt revisionRe,
      Re.opt (Re.seqs [Re.opt (Re.seq sepRe gc64Re),
        Re.opt (Re.seqs [Re.chr CharClass.any, Re.str "linux".toList, Re.chr CharClass.any]),
        Re.str arch]),
      Re.chr CharClass.any, Re.str "tar".toList, Re.chr CharClass.any, Re.str "gz".toList])
    ("tarantool-enterprise-sdk-".toList ++
      ((d :: body ++ ['r', n1, n2, n3]) ++ (".linux.".toList ++ (arch ++ ".tar.gz".toList))))
    [] [(1, q :: dir ++ ['/'])] [(3, d :: body ++ ['r', n1, n2, n3]), (1, q :: dir ++ ['/'])]
  rw [List.append_nil] at hg
  apply hg
  rw [Re.seqs]
  apply head_seq _ _ _ _ (((d :: body ++ ['r', n1, n2, n3]) ++
    (".linux.".toList ++ (arch ++ ".tar.gz".toList))), [(1, q :: dir ++ ['/'])])
  · have := run_nameRe_sdk d (body ++ ['r', n1, n2, n3] ++
      (".linux.".toList ++ (arch ++ ".tar.gz".toList))) [(1, q :: dir ++ ['/'])] hd
    simp only [List.cons_append, List.append_assoc] at this ⊢
    rw [this]
    rfl
  · rw [Re.seqs]
    apply head_seq _ _ _ _ ((".linux.".toList ++ (arch ++ ".tar.gz".toList)),
      [(3, d :: body ++ ['r', n1, n2, n3]), (1, q :: dir ++ ['/'])])
    · apply head_opt
      apply head_revisionRe d body _ n1 n2 n3 _ _ h1 h2 h3 (hasRevision_linux_tail arch hrev)
      intro x hx
      rcases List.mem_cons.1 hx with rfl | hx
      · exact hdne.2.2.2.2.2.2
      · exact (hbody x hx).1
    · exact head_linux_tail arch _

/-! ## The version parser on `major.minor.patch-additional-rNNN` -/

theorem span_digits (digits : List Char) (c : Char) (rest : List Char)
    (hds : ∀ x ∈ digits, x.isDigit = true) (hc : c.isDigit = false) :
    (digits ++ c :: rest).span Char.isDigit = (digits, c :: rest) := by
  rw [List.span_eq_take_drop]
  induction digits with
  | nil => simp [List.takeWhile, List.dropWhile, hc]
  | cons d ds ih =>
    have hd : d.isDigit = true := hds d (List.mem_cons_self _ _)
    have := ih (fun x hx => hds x (List.mem_cons_of_mem _ hx))
    simp only [Prod.mk.injEq] at this
    simp [List.takeWhile, List.dropWhile, hd, this.1, this.2]

theorem parseNumber_digits (d c : Char) (digits rest : List Char)
    (hds : ∀ x ∈ d :: digits, x.isDigit = true) (hc : c.isDigit = false) :
    parseNumber ((d :: digits) ++ c :: rest) = some (digitsToNat (d :: digits), c :: rest) := by
  unfold parseNumber
  rw [span_digits (d :: digits) c rest hds hc]

theorem GetVersionDetails_plain (a b c e n1 n2 n3 : Char) (major minor patch additional : List Char)
    (hmajor : ∀ x ∈ a :: major, x.isDigit = true)
    (hminor : ∀ x ∈ b :: minor, x.isDigit = true)
    (hpatch : ∀ x ∈ c :: patch, x.isDigit = true)
    (hadditional : ∀ x ∈ e :: additional, x.isDigit = true)
    (h1 : n1.isDigit = true) (h2 : n2.isDigit = true) (h3 : n3.isDigit = true) :
    GetVersionDetails ((a :: major) ++ '.' :: ((b :: minor) ++ '.' :: ((c :: patch) ++
        '-' :: ((e :: additional) ++ ['-', 'r', n1, n2, n3])))) =
      Except.ok
        { Major := digitsToNat (a :: major), Minor := digitsToNat (b :: minor),
          Patch := digitsToNat (c :: patch), Additional := digitsToNat (e :: additional),
          Revision := digitsToNat [n1, n2, n3],
          Release := { Typ := TypeRelease, Num := 0 }, Hash := [],
          Str := (a :: major) ++ '.' :: ((b :: minor) ++ '.' :: ((c :: patch) ++
            '-' :: ((e :: additional) ++ ['-', 'r', n1, n2, n3]))),
          Tarball := [] } := by
  have hn1 : n1 ≠ 'c' := by
    rintro rfl
    revert h1
    decide
  have hrel : parseRelease ['-', 'r', n1, n2, n3] =
      ({ Typ := TypeRelease, Num := 0 }, ['-', 'r', n1, n2, n3]) := by
    simp [parseRelease, cutPrefix, hn1]
  have hrevision : parseRevision ['-', 'r', n1, n2, n3] = some (digitsToNat [n1, n2, n3], []) := by
    simp [parseRevision, cutPrefix, h1, h2, h3]
  unfold GetVersionDetails parseVersion
  simp only [parseNumber_digits a '.' major _ hmajor (by decide), Option.bind_eq_bind,
    Option.some_bind, cutPrefix, beq_self_eq_true, if_true, String.toList,
    parseNumber_digits b '.' minor _ hminor (by decide),
    parseNumber_digits c '-' patch _ hpatch (by decide), parseAdditional,
    parseNumber_digits e '-' additional _ hadditional (by decide), hrel, hrevision, parseHash,
    Option.pure_def]

/-! ## `getVersions` on one bundle path -/

theorem TrimSpace_eq_self (q z : Char) (mid : List Char) (hq : isSpace q = false)
    (hz : isSpace z = false) : TrimSpace (q :: (mid ++ [z])) = q :: (mid ++ [z]) := by
  unfold TrimSpace
  rw [List.dropWhile_cons_of_neg (by simp [hq])]
  have : (q :: (mid ++ [z])).reverse = z :: (mid.reverse ++ [q]) := by simp
  rw [this, List.dropWhile_cons_of_neg (by simp [hz])]
  simp

theorem plain_ne_slash (c : Char) (h : (c.isAlphanum || c == '_') = true) : c ≠ '/' := by
  rintro rfl
  revert h
  decide

theorem isNumber_cons (s : List Char) (h : isNumber s = true) :
    ∃ d ds, s = d :: ds ∧ ∀ x ∈ d :: ds, x.isDigit = true := by
  cases s with
  | nil => simp [isNumber] at h
  | cons d ds =>
    refine ⟨d, ds, rfl, ?_⟩
    simp only [isNumber, List.isEmpty_cons, Bool.not_false, Bool.true_and, List.all_eq_true] at h
    exact h

/-- C8 (amended): on a Linux host whose architecture name `arch` consists of letters, digits
and `_` and holds no `r` followed by three digits, for the input `P ++ F` with
`P = q :: dir ++ "/"` (at least one character before the final `/`, no newline in it, no
white space at its head) and `F = tarantool-enterprise-sdk-V.linux.<arch>.tar.gz`, `V` of
the form `major.minor.patch-additional-rNNN`, `getVersions` hands exactly `V` to the version
parser and returns exactly one version: the parsed `V` with `Tarball` set to `F`, and
`Prefix` set to `P`. -/
theorem getVersions_linux_sdk_path (getVersionDetails : List Char → Except Err Version)
    (q n1 n2 n3 : Char) (dir major minor patch additional arch : List Char)
    (version : Version)
    (hq : isSpace q = false) (hdir : ∀ x ∈ dir, x ≠ '\n')
    (hmajor : isNumber major = true) (hminor : isNumber minor = true)
    (hpatch : isNumber patch = true) (hadditional : isNumber additional = true)
    (h1 : n1.isDigit = true) (h2 : n2.isDigit = true) (h3 : n3.isDigit = true)
    (harch : plainName arch = true) (hrev : hasRevision arch = false)
    (hparse : getVersionDetails (versionText major minor patch additional n1 n2 n3) =
      Except.ok version) :
    getVersions getVersionDetails (Except.ok arch) (Except.ok OsType.OsLinux)
        ((q :: dir ++ ['/']) ++
          linuxSdkName (versionText major minor patch additional n1 n2 n3) arch) =
      Except.ok
        [{ VersionInfo :=
            { version with
              Tarball := linuxSdkName (versionText major minor patch additional n1 n2 n3) arch }
           Prefix := q :: dir ++ ['/'] }] := by
  obtain ⟨a, major, rfl, hmajor⟩ := isNumber_cons major hmajor
  obtain ⟨b, minor, rfl, hminor⟩ := isNumber_cons minor hminor
  obtain ⟨c, patch, rfl, hpatch⟩ := isNumber_cons patch hpatch
  obtain ⟨e, additional, rfl, hadditional⟩ := isNumber_cons additional hadditional
  clear hmajor hminor hpatch hadditional
  have hqn : q ≠ '\n' := by
    rintro rfl
    revert hq
    decide
  have hslash : ∀ x ∈ arch, x ≠ '/' := by
    intro x hx
    simp only [plainName, List.all_eq_true] at harch
    exact plain_ne_slash x (harch x hx)
  have hdig : ∀ x : Char, x.isDigit = true → x ≠ '\n' ∧ x ≠ '/' := fun x hx =>
    ⟨(digit_ne x hx).2.2.2.2.2.2, (digit_ne x hx).2.2.2.2.2.1⟩
  have hbody : ∀ x ∈ major ++ '.' :: ((b :: minor) ++ '.' :: ((c :: patch) ++
      '-' :: ((e :: additional) ++ ['-']))), x ≠ '\n' ∧ x ≠ '/' := by
    intro x hx
    simp only [List.mem_append, List.mem_cons, List.mem_nil_iff, or_false] at hx
    rcases hx with hx | rfl | (rfl | hx) | rfl | (rfl | hx) | rfl | (rfl | hx) | rfl
    · exact hdig x (hmajor x (List.mem_cons_of_mem _ hx))
    · decide
    · exact hdig _ (hminor _ (List.mem_cons_self _ _))
    · exact hdig x (hminor x (List.mem_cons_of_mem _ hx))
    · decide
    · exact hdig _ (hpatch _ (List.mem_cons_self _ _))
    · exact hdig x (hpatch x (List.mem_cons_of_mem _ hx))
    · decide
    · exact hdig _ (hadditional _ (List.mem_cons_self _ _))
    · exact hdig x (hadditional x (List.mem_cons_of_mem _ hx))
    · decide
  have hV : versionText (a :: major) (b :: minor) (c :: patch) (e :: additional) n1 n2 n3 =
      a :: (major ++ '.' :: ((b :: minor) ++ '.' :: ((c :: patch) ++
        '-' :: ((e :: additional) ++ ['-'])))) ++ ['r', n1, n2, n3] := by
    simp [versionText]
  have hmatch := matchAt_linux q a n1 n2 n3 dir _ arch hqn hdir
    (hmajor a (List.mem_cons_self _ _)) hbody h1 h2 h3 hslash hrev
  rw [← hV] at hmatch
  have hfind : FindAllStringSubmatch (linuxRe arch) ((q :: dir ++ ['/']) ++ linuxSdkName
      (versionText (a :: major) (b :: minor) (c :: patch) (e :: additional) n1 n2 n3) arch) =
      [[(2, linuxSdkName
          (versionText (a :: major) (b :: minor) (c :: patch) (e :: additional) n1 n2 n3) arch),
        (3, versionText (a :: major) (b :: minor) (c :: patch) (e :: additional) n1 n2 n3),
        (1, q :: dir ++ ['/'])]] :=
    findAll_single _ q _ _ hmatch
  have htrim : TrimSpace ((q :: dir ++ ['/']) ++ linuxSdkName
      (versionText (a :: major) (b :: minor) (c :: patch) (e :: additional) n1 n2 n3) arch) =
      (q :: dir ++ ['/']) ++ linuxSdkName
      (versionText (a :: major) (b :: minor) (c :: patch) (e :: additional) n1 n2 n3) arch := by
    have e1 : (q :: dir ++ ['/']) ++ linuxSdkName
        (versionText (a :: major) (b :: minor) (c :: patch) (e :: additional) n1 n2 n3) arch =
        q :: ((dir ++ '/' :: ("tarantool-enterprise-sdk-".toList ++
          (versionText (a :: major) (b :: minor) (c :: patch) (e :: additional) n1 n2 n3 ++
          (".linux.".toList ++ (arch ++ ".tar.g".toList))))) ++ ['z']) := by
      simp [linuxSdkName]
    rw [e1]
    exact TrimSpace_eq_self q 'z' _ hq (by decide)
  unfold getVersions compileVersionRegexp
  simp only [htrim, hfind]
  have e32 : ((3 : Nat) == 2) = false := rfl
  have e33 : ((3 : Nat) == 3) = true := rfl
  have e22 : ((2 : Nat) == 2) = true := rfl
  have e12 : ((1 : Nat) == 2) = false := rfl
  have e13 : ((1 : Nat) == 3) = false := rfl
  have e11 : ((1 : Nat) == 1) = true := rfl
  simp only [List.length_singleton, one_ne_zero, if_false, collectVersions, capture,
    List.lookup, List.nil_append, e32, e33, e22, e12, e13, e11, hparse, SortEEVersions,
    sliceStable, insertStable]

/-- Witness of C8 (amended): the path of the grammar scenario on Linux x86_64, with the
version parser modelled from §4.5. -/
theorem getVersions_linux_sdk_path_witness :
    isSpace '/' = false ∧ (∀ x ∈ "enterprise".toList, x ≠ '\n') ∧
    isNumber "1".toList = true ∧ isNumber "10".toList = true ∧ isNumber "52".toList = true ∧
    plainName "x86_64".toList = true ∧ hasRevision "x86_64".toList = false ∧
    GetVersionDetails "1.10.10-52-r419".toList = Except.ok v419.VersionInfo ∧
    getVersions GetVersionDetails (Except.ok "x86_64".toList) (Except.ok OsType.OsLinux)
        "/enterprise/tarantool-enterprise-sdk-1.10.10-52-r419.linux.x86_64.tar.gz".toList =
      Except.ok
        [{ VersionInfo :=
            { Major := 1, Minor := 10, Patch := 10, Additional := 52, Revision := 419,
              Release := { Typ := TypeRelease, Num := 0 }, Hash := [],
              Str := "1.10.10-52-r419".toList,
              Tarball := "tarantool-enterprise-sdk-1.10.10-52-r419.linux.x86_64.tar.gz".toList },
           Prefix := "/enterprise/".toList }] :=
  ⟨by decide, by decide, by decide, by decide, by decide, by decide, by decide, by decide,
    getVersions_linux_sdk_path GetVersionDetails '/' '4' '1' '9' "enterprise".toList
      "1".toList "10".toList "10".toList "52".toList "x86_64".toList v419.VersionInfo
      (by decide) (by decide) (by decide) (by decide) (by decide) (by decide) (by decide)
      (by decide) (by decide) (by decide) (by decide) (by decide)⟩

/-- C8 (as stated, refuted): for `P = "/"`, which ends with `/`, the Linux pattern finds no
match, because `(.+\/)` needs a character before the slash; white space at the head of
`P` is trimmed away, a newline in `P` cuts the captured directory, and with an
architecture name like `r123` the version capture runs on into the architecture. -/
theorem getVersions_root_path_no_match :
    getVersions GetVersionDetails (Except.ok "x86_64".toList) (Except.ok OsType.OsLinux)
        ("/".toList ++
          "tarantool-enterprise-sdk-1.10.10-52-r419.linux.x86_64.tar.gz".toList) =
      Except.error (Err.text "no packages for this OS".toList) ∧
    (getVersions GetVersionDetails (Except.ok "x86_64".toList) (Except.ok OsType.OsLinux)
        (" /x/".toList ++
          "tarantool-enterprise-sdk-1.10.10-52-r419.linux.x86_64.tar.gz".toList)).map
        (fun versions => versions.map (fun v => v.Prefix)) = Except.ok ["/x/".toList] ∧
    (getVersions GetVersionDetails (Except.ok "x86_64".toList) (Except.ok OsType.OsLinux)
        ("/a\n/x/".toList ++
          "tarantool-enterprise-sdk-1.10.10-52-r419.linux.x86_64.tar.gz".toList)).map
        (fun versions => versions.map (fun v => v.Prefix)) = Except.ok ["/x/".toList] ∧
    (FindAllStringSubmatch (linuxRe "r123".toList)
        ("/e/".toList ++
          "tarantool-enterprise-sdk-1.10.10-52-r419.linux.r123.tar.gz".toList)).map
        (fun caps => capture caps 3) = ["1.10.10-52-r419.linux.r123".toList] := by
  decide

/-! ## What the bundle patterns can capture -/

theorem matchAt_group2 (r1 body : Re) (t rest : List Char) (caps : Caps)
    (h : matchAt (Re.seq r1 (Re.group 2 body)) t = some (rest, caps)) :
    ∃ dirText, Re.Matches r1 dirText ∧ Re.Matches body (capture caps 2) ∧
      t = dirText ++ (capture caps 2 ++ rest) := by
  have hmem := List.mem_of_mem_head? h
  simp only [Re.run, List.mem_flatMap, List.mem_map] at hmem
  obtain ⟨m1, hm1, m2, hm2, heq⟩ := hmem
  obtain ⟨u, hu, hmu⟩ := run_sound r1 t [] m1 hm1
  obtain ⟨w, hw, hmw⟩ := run_sound body m1.1 m1.2 m2 hm2
  injection heq with hrest hcaps
  have hcap : capture caps 2 = w := by
    rw [← hcaps, hw]
    simp [capture, List.lookup]
  refine ⟨u, hmu, by rw [hcap]; exact hmw, ?_⟩
  rw [hcap, hu, hw, hrest]

theorem findAll_group2 (r1 body : Re) (s : List Char) (caps : Caps)
    (h : caps ∈ FindAllStringSubmatch (Re.seq r1 (Re.group 2 body)) s) :
    Re.Matches body (capture caps 2) ∧ capture caps 2 <:+: s := by
  obtain ⟨t, rest, ht, hm⟩ := mem_findAllFrom _ s 0 caps h
  obtain ⟨dirText, -, hbody, heq⟩ := matchAt_group2 r1 body t rest caps hm
  refine ⟨hbody, ?_⟩
  obtain ⟨pre, hpre⟩ := ht
  exact ⟨pre ++ dirText, rest, by rw [← hpre, heq]; simp⟩

theorem matches_sepRe (w : List Char) (h : Re.Matches sepRe w) : w = ['-'] ∨ w = ['.'] := by
  rcases h with ⟨x, rfl, hx⟩ | ⟨x, rfl, hx⟩
  · left
    simp only [CharClass.test, beq_iff_eq] at hx
    rw [hx]
  · right
    simp only [CharClass.test, beq_iff_eq] at hx
    rw [hx]

theorem matches_nameRe (w : List Char) (h : Re.Matches nameRe w) :
    ∃ v, w = "tarantool-enterprise-".toList ++ v := by
  obtain ⟨u, v, rfl, hu, -⟩ := h
  exact ⟨v, by rw [matches_str _ u hu]⟩

theorem matches_macos_body (arch w : List Char)
    (h : Re.Matches (Re.seqs [nameRe, revisionRe, sepRe, Re.str "macos".toList,
      Re.opt (Re.chr (CharClass.lit 'x')), sepRe, Re.str arch, Re.str ".tar.gz".toList]) w) :
    ∃ (head : List Char) (sep1 : Char) (x : List Char) (sep2 : Char),
      w = head ++ (sep1 :: ("macos".toList ++ (x ++ (sep2 :: (arch ++ ".tar.gz".toList))))) ∧
      (sep1 = '-' ∨ sep1 = '.') ∧ (x = [] ∨ x = ['x']) ∧ (sep2 = '-' ∨ sep2 = '.') := by
  simp only [Re.seqs] at h
  obtain ⟨u1, v1, rfl, -, u2, v2, rfl, -, u3, v3, rfl, h3, u4, v4, rfl, h4, u5, v5, rfl, h5,
    u6, v6, rfl, h6, u7, v7, rfl, h7, u8, v8, rfl, h8, h9⟩ := h
  have e4 := matches_str _ u4 h4
  have e7 := matches_str _ u7 h7
  have e8 := matches_str _ u8 h8
  have e9 : v8 = [] := h9
  subst e4 e7 e8 e9
  have hx : u5 = [] ∨ u5 = ['x'] := by
    rcases h5 with ⟨x, rfl, hx⟩ | rfl
    · right
      simp only [CharClass.test, beq_iff_eq] at hx
      rw [hx]
    · left; rfl
  rcases matches_sepRe u3 h3 with rfl | rfl <;> rcases matches_sepRe u6 h6 with rfl | rfl
  · exact ⟨u1 ++ u2, '-', u5, '-', by simp, Or.inl rfl, hx, Or.inl rfl⟩
  · exact ⟨u1 ++ u2, '-', u5, '.', by simp, Or.inl rfl, hx, Or.inr rfl⟩
  · exact ⟨u1 ++ u2, '.', u5, '-', by simp, Or.inr rfl, hx, Or.inl rfl⟩
  · exact ⟨u1 ++ u2, '.', u5, '.', by simp, Or.inr rfl, hx, Or.inr rfl⟩

theorem matches_gc64_marker (g : List Char) (h : Re.Matches (Re.seq sepRe gc64Re) g) :
    ∃ (sep : Char) (no : List Char), g = sep :: (no ++ "gc64".toList) ∧
      (sep = '-' ∨ sep = '.') ∧ (no = [] ∨ no = "no".toList) := by
  obtain ⟨u1, v1, rfl, h1, u2, v2, rfl, h2, h3⟩ := h
  have e3 := matches_str _ v2 h3
  subst e3
  have hno : u2 = [] ∨ u2 = "no".toList := by
    rcases h2 with h2 | rfl
    · right; exact matches_str _ u2 h2
    · left; rfl
  rcases matches_sepRe u1 h1 with rfl | rfl
  · exact ⟨'-', u2, rfl, Or.inl rfl, hno⟩
  · exact ⟨'.', u2, rfl, Or.inr rfl, hno⟩

theorem matches_linux_body (arch w : List Char)
    (h : Re.Matches (Re.seqs [nameRe, Re.opt revisionRe,
      Re.opt (Re.seqs [Re.opt (Re.seq sepRe gc64Re),
        Re.opt (Re.seqs [Re.chr CharClass.any, Re.str "linux".toList, Re.chr CharClass.any]),
        Re.str arch]),
      Re.chr CharClass.any, Re.str "tar".toList, Re.chr CharClass.any, Re.str "gz".toList]) w) :
    ∃ (head mid : List Char) (c1 c2 : Char),
      w = head ++ (mid ++ (c1 :: ("tar".toList ++ (c2 :: "gz".toList)))) ∧
      Re.Matches (Re.seq nameRe (Re.opt revisionRe)) head ∧
      (mid = [] ∨ ∃ g l : List Char, mid = g ++ (l ++ arch) ∧
        (g = [] ∨ ∃ (sep : Char) (no : List Char), g = sep :: (no ++ "gc64".toList) ∧
          (sep = '-' ∨ sep = '.') ∧ (no = [] ∨ no = "no".toList)) ∧
        (l = [] ∨ ∃ c3 c4 : Char, l = c3 :: ("linux".toList ++ [c4]))) := by
  simp only [Re.seqs] at h
  obtain ⟨u1, v1, rfl, h1, u2, v2, rfl, h2, u3, v3, rfl, h3, u4, v4, rfl, ⟨c1, rfl, -⟩,
    u5, v5, rfl, h5, u6, v6, rfl, ⟨c2, rfl, -⟩, u7, v7, rfl, h7, h8⟩ := h
  have e5 := matches_str _ u5 h5
  have e7 := matches_str _ u7 h7
  have e8 : v7 = [] := h8
  subst e5 e7 e8
  refine ⟨u1 ++ u2, u3, c1, c2, by simp, ⟨u1, u2, rfl, h1, h2⟩, ?_⟩
  rcases h3 with h3 | rfl
  · right
    obtain ⟨g, v, rfl, hg, l, v2, rfl, hl, a, v3, rfl, ha, ha2⟩ := h3
    have ea := matches_str _ a ha
    have ee : v3 = [] := ha2
    subst ea ee
    refine ⟨g, l, by simp, ?_, ?_⟩
    · rcases hg with hg | rfl
      · right; exact matches_gc64_marker g hg
      · left; rfl
    · rcases hl with hl | rfl
      · right
        obtain ⟨x1, y1, rfl, ⟨c3, rfl, -⟩, x2, y2, rfl, hx2, x3, y3, rfl, ⟨c4, rfl, -⟩, hy3⟩ := hl
        have e2 := matches_str _ x2 hx2
        have e3 : y3 = [] := hy3
        subst e2 e3
        exact ⟨c3, c4, by simp⟩
      · left; rfl
  · left; rfl

theorem matches_nameRe_no_macos (nm : List Char) (h : Re.Matches nameRe nm) :
    ¬ "macos".toList <:+: nm := by
  simp only [nameRe, Re.seqs] at h
  obtain ⟨u1, v1, rfl, h1, u2, v2, rfl, h2, u3, v3, rfl, ⟨c, rfl, hc⟩, u4, v4, rfl, h4,
    u5, v5, rfl, h5, h6⟩ := h
  have e1 := matches_str _ u1 h1
  have e6 : v5 = [] := h6
  simp only [CharClass.test, beq_iff_eq] at hc
  subst e1 e6 hc
  have hk : u2 = "sdk".toList ∨ u2 = "bundle".toList := by
    rcases h2 with h2 | h2
    · left; exact matches_str _ u2 h2
    · right; exact matches_str _ u2 h2
  have hg : u4 = [] ∨ u4 = "gc64".toList ∨ u4 = "nogc64".toList := by
    rcases h4 with ⟨a, b, rfl, ha, hb⟩ | rfl
    · have eb := matches_str _ b hb
      subst eb
      rcases ha with ha | rfl
      · right; right
        rw [matches_str _ a ha]
        rfl
      · right; left; rfl
    · left; rfl
  have hd : u5 = [] ∨ u5 = ['-'] := by
    rcases h5 with ⟨x, rfl, hx⟩ | rfl
    · right
      simp only [CharClass.test, beq_iff_eq] at hx
      rw [hx]
    · left; rfl
  rcases hk with rfl | rfl <;> rcases hg with rfl | rfl | rfl <;> rcases hd with rfl | rfl <;>
    decide

theorem matches_revisionRe (rv : List Char) (h : Re.Matches revisionRe rv) :
    ∃ (u : List Char) (d1 d2 d3 : Char), rv = u ++ ['r', d1, d2, d3] ∧
      d1.isDigit = true ∧ d2.isDigit = true ∧ d3.isDigit = true := by
  simp only [revisionRe, Re.seqs] at h
  obtain ⟨u, v, rfl, -, u1, v1, rfl, ⟨r, rfl, hr⟩, u2, v2, rfl, ⟨d1, rfl, h1⟩,
    u3, v3, rfl, ⟨d2, rfl, h2⟩, u4, v4, rfl, ⟨d3, rfl, h3⟩, h5⟩ := h
  have e5 : v4 = [] := h5
  simp only [CharClass.test, beq_iff_eq] at hr h1 h2 h3
  subst e5 hr
  exact ⟨u, d1, d2, d3, rfl, h1, h2, h3⟩

theorem hasRevision_of_revAt (pre t : List Char) (h : revAt t = true) :
    hasRevision (pre ++ t) = true := by
  induction pre with
  | nil =>
    cases t with
    | nil => simp [revAt] at h
    | cons c t => simp [hasRevision, h]
  | cons c pre ih =>
    show hasRevision (c :: (pre ++ t)) = true
    simp [hasRevision, ih]

theorem revision_end_not_sep (X Y arch : List Char) (d1 d2 d3 s2 : Char)
    (h1 : d1.isDigit = true) (h2 : d2.isDigit = true) (h3 : d3.isDigit = true)
    (hs2 : s2 = '-' ∨ s2 = '.') (hrev : hasRevision arch = false)
    (h : X ++ ['r', d1, d2, d3] = Y ++ s2 :: arch) : False := by
  have hne : ∀ d : Char, d.isDigit = true → d ≠ s2 := by
    intro d hd he
    have := digit_ne d hd
    rcases hs2 with rfl | rfl
    · exact this.2.2.1 he
    · exact this.2.2.2.2.1 he
  have hr : ('r' : Char) ≠ s2 := by
    rcases hs2 with rfl | rfl <;> decide
  obtain ⟨ar, rfl⟩ : ∃ ar : List Char, arch = ar.reverse := ⟨arch.reverse, by simp⟩
  have h4 := congrArg List.reverse h
  simp only [List.reverse_append, List.reverse_cons, List.reverse_nil, List.nil_append,
    List.reverse_reverse, List.cons_append, List.append_assoc, List.singleton_append] at h4
  rcases ar with _ | ⟨a, _ | ⟨b, _ | ⟨c, _ | ⟨d, rest⟩⟩⟩⟩
  · simp only [List.nil_append, List.cons.injEq] at h4
    exact hne d3 h3 h4.1
  · simp only [List.cons_append, List.nil_append, List.cons.injEq] at h4
    exact hne d2 h2 h4.2.1
  · simp only [List.cons_append, List.nil_append, List.cons.injEq] at h4
    exact hne d1 h1 h4.2.2.1
  · simp only [List.cons_append, List.nil_append, List.cons.injEq] at h4
    exact hr h4.2.2.2.1
  · simp only [List.cons_append, List.cons.injEq] at h4
    obtain ⟨rfl, rfl, rfl, rfl, -⟩ := h4
    have : hasRevision (rest.reverse ++ ['r', d1, d2, d3]) = true :=
      hasRevision_of_revAt _ _ (by simp [revAt, startsDigits, h1, h2, h3])
    have e : (d3 :: d2 :: d1 :: 'r' :: rest).reverse = rest.reverse ++ ['r', d1, d2, d3] := by
      simp
    rw [e, this] at hrev
    cases hrev

theorem name_head_not_macos (head : List Char) (s2 : Char) (arch : List Char)
    (hhead : Re.Matches (Re.seq nameRe (Re.opt revisionRe)) head)
    (hs2 : s2 = '-' ∨ s2 = '.') (hrev : hasRevision arch = false)
    (pre mid : List Char) (hmid : "macos".toList <:+: mid)
    (h : head = pre ++ (mid ++ s2 :: arch)) : False := by
  obtain ⟨nm, rv, rfl, hnm, hrv⟩ := hhead
  rcases hrv with hrv | rfl
  · obtain ⟨u, d1, d2, d3, rfl, h1, h2, h3⟩ := matches_revisionRe rv hrv
    refine revision_end_not_sep (nm ++ u) (pre ++ mid) arch d1 d2 d3 s2 h1 h2 h3 hs2 hrev ?_
    rw [List.append_assoc, h, List.append_assoc]
  · rw [List.append_nil] at h
    apply matches_nameRe_no_macos nm hnm
    rw [h]
    obtain ⟨a, b, hab⟩ := hmid
    exact ⟨pre ++ a, b ++ s2 :: arch, by rw [← hab]; simp⟩

theorem linux_body_not_macos (arch w : List Char) (hrev : hasRevision arch = false)
    (hw : Re.Matches (Re.seqs [nameRe, Re.opt revisionRe,
      Re.opt (Re.seqs [Re.opt (Re.seq sepRe gc64Re),
        Re.opt (Re.seqs [Re.chr CharClass.any, Re.str "linux".toList, Re.chr CharClass.any]),
        Re.str arch]),
      Re.chr CharClass.any, Re.str "tar".toList, Re.chr CharClass.any, Re.str "gz".toList]) w)
    (pre x : List Char) (s1 s2 : Char) (hx : x = [] ∨ x = ['x'])
    (hs2 : s2 = '-' ∨ s2 = '.') :
    w ≠ pre ++ (s1 :: ("macos".toList ++ (x ++ (s2 :: (arch ++ ".tar.gz".toList))))) := by
  intro hw2
  obtain ⟨head, mid, c1, c2, hdec, hhead, hmid⟩ := matches_linux_body arch w hw
  rw [hdec] at hw2
  have h7 : (head ++ mid) ++ (c1 :: ("tar".toList ++ (c2 :: "gz".toList))) =
      (pre ++ (s1 :: ("macos".toList ++ (x ++ (s2 :: arch))))) ++ ".tar.gz".toList := by
    simpa [List.append_assoc] using hw2
  have hE : head ++ mid = pre ++ (s1 :: ("macos".toList ++ (x ++ (s2 :: arch)))) :=
    (List.append_inj' h7 rfl).1
  have hmacos : "macos".toList <:+: s1 :: ("macos".toList ++ x) :=
    ⟨[s1], x, by simp⟩
  rcases hmid with rfl | ⟨g, l, rfl, hg, hl⟩
  · rw [List.append_nil] at hE
    refine name_head_not_macos head s2 arch hhead hs2 hrev pre (s1 :: ("macos".toList ++ x))
      hmacos ?_
    rw [hE]
    simp
  · have hE2 : (head ++ (g ++ l)) ++ arch =
        (pre ++ (s1 :: ("macos".toList ++ (x ++ [s2])))) ++ arch := by
      simpa [List.append_assoc] using hE
    have hE3 := List.append_cancel_right hE2
    rcases hl with rfl | ⟨c3, c4, rfl⟩
    · rcases hg with rfl | ⟨sep, no, rfl, -, -⟩
      · refine name_head_not_macos head s2 [] hhead hs2 rfl pre
          (s1 :: ("macos".toList ++ x)) hmacos ?_
        simpa [List.append_assoc] using hE3
      · have h4 := congrArg List.reverse hE3
        rcases hs2 with rfl | rfl <;> simp at h4
    · have h4 := congrArg List.reverse hE3
      rcases hx with rfl | rfl <;> simp at h4

theorem macos_body_not_linux (arch w : List Char)
    (hw : Re.Matches (Re.seqs [nameRe, revisionRe, sepRe, Re.str "macos".toList,
      Re.opt (Re.chr (CharClass.lit 'x')), sepRe, Re.str arch, Re.str ".tar.gz".toList]) w)
    (pre : List Char) :
    w ≠ pre ++ (".linux.".toList ++ (arch ++ ".tar.gz".toList)) := by
  intro h
  obtain ⟨head, sep1, x, sep2, hdec, -, hx, -⟩ := matches_macos_body arch w hw
  rw [hdec] at h
  have h2 : (head ++ (sep1 :: ("macos".toList ++ (x ++ [sep2])))) ++
      (arch ++ ".tar.gz".toList) = (pre ++ ".linux.".toList) ++ (arch ++ ".tar.gz".toList) := by
    simpa [List.append_assoc] using h
  have h4 := congrArg List.reverse (List.append_cancel_right h2)
  rcases hx with rfl | rfl <;> simp at h4

/-- C9 (amended): the grammar never captures a tarball name whose OS segment, in the place
the grammar gives it, disagrees with the host OS. On a macOS host every captured tarball
name ends with `(-|.)macos[x](-|.)<arch>.tar.gz`, so none ends with
`.linux.<arch>.tar.gz`. On a Linux host every captured tarball name is the name head with
its optional version capture, then nothing or an optional gc64 marker, an optional
`<any>linux<any>` and the architecture, then `<any>tar<any>gz`; so, for an architecture
name without an `r` followed by three digits, none ends with
`macos[x](-|.)<arch>.tar.gz`. (Text in the free-form version capture or behind the match
is not constrained.) -/
theorem captured_tarball_os_segment (arch : List Char) (host : OsType) (re : Re)
    (s : List Char) (caps : Caps)
    (hre : compileVersionRegexp (Except.ok arch) (Except.ok host) = Except.ok re)
    (h : caps ∈ FindAllStringSubmatch re s) :
    (host = OsType.OsMacos →
      (∃ (head : List Char) (sep1 : Char) (x : List Char) (sep2 : Char),
        capture caps 2 =
          head ++ (sep1 :: ("macos".toList ++ (x ++ (sep2 :: (arch ++ ".tar.gz".toList))))) ∧
        (sep1 = '-' ∨ sep1 = '.') ∧ (x = [] ∨ x = ['x']) ∧ (sep2 = '-' ∨ sep2 = '.')) ∧
      ∀ pre : List Char,
        capture caps 2 ≠ pre ++ (".linux.".toList ++ (arch ++ ".tar.gz".toList))) ∧
    (host = OsType.OsLinux →
      (∃ (head mid : List Char) (c1 c2 : Char),
        capture caps 2 = head ++ (mid ++ (c1 :: ("tar".toList ++ (c2 :: "gz".toList)))) ∧
        Re.Matches (Re.seq nameRe (Re.opt revisionRe)) head ∧
        (mid = [] ∨ ∃ g l : List Char, mid = g ++ (l ++ arch) ∧
          (g = [] ∨ ∃ (sep : Char) (no : List Char), g = sep :: (no ++ "gc64".toList) ∧
            (sep = '-' ∨ sep = '.') ∧ (no = [] ∨ no = "no".toList)) ∧
          (l = [] ∨ ∃ c3 c4 : Char, l = c3 :: ("linux".toList ++ [c4])))) ∧
      (hasRevision arch = false →
        ∀ (pre x : List Char) (s1 s2 : Char), (x = [] ∨ x = ['x']) → (s2 = '-' ∨ s2 = '.') →
          capture caps 2 ≠
            pre ++ (s1 :: ("macos".toList ++ (x ++ (s2 :: (arch ++ ".tar.gz".toList))))))) := by
  constructor
  · rintro rfl
    simp only [compileVersionRegexp, Except.ok.injEq] at hre
    subst hre
    have hm := (findAll_group2 _ _ s caps h).1
    exact ⟨matches_macos_body arch _ hm, macos_body_not_linux arch _ hm⟩
  · rintro rfl
    simp only [compileVersionRegexp, Except.ok.injEq] at hre
    subst hre
    have hm := (findAll_group2 _ _ s caps h).1
    exact ⟨matches_linux_body arch _ hm,
      fun hrev pre x s1 s2 hx hs2 => linux_body_not_macos arch _ hrev hm pre x s1 s2 hx hs2⟩

/-- Witness of C9 (amended): a macOS bundle path on a macOS x86_64 host, and a Linux bundle
path on a Linux x86_64 host. -/
theorem captured_tarball_os_segment_witness :
    compileVersionRegexp (Except.ok "x86_64".toList) (Except.ok OsType.OsMacos) =
      Except.ok (macosRe "x86_64".toList) ∧
    [(2, "tarantool-enterprise-sdk-1.10.10-52-r419.macos.x86_64.tar.gz".toList),
      (3, "1.10.10-52-r419".toList), (1, "/e/".toList)] ∈
      FindAllStringSubmatch (macosRe "x86_64".toList)
        "/e/tarantool-enterprise-sdk-1.10.10-52-r419.macos.x86_64.tar.gz".toList ∧
    (∀ pre : List Char,
      capture [(2, "tarantool-enterprise-sdk-1.10.10-52-r419.macos.x86_64.tar.gz".toList),
        (3, "1.10.10-52-r419".toList), (1, "/e/".toList)] 2 ≠
        pre ++ (".linux.".toList ++ ("x86_64".toList ++ ".tar.gz".toList))) ∧
    compileVersionRegexp (Except.ok "x86_64".toList) (Except.ok OsType.OsLinux) =
      Except.ok (linuxRe "x86_64".toList) ∧
    [(2, "tarantool-enterprise-sdk-gc64-2.11.0-0-r563.linux.x86_64.tar.gz".toList),
      (3, "2.11.0-0-r563".toList), (1, "/e/".toList)] ∈
      FindAllStringSubmatch (linuxRe "x86_64".toList)
        "/e/tarantool-enterprise-sdk-gc64-2.11.0-0-r563.linux.x86_64.tar.gz".toList ∧
    hasRevision "x86_64".toList = false ∧
    (∀ (pre x : List Char) (s1 s2 : Char), (x = [] ∨ x = ['x']) → (s2 = '-' ∨ s2 = '.') →
      capture [(2, "tarantool-enterprise-sdk-gc64-2.11.0-0-r563.linux.x86_64.tar.gz".toList),
        (3, "2.11.0-0-r563".toList), (1, "/e/".toList)] 2 ≠
        pre ++ (s1 :: ("macos".toList ++
          (x ++ (s2 :: ("x86_64".toList ++ ".tar.gz".toList)))))) :=
  ⟨rfl, by decide,
    ((captured_tarball_os_segment "x86_64".toList OsType.OsMacos (macosRe "x86_64".toList)
      "/e/tarantool-enterprise-sdk-1.10.10-52-r419.macos.x86_64.tar.gz".toList _ rfl
      (by decide)).1 rfl).2,
    rfl, by decide, by decide,
    ((captured_tarball_os_segment "x86_64".toList OsType.OsLinux (linuxRe "x86_64".toList)
      "/e/tarantool-enterprise-sdk-gc64-2.11.0-0-r563.linux.x86_64.tar.gz".toList _ rfl
      (by decide)).2 rfl).2 (by decide)⟩

/-- C9 (as stated, refuted): on a Linux x86_64 host the grammar matches a path whose file
name carries the segment `.macos.` (inside the free-form version capture, or behind the
matched part), and on a macOS host it matches a path whose file name carries `.linux.`. -/
theorem grammar_matches_other_os_segment :
    (compileVersionRegexp (Except.ok "x86_64".toList) (Except.ok OsType.OsLinux)).map
        (fun re => FindAllStringSubmatch re
          "/e/tarantool-enterprise-sdk-2.11.0.macos.x86_64-r563.tar.gz".toList) =
      Except.ok [[(2, "tarantool-enterprise-sdk-2.11.0.macos.x86_64-r563.tar.gz".toList),
        (3, "2.11.0.macos.x86_64-r563".toList), (1, "/e/".toList)]] ∧
    (compileVersionRegexp (Except.ok "x86_64".toList) (Except.ok OsType.OsLinux)).map
        (fun re => FindAllStringSubmatch re
          "/e/tarantool-enterprise-sdk-1.10.10-52-r419.tar.gz.macos.x86_64.tar.gz".toList) =
      Except.ok [[(2, "tarantool-enterprise-sdk-1.10.10-52-r419.tar.gz".toList),
        (3, "1.10.10-52-r419".toList), (1, "/e/".toList)]] ∧
    (compileVersionRegexp (Except.ok "x86_64".toList) (Except.ok OsType.OsMacos)).map
        (fun re => FindAllStringSubmatch re
          "/e/tarantool-enterprise-sdk-2.11.0.linux.x86_64-r563.macos.x86_64.tar.gz".toList) =
      Except.ok [[(2,
          "tarantool-enterprise-sdk-2.11.0.linux.x86_64-r563.macos.x86_64.tar.gz".toList),
        (3, "2.11.0.linux.x86_64-r563".toList), (1, "/e/".toList)]] := by
  decide

/-! ## The error `no packages for this OS` -/

theorem GetVersionDetails_error (verStr : List Char) (err : Err)
    (h : GetVersionDetails verStr = Except.error err) :
    err = Err.external "VersionParseError".toList := by
  unfold GetVersionDetails at h
  cases hp : parseVersion verStr with
  | some version => rw [hp] at h; cases h
  | none =>
    rw [hp] at h
    injection h with h
    exact h.symm

theorem GetVersionDetails_ne_no_packages (verStr : List Char) :
    GetVersionDetails verStr ≠ Except.error (Err.text "no packages for this OS".toList) := by
  intro h
  cases GetVersionDetails_error verStr _ h

theorem collectVersions_error (getVersionDetails : List Char → Except Err Version)
    (entries : List Caps) :
    ∀ (versions : List EEVersion) (err : Err),
      collectVersions getVersionDetails entries versions = Except.error err →
      ∃ verStr, getVersionDetails verStr = Except.error err := by
  induction entries with
  | nil => intro versions err h; cases h
  | cons entry rest ih =>
    intro versions err h
    unfold collectVersions at h
    cases hp : getVersionDetails (capture entry 3) with
    | error e =>
      rw [hp] at h
      injection h with h
      subst h
      exact ⟨_, hp⟩
    | ok version =>
      rw [hp] at h
      exact ih _ _ h

theorem TrimSpace_within (s : List Char) : TrimSpace s <:+: s := by
  unfold TrimSpace
  have h1 : (s.dropWhile isSpace) <:+ s := List.dropWhile_suffix _
  have h2 : ((s.dropWhile isSpace).reverse.dropWhile isSpace).reverse <+:
      s.dropWhile isSpace := by
    have := List.dropWhile_suffix isSpace (l := (s.dropWhile isSpace).reverse)
    rw [← List.reverse_prefix] at this
    simpa using this
  exact h2.isInfix.trans h1.isInfix

theorem host_matches_name (arch : List Char) (host : OsType) (re : Re) (w : List Char)
    (hre : compileVersionRegexp (Except.ok arch) (Except.ok host) = Except.ok re)
    (h : Re.Matches re w) : "tarantool-enterprise-".toList <:+: w := by
  cases host <;>
    simp only [compileVersionRegexp, Except.ok.injEq] at hre <;> subst hre
  · obtain ⟨u, v, rfl, -, hv⟩ := h
    simp only [Re.seqs, linuxRe] at hv
    obtain ⟨u1, v1, rfl, h1, -⟩ := hv
    obtain ⟨z, rfl⟩ := matches_nameRe u1 h1
    exact ⟨u, z ++ v1, by simp⟩
  · obtain ⟨u, v, rfl, -, hv⟩ := h
    simp only [Re.seqs, macosRe] at hv
    obtain ⟨u1, v1, rfl, h1, -⟩ := hv
    obtain ⟨z, rfl⟩ := matches_nameRe u1 h1
    exact ⟨u, z ++ v1, by simp⟩

theorem findAll_eq_nil_of_no_name (arch : List Char) (host : OsType) (re : Re)
    (s : List Char)
    (hre : compileVersionRegexp (Except.ok arch) (Except.ok host) = Except.ok re)
    (h : ¬ "tarantool-enterprise-".toList <:+: s) : FindAllStringSubmatch re s = [] := by
  cases hf : FindAllStringSubmatch re s with
  | nil => rfl
  | cons caps l =>
    exfalso
    have hmem : caps ∈ FindAllStringSubmatch re s := by rw [hf]; exact List.mem_cons_self _ _
    obtain ⟨t, rest, ht, hm⟩ := mem_findAllFrom re s 0 caps hmem
    obtain ⟨w, hw, hmw⟩ := run_sound re t [] (rest, caps) (List.mem_of_mem_head? hm)
    have h1 := host_matches_name arch host re w hre hmw
    have h2 : w <:+: s := by
      obtain ⟨pre, hpre⟩ := ht
      exact ⟨pre, rest, by rw [← hpre, hw]; simp⟩
    exact h (h1.trans h2)

theorem getVersions_of_no_match (getVersionDetails : List Char → Except Err Version)
    (arch : List Char) (host : OsType) (re : Re) (data : List Char)
    (hre : compileVersionRegexp (Except.ok arch) (Except.ok host) = Except.ok re)
    (hf : FindAllStringSubmatch re (TrimSpace data) = []) :
    getVersions getVersionDetails (Except.ok arch) (Except.ok host) data =
      Except.error (Err.text "no packages for this OS".toList) := by
  unfold getVersions
  rw [hre]
  simp only [hf, List.length_nil, if_true]

theorem no_match_of_getVersions (getVersionDetails : List Char → Except Err Version)
    (arch : List Char) (host : OsType) (re : Re) (data : List Char)
    (hparse : ∀ verStr, getVersionDetails verStr ≠
      Except.error (Err.text "no packages for this OS".toList))
    (hre : compileVersionRegexp (Except.ok arch) (Except.ok host) = Except.ok re)
    (h : getVersions getVersionDetails (Except.ok arch) (Except.ok host) data =
      Except.error (Err.text "no packages for this OS".toList)) :
    FindAllStringSubmatch re (TrimSpace data) = [] := by
  unfold getVersions at h
  rw [hre] at h
  simp only at h
  cases hf : FindAllStringSubmatch re (TrimSpace data) with
  | nil => rfl
  | cons caps l =>
    exfalso
    rw [hf] at h
    simp only [List.length_cons, Nat.succ_ne_zero, if_false] at h
    cases hc : collectVersions getVersionDetails (caps :: l) [] with
    | error err =>
      rw [hc] at h
      obtain ⟨verStr, hv⟩ := collectVersions_error _ _ _ _ hc
      injection h with h
      subst h
      exact hparse verStr hv
    | ok versions =>
      rw [hc] at h
      cases h

/-- C10: with the host known, `getVersions` returns the error `no packages for this OS`
(and no versions) for every input in which the host grammar finds no match, in
particular for every input that does not contain `tarantool-enterprise-`; and, the
version parser not returning this message itself, it returns that error only when the
grammar finds no match. -/
theorem getVersions_no_packages (getVersionDetails : List Char → Except Err Version)
    (arch : List Char) (host : OsType) (data : List Char) :
    ∃ re, compileVersionRegexp (Except.ok arch) (Except.ok host) = Except.ok re ∧
      (FindAllStringSubmatch re (TrimSpace data) = [] →
        getVersions getVersionDetails (Except.ok arch) (Except.ok host) data =
          Except.error (Err.text "no packages for this OS".toList)) ∧
      (¬ "tarantool-enterprise-".toList <:+: data →
        getVersions getVersionDetails (Except.ok arch) (Except.ok host) data =
          Except.error (Err.text "no packages for this OS".toList)) ∧
      ((∀ verStr, getVersionDetails verStr ≠
          Except.error (Err.text "no packages for this OS".toList)) →
        getVersions getVersionDetails (Except.ok arch) (Except.ok host) data =
          Except.error (Err.text "no packages for this OS".toList) →
        FindAllStringSubmatch re (TrimSpace data) = []) := by
  have hex : ∃ re, compileVersionRegexp (Except.ok arch) (Except.ok host) = Except.ok re := by
    cases host
    · exact ⟨linuxRe arch, rfl⟩
    · exact ⟨macosRe arch, rfl⟩
  obtain ⟨re, hre⟩ := hex
  refine ⟨re, hre, getVersions_of_no_match getVersionDetails arch host re data hre,
    fun hno => ?_,
    fun hparse h => no_match_of_getVersions getVersionDetails arch host re data hparse hre h⟩
  exact getVersions_of_no_match getVersionDetails arch host re data hre
    (findAll_eq_nil_of_no_name arch host re _ hre
      (fun hc => hno (hc.trans (TrimSpace_within data))))

/-- Witness of C10: the input `random string` of the test, on Linux x86_64, with the
version parser modelled from §4.5. -/
theorem getVersions_no_packages_witness :
    (∀ verStr, GetVersionDetails verStr ≠
      Except.error (Err.text "no packages for this OS".toList)) ∧
    ¬ "tarantool-enterprise-".toList <:+: "random string".toList ∧
    getVersions GetVersionDetails (Except.ok "x86_64".toList) (Except.ok OsType.OsLinux)
        "random string".toList =
      Except.error (Err.text "no packages for this OS".toList) ∧
    ∃ re, compileVersionRegexp (Except.ok "x86_64".toList) (Except.ok OsType.OsLinux) =
        Except.ok re ∧
      FindAllStringSubmatch re (TrimSpace "random string".toList) = [] :=
  match getVersions_no_packages GetVersionDetails "x86_64".toList OsType.OsLinux
    "random string".toList with
  | ⟨re, hre, _, h2, h3⟩ =>
    ⟨GetVersionDetails_ne_no_packages, by decide, h2 (by decide),
      re, hre, h3 GetVersionDetails_ne_no_packages (h2 (by decide))⟩

/-! ## Order of the catalog -/

theorem getVersions_sorted (getVersionDetails : List Char → Except Err Version)
    (getArch : Except Err (List Char)) (getOs : Except Err OsType)
    (data : List Char) (versions : List EEVersion)
    (h : getVersions getVersionDetails getArch getOs data = Except.ok versions) :
    ∃ unsorted, versions = SortEEVersions unsorted := by
  unfold getVersions at h
  cases hre : compileVersionRegexp getArch getOs with
  | error err => rw [hre] at h; cases h
  | ok re =>
    rw [hre] at h
    simp only at h
    split_ifs at h
    cases hc : collectVersions getVersionDetails
        (FindAllStringSubmatch re (TrimSpace data)) [] with
    | error err => rw [hc] at h; cases h
    | ok unsorted =>
      rw [hc] at h
      injection h with h
      exact ⟨unsorted, h.symm⟩

theorem FetchVersions_sorted (getVersionDetails : List Char → Except Err Version)
    (getCreds : Except Err Unit)
    (collected : Except Err (List (List Char))) (getArch : Except Err (List Char))
    (getOs : Except Err OsType) (versions : List EEVersion)
    (h : FetchVersions getVersionDetails getCreds collected getArch getOs =
      Except.ok versions) :
    ∃ unsorted, versions = SortEEVersions unsorted := by
  unfold FetchVersions at h
  cases getCreds with
  | error err => cases h
  | ok _ =>
    cases collected with
    | error err => cases h
    | ok refs =>
      simp only at h
      split at h
      · cases h
      · rename_i vs hg
        injection h with h
        subst h
        exact getVersions_sorted _ _ _ _ _ hg

/-- C1: after `SortEEVersions`, and so in every successful result of `getVersions` and
`FetchVersions`, every adjacent pair `a`, `b` of the list has the key tuple (Major, Minor,
Patch, Release.Type, Release.Num, Additional, Revision) of `a` lexicographically at most
that of `b`; `1.10.10-52-r419` is put before `1.10.10-52-r420` and `1.10.10-rc1-r419`
before `1.10.10-52-r419`. -/
theorem SortEEVersions_ascending :
    (∀ versions : List EEVersion,
      (SortEEVersions versions).Chain' (fun a b => keyTuple a ≤ keyTuple b)) ∧
    (∀ (getVersionDetails : List Char → Except Err Version)
      (getArch : Except Err (List Char)) (getOs : Except Err OsType) (data : List Char)
      (versions : List EEVersion),
      getVersions getVersionDetails getArch getOs data = Except.ok versions →
      versions.Chain' (fun a b => keyTuple a ≤ keyTuple b)) ∧
    (∀ (getVersionDetails : List Char → Except Err Version)
      (getCreds : Except Err Unit) (collected : Except Err (List (List Char)))
      (getArch : Except Err (List Char)) (getOs : Except Err OsType)
      (versions : List EEVersion),
      FetchVersions getVersionDetails getCreds collected getArch getOs = Except.ok versions →
      versions.Chain' (fun a b => keyTuple a ≤ keyTuple b)) ∧
    SortEEVersions [v420, v419] = [v419, v420] ∧
    SortEEVersions [v419, vRC1] = [vRC1, v419] := by
  have hs : ∀ versions : List EEVersion,
      (SortEEVersions versions).Chain' (fun a b => keyTuple a ≤ keyTuple b) := fun versions =>
    (pairwise_sliceStable less keyTuple less_iff_keyTuple_lt versions).chain'
  refine ⟨hs, ?_, ?_, by decide, by decide⟩
  · intro getVersionDetails getArch getOs data versions h
    obtain ⟨unsorted, rfl⟩ := getVersions_sorted _ _ _ _ _ h
    exact hs unsorted
  · intro getVersionDetails getCreds collected getArch getOs versions h
    obtain ⟨unsorted, rfl⟩ := FetchVersions_sorted _ _ _ _ _ _ h
    exact hs unsorted

/-- Witness of C1: two references collected in descending order come back ascending. -/
theorem SortEEVersions_ascending_witness :
    FetchVersions GetVersionDetails (Except.ok ())
        (Except.ok ["/e/tarantool-enterprise-sdk-1.10.10-52-r420.tar.gz".toList,
          "/e/tarantool-enterprise-sdk-1.10.10-52-r419.tar.gz".toList])
        (Except.ok "x86_64".toList) (Except.ok OsType.OsLinux) =
      Except.ok
        [{ v419 with
            VersionInfo := { v419.VersionInfo with
              Tarball := "tarantool-enterprise-sdk-1.10.10-52-r419.tar.gz".toList }
            Prefix := "/e/".toList },
         { v420 with
            VersionInfo := { v420.VersionInfo with
              Tarball := "tarantool-enterprise-sdk-1.10.10-52-r420.tar.gz".toList }
            Prefix := "/e/".toList }] ∧
    List.Chain' (fun a b => keyTuple a ≤ keyTuple b)
        [{ v419 with
            VersionInfo := { v419.VersionInfo with
              Tarball := "tarantool-enterprise-sdk-1.10.10-52-r419.tar.gz".toList }
            Prefix := "/e/".toList },
         { v420 with
            VersionInfo := { v420.VersionInfo with
              Tarball := "tarantool-enterprise-sdk-1.10.10-52-r420.tar.gz".toList }
            Prefix := "/e/".toList }] :=
  ⟨by decide,
    SortEEVersions_ascending.2.2.1 GetVersionDetails (Except.ok ())
      (Except.ok ["/e/tarantool-enterprise-sdk-1.10.10-52-r420.tar.gz".toList,
        "/e/tarantool-enterprise-sdk-1.10.10-52-r419.tar.gz".toList])
      (Except.ok "x86_64".toList) (Except.ok OsType.OsLinux) _ (by decide)⟩

/-! ## Properties of the string queue -/

theorem Pop_cons (x : List Char) (rest : List (List Char)) :
    stringQueue.Pop { buf := x :: rest } = ((x, none), { buf := rest }) := by
  simp [stringQueue.Pop]

theorem Pop_nil : stringQueue.Pop { buf := [] } =
    (([], some (Err.text emptyQueueError)), { buf := [] }) := by
  simp [stringQueue.Pop]

theorem insertEach_buf (xs : List (List Char)) :
    ∀ q : stringQueue, (insertEach q xs).buf = q.buf ++ xs := by
  induction xs with
  | nil => intro q; simp [insertEach]
  | cons x xs ih =>
    intro q
    simp [insertEach, ih, stringQueue.Insert]

theorem popTimes_buf (xs : List (List Char)) :
    popTimes xs.length { buf := xs } =
      (xs.map (fun x => (x, (none : Option Err))), { buf := [] }) := by
  induction xs with
  | nil => rfl
  | cons x xs ih =>
    simp only [List.length_cons, popTimes, Pop_cons, ih, List.map_cons]

/-- C15: on a queue holding no elements `Pop` returns the empty string with the error
`empty queue` and `GetAll` returns a nil slice with the error `empty queue`, and both leave
the queue empty; on a non-empty queue neither returns an error. -/
theorem stringQueue_empty_error (q : stringQueue) :
    (q.buf = [] →
      q.Pop = (([], some (Err.text "empty queue".toList)), q) ∧
      q.GetAll = ((none, some (Err.text "empty queue".toList)), q) ∧
      (q.Pop).2.buf = [] ∧ (q.GetAll).2.buf = []) ∧
    (q.buf ≠ [] → (q.Pop).1.2 = none ∧ (q.GetAll).1.2 = none) := by
  obtain ⟨buf⟩ := q
  constructor
  · intro h
    simp only at h
    subst h
    simp [stringQueue.Pop, stringQueue.GetAll, emptyQueueError]
  · intro h
    cases buf with
    | nil => exact absurd rfl h
    | cons x rest => simp [stringQueue.Pop, stringQueue.GetAll]

/-- Witness of C15: the empty queue, and the queue of the test with one element. -/
theorem stringQueue_empty_error_witness :
    (stringQueue.mk []).buf = [] ∧
    (stringQueue.mk []).Pop =
      (([], some (Err.text "empty queue".toList)), stringQueue.mk []) ∧
    (stringQueue.mk []).GetAll =
      ((none, some (Err.text "empty queue".toList)), stringQueue.mk []) ∧
    (stringQueue.mk ["test".toList]).buf ≠ [] ∧
    ((stringQueue.mk ["test".toList]).Pop).1.2 = none ∧
    ((stringQueue.mk ["test".toList]).GetAll).1.2 = none :=
  ⟨rfl, ((stringQueue_empty_error (stringQueue.mk [])).1 rfl).1,
    ((stringQueue_empty_error (stringQueue.mk [])).1 rfl).2.1, by decide,
    ((stringQueue_empty_error (stringQueue.mk ["test".toList])).2 (by decide)).1,
    ((stringQueue_empty_error (stringQueue.mk ["test".toList])).2 (by decide)).2⟩

/-- C16: the queue is first-in first-out: `InsertBatch` and `Insert` append to the contents,
`Pop` on `x :: rest` returns `x` without error and leaves `rest`; so after inserting
`x1..xn` into an empty queue, `n` successive `Pop`s return `x1..xn` in that order and the
next `Pop` fails with `empty queue`. -/
theorem stringQueue_fifo :
    (∀ (q : stringQueue) (xs : List (List Char)), (q.InsertBatch xs).buf = q.buf ++ xs) ∧
    (∀ (q : stringQueue) (xs : List (List Char)), (insertEach q xs).buf = q.buf ++ xs) ∧
    (∀ (q : stringQueue) (x : List Char), (q.Insert x).buf = q.buf ++ [x]) ∧
    (∀ (x : List Char) (rest : List (List Char)),
      stringQueue.Pop { buf := x :: rest } = ((x, none), { buf := rest })) ∧
    (∀ xs : List (List Char),
      (popTimes xs.length (insertEach { buf := [] } xs)).1 =
        xs.map (fun x => (x, (none : Option Err))) ∧
      (popTimes xs.length (stringQueue.InsertBatch { buf := [] } xs)).1 =
        xs.map (fun x => (x, (none : Option Err))) ∧
      ((popTimes xs.length (insertEach { buf := [] } xs)).2.Pop).1 =
        ([], some (Err.text "empty queue".toList))) := by
  refine ⟨fun q xs => rfl, fun q xs => insertEach_buf xs q, fun q x => rfl, Pop_cons,
    fun xs => ?_⟩
  have h1 : insertEach { buf := [] } xs = { buf := xs } := by
    have := insertEach_buf xs { buf := [] }
    cases h : insertEach { buf := [] } xs
    rw [h] at this
    simp only [List.nil_append] at this
    rw [this]
  have h2 : stringQueue.InsertBatch { buf := [] } xs = { buf := xs } := by
    simp [stringQueue.InsertBatch]
  rw [h1, h2, popTimes_buf]
  exact ⟨rfl, rfl, by rw [Pop_nil]; rfl⟩

/-- C17: on a non-empty queue `GetAll` returns all elements in insertion order and leaves
the contents unchanged: `Len` before and after is the number of elements returned, and a
following `Pop` still returns the first element. -/
theorem stringQueue_GetAll_reads (q : stringQueue) (h : q.buf ≠ []) :
    q.GetAll = ((some q.buf, none), q) ∧
    (q.Len).1 = q.buf.length ∧ (((q.GetAll).2).Len).1 = q.buf.length ∧
    ((q.GetAll).2).Pop = q.Pop ∧
    ((some (((q.GetAll).2).Pop).1.1, (((q.GetAll).2).Pop).1.2) = (q.buf.head?, none)) := by
  obtain ⟨buf⟩ := q
  cases buf with
  | nil => exact absurd rfl h
  | cons x rest => simp [stringQueue.GetAll, stringQueue.Len, stringQueue.Pop]

/-- Witness of C17: the queue `test1, test2` of the test. -/
theorem stringQueue_GetAll_reads_witness :
    (stringQueue.mk ["test1".toList, "test2".toList]).buf ≠ [] ∧
    (stringQueue.mk ["test1".toList, "test2".toList]).GetAll =
      ((some ["test1".toList, "test2".toList], none),
        stringQueue.mk ["test1".toList, "test2".toList]) ∧
    (((stringQueue.mk ["test1".toList, "test2".toList]).GetAll).2).Pop =
      (("test1".toList, none), stringQueue.mk ["test2".toList]) :=
  ⟨by decide,
    (stringQueue_GetAll_reads (stringQueue.mk ["test1".toList, "test2".toList])
      (by decide)).1,
    by
      rw [(stringQueue_GetAll_reads (stringQueue.mk ["test1".toList, "test2".toList])
        (by decide)).2.2.2.1]
      rfl⟩

/-- C18: sorting is idempotent: `SortEEVersions` applied to an already sorted list leaves it
unchanged, element for element. -/
theorem SortEEVersions_idempotent (xs : List EEVersion) :
    SortEEVersions (SortEEVersions xs) = SortEEVersions xs :=
  sliceStable_eq_self_of_pairwise less keyTuple less_iff_keyTuple_lt _
    (pairwise_sliceStable less keyTuple less_iff_keyTuple_lt xs)

/-! ## The short version of a bundle name -/

theorem starRests_ne_nil (p : CharClass) (s : List Char) : starRests p s ≠ [] := by
  cases s with
  | nil => simp [starRests]
  | cons x s =>
    unfold starRests
    split_ifs <;> simp

theorem matches_shortVersionRe (w : List Char) (h : Re.Matches shortVersionRe w) :
    ∃ (a c : Char) (rest : List Char), w = a :: '.' :: c :: rest ∧
      a.isDigit = true ∧ c.isDigit = true := by
  simp only [shortVersionRe, Re.seqs, Re.plus] at h
  obtain ⟨u1, v1, rfl, ⟨a, rfl, ha⟩, u2, v2, rfl, ⟨b, rfl, hb⟩, u3, v3, rfl,
    ⟨u4, v4, rfl, ⟨c, rfl, hc⟩, -⟩, h5⟩ := h
  simp only [CharClass.test, beq_iff_eq] at ha hb hc
  subst hb
  exact ⟨a, c, v4 ++ v3, by simp, ha, hc⟩

theorem matchAt_short_isSome (t : List Char) (h : shortVersionAt t = true) :
    ∃ m, matchAt shortVersionRe t = some m := by
  rcases t with _ | ⟨a, _ | ⟨b, _ | ⟨c, rest⟩⟩⟩
  · simp [shortVersionAt] at h
  · simp [shortVersionAt] at h
  · simp [shortVersionAt] at h
  · simp only [shortVersionAt, Bool.and_eq_true, beq_iff_eq] at h
    obtain ⟨⟨ha, rfl⟩, hc⟩ := h
    obtain ⟨r, l, hl⟩ := List.exists_cons_of_ne_nil (starRests_ne_nil CharClass.digit rest)
    refine ⟨(r, [(1, (a :: '.' :: c :: rest).take ((a :: '.' :: c :: rest).length - r.length))]),
      ?_⟩
    simp [matchAt, shortVersionRe, Re.seqs, Re.plus, Re.run, CharClass.test, ha, hc, hl]

theorem matchAt_short_sound (t : List Char) (m : List Char × Caps)
    (h : matchAt shortVersionRe t = some m) :
    shortVersionAt t = true ∧ t.take (t.length - m.1.length) ≠ [] := by
  obtain ⟨w, hw, hm⟩ := run_sound shortVersionRe t [] m (List.mem_of_mem_head? h)
  obtain ⟨a, c, rest, rfl, ha, hc⟩ := matches_shortVersionRe w hm
  rw [hw]
  constructor
  · simp [shortVersionAt, ha, hc]
  · simp only [List.cons_append, List.length_cons, List.length_append, ne_eq,
      List.take_eq_nil_iff, reduceCtorEq, or_false]
    omega

theorem findFirst_short (s : List Char) :
    (hasShortVersion s = false → findFirst shortVersionRe s = none) ∧
    (hasShortVersion s = true →
      ∃ m, findFirst shortVersionRe s = some m ∧ m.1 ≠ []) := by
  induction s with
  | nil => simp [hasShortVersion, findFirst]
  | cons c s ih =>
    constructor
    · intro h
      simp only [hasShortVersion, Bool.or_eq_false_iff] at h
      unfold findFirst
      cases hm : matchAt shortVersionRe (c :: s) with
      | none => exact ih.1 h.2
      | some m =>
        have := (matchAt_short_sound _ m hm).1
        rw [h.1] at this
        cases this
    · intro h
      unfold findFirst
      cases hm : matchAt shortVersionRe (c :: s) with
      | none =>
        simp only [hasShortVersion, Bool.or_eq_true] at h
        rcases h with h | h
        · obtain ⟨m, hm2⟩ := matchAt_short_isSome _ h
          rw [hm] at hm2
          cases hm2
        · exact ih.2 h
      | some m =>
        exact ⟨_, rfl, (matchAt_short_sound _ m hm).2⟩

theorem getShortVersion_error_iff (bundleName : List Char) :
    getShortVersionFromBundleName bundleName =
        Except.error (Err.text "no version found".toList) ↔
      hasShortVersion bundleName = false := by
  unfold getShortVersionFromBundleName FindString
  cases hh : hasShortVersion bundleName with
  | false =>
    rw [(findFirst_short bundleName).1 hh]
    simp
  | true =>
    obtain ⟨m, hm, hne⟩ := (findFirst_short bundleName).2 hh
    rw [hm]
    simp [hne]

theorem starRests_stop (p : CharClass) (t : List Char)
    (h : ∀ x, t.head? = some x → p.test x = false) : starRests p t = [t] := by
  cases t with
  | nil => rfl
  | cons x t =>
    have hx := h x rfl
    simp [starRests, hx]

theorem take_consumed (w rest : List Char) :
    (w ++ rest).take ((w ++ rest).length - rest.length) = w := by
  simp

theorem matchAt_short_at (a m : Char) (ms rest : List Char) (ha : a.isDigit = true)
    (hms : ∀ x ∈ m :: ms, x.isDigit = true)
    (hrest : ∀ x, rest.head? = some x → x.isDigit = false) :
    matchAt shortVersionRe (a :: '.' :: ((m :: ms) ++ rest)) =
      some (rest, [(1, a :: '.' :: (m :: ms))]) := by
  have hm : m.isDigit = true := hms m (List.mem_cons_self _ _)
  have hstar : starRests CharClass.digit (ms ++ rest) =
      [rest] ++ tailsInto ms rest := by
    rw [starRests_append _ _ _ (fun x hx => by
      simpa [CharClass.test] using hms x (List.mem_cons_of_mem _ hx))]
    rw [starRests_stop _ _ (fun x hx => by simpa [CharClass.test] using hrest x hx)]
  have ht := take_consumed (a :: '.' :: (m :: ms)) rest
  simp only [List.cons_append] at ht
  simp only [matchAt, shortVersionRe, Re.seqs, Re.plus, Re.run, CharClass.test, ha, hm, hstar,
    List.cons_append, beq_self_eq_true, if_true, List.flatMap_cons, List.flatMap_nil,
    List.append_nil, List.map_cons, List.map_append, List.singleton_append, List.head?_cons,
    ht]

theorem shortVersionAt_append (u : List Char) (a : Char) (t : List Char) (hu : u ≠ []) :
    shortVersionAt (u ++ a :: '.' :: t) = shortVersionAt (u ++ [a, '.']) := by
  rcases u with _ | ⟨x, _ | ⟨y, _ | ⟨z, rest⟩⟩⟩
  · exact absurd rfl hu
  · simp [shortVersionAt]
  · simp [shortVersionAt]
  · simp [shortVersionAt]

theorem findFirst_short_at (pre : List Char) (a m : Char) (ms rest : List Char)
    (ha : a.isDigit = true) (hms : ∀ x ∈ m :: ms, x.isDigit = true)
    (hrest : ∀ x, rest.head? = some x → x.isDigit = false)
    (hpre : hasShortVersion (pre ++ [a, '.']) = false) :
    findFirst shortVersionRe (pre ++ a :: '.' :: ((m :: ms) ++ rest)) =
      some (a :: '.' :: (m :: ms), [(1, a :: '.' :: (m :: ms))]) := by
  induction pre with
  | nil =>
    have ht := take_consumed (a :: '.' :: (m :: ms)) rest
    simp only [List.nil_append, findFirst, matchAt_short_at a m ms rest ha hms hrest]
    rw [show a :: '.' :: (m :: ms ++ rest) = (a :: '.' :: (m :: ms)) ++ rest from rfl, ht]
  | cons c pre ih =>
    have h2 : hasShortVersion (c :: (pre ++ [a, '.'])) = false := hpre
    simp only [hasShortVersion, Bool.or_eq_false_iff] at h2
    have hnone : matchAt shortVersionRe (c :: pre ++ a :: '.' :: ((m :: ms) ++ rest)) = none := by
      cases hm : matchAt shortVersionRe (c :: pre ++ a :: '.' :: ((m :: ms) ++ rest)) with
      | none => rfl
      | some mm =>
        have := (matchAt_short_sound _ mm hm).1
        rw [shortVersionAt_append (c :: pre) a _ (by simp)] at this
        have h3 : shortVersionAt (c :: (pre ++ [a, '.'])) = false := h2.1
        rw [List.cons_append, h3] at this
        cases this
    show findFirst shortVersionRe (c :: (pre ++ a :: '.' :: ((m :: ms) ++ rest))) = _
    unfold findFirst
    rw [List.cons_append] at hnone
    rw [hnone]
    exact ih h2.2


/-- C19 (code bug): the pattern `(\d\.\d+)` takes a single digit before the dot. For a bundle
name with the version `10.11.3` the result is `0.11`, not `10.11`; the name of the test
gives `1.10`. In general the result is the digit that stands before the first
dot-and-digit, the dot, and the run of digits behind it; and the error `no version found`
is returned exactly when the name holds no digit followed by `.` and a digit. -/
theorem getShortVersion_takes_one_major_digit :
    getShortVersionFromBundleName
        "tarantool-enterprise-sdk-10.11.3-0-r563.linux.x86_64.tar.gz".toList =
      Except.ok "0.11".toList ∧
    getShortVersionFromBundleName "testtest.test.test/test/asdsada1.10sdsad/".toList =
      Except.ok "1.10".toList ∧
    (∀ (pre minor rest : List Char) (a : Char), a.isDigit = true → isNumber minor = true →
      (∀ x, rest.head? = some x → x.isDigit = false) →
      hasShortVersion (pre ++ [a, '.']) = false →
      getShortVersionFromBundleName (pre ++ a :: '.' :: (minor ++ rest)) =
        Except.ok (a :: '.' :: minor)) ∧
    (∀ bundleName : List Char,
      getShortVersionFromBundleName bundleName =
          Except.error (Err.text "no version found".toList) ↔
        hasShortVersion bundleName = false) := by
  refine ⟨by decide, by decide, ?_, getShortVersion_error_iff⟩
  intro pre minor rest a ha hminor hrest hpre
  obtain ⟨m, ms, rfl, hms⟩ := isNumber_cons minor hminor
  unfold getShortVersionFromBundleName FindString
  rw [findFirst_short_at pre a m ms rest ha hms hrest hpre]
  simp

set_option maxRecDepth 100000 in
/-- C12 (code bug): for a file name that the host grammar matches, `FetchVersionsLocal`
hands capture 1, the directory, to the version parser, where `getVersions` hands
capture 3. On Linux x86_64, for the path of the grammar scenario, the parser gets
`/enterprise/` instead of `1.10.10-52-r419`: with the parser modelled from §4.5
`FetchVersionsLocal` fails, while `getVersions` returns the version. -/
theorem FetchVersionsLocal_parses_directory :
    FindStringSubmatch (linuxRe "x86_64".toList)
        "/enterprise/tarantool-enterprise-sdk-1.10.10-52-r419.linux.x86_64.tar.gz".toList =
      some [(2, "tarantool-enterprise-sdk-1.10.10-52-r419.linux.x86_64.tar.gz".toList),
        (3, "1.10.10-52-r419".toList), (1, "/enterprise/".toList)] ∧
    (∀ getVersionDetails : List Char → Except Err Version,
      FetchVersionsLocal getVersionDetails (Except.ok "x86_64".toList)
          (Except.ok OsType.OsLinux)
          ["/enterprise/tarantool-enterprise-sdk-1.10.10-52-r419.linux.x86_64.tar.gz".toList] =
        match getVersionDetails "/enterprise/".toList with
        | Except.error err => Except.error err
        | Except.ok version =>
          Except.ok [{ VersionInfo := { version with Tarball :=
            "/enterprise/tarantool-enterprise-sdk-1.10.10-52-r419.linux.x86_64.tar.gz".toList }
                       Prefix := [] }]) ∧
    FetchVersionsLocal GetVersionDetails (Except.ok "x86_64".toList)
        (Except.ok OsType.OsLinux)
        ["/enterprise/tarantool-enterprise-sdk-1.10.10-52-r419.linux.x86_64.tar.gz".toList] =
      Except.error (Err.external "VersionParseError".toList) ∧
    getVersions GetVersionDetails (Except.ok "x86_64".toList) (Except.ok OsType.OsLinux)
        "/enterprise/tarantool-enterprise-sdk-1.10.10-52-r419.linux.x86_64.tar.gz".toList =
      Except.ok [{ v419 with
        VersionInfo := { v419.VersionInfo with
          Tarball := "tarantool-enterprise-sdk-1.10.10-52-r419.linux.x86_64.tar.gz".toList }
        Prefix := "/enterprise/".toList }] := by
  have hfind : FindStringSubmatch (linuxRe "x86_64".toList)
      "/enterprise/tarantool-enterprise-sdk-1.10.10-52-r419.linux.x86_64.tar.gz".toList =
      some [(2, "tarantool-enterprise-sdk-1.10.10-52-r419.linux.x86_64.tar.gz".toList),
        (3, "1.10.10-52-r419".toList), (1, "/enterprise/".toList)] := by decide
  refine ⟨hfind, ?_, by decide, by decide⟩
  intro getVersionDetails
  unfold FetchVersionsLocal compileVersionRegexp
  simp only [collectLocal, hfind]
  have e : capture [(2, "tarantool-enterprise-sdk-1.10.10-52-r419.linux.x86_64.tar.gz".toList),
      (3, "1.10.10-52-r419".toList), (1, "/enterprise/".toList)] 1 = "/enterprise/".toList := by
    decide
  rw [e]
  cases getVersionDetails "/enterprise/".toList with
  | error err => rfl
  | ok version => rfl

/-- C14 (as stated, refuted): when the crawl ends with an empty results queue,
`FetchVersions` fails with `empty queue`, not with `no packages for this OS`. -/
theorem FetchVersions_empty_results :
    FetchVersions GetVersionDetails (Except.ok ()) (crawlReturn { buf := [] })
        (Except.ok "x86_64".toList) (Except.ok OsType.OsLinux) =
      Except.error (Err.text "empty queue".toList) ∧
    Err.text "empty queue".toList ≠ Err.text "no packages for this OS".toList := by
  decide

/-- C14 (amended): when the crawl completes without a worker error, credentials were found
and the results queue holds references none of which matches the host grammar,
`FetchVersions` fails with `no packages for this OS`; when the results queue is empty it
fails with `empty queue`. -/
theorem FetchVersions_no_match (getVersionDetails : List Char → Except Err Version)
    (arch : List Char) (host : OsType) (re : Re) (bundleReferences : List (List Char))
    (hre : compileVersionRegexp (Except.ok arch) (Except.ok host) = Except.ok re) :
    (bundleReferences ≠ [] →
      FindAllStringSubmatch re (TrimSpace (Join bundleReferences "\n".toList)) = [] →
      FetchVersions getVersionDetails (Except.ok ()) (crawlReturn { buf := bundleReferences })
          (Except.ok arch) (Except.ok host) =
        Except.error (Err.text "no packages for this OS".toList)) ∧
    (bundleReferences = [] →
      FetchVersions getVersionDetails (Except.ok ()) (crawlReturn { buf := bundleReferences })
          (Except.ok arch) (Except.ok host) =
        Except.error (Err.text "empty queue".toList)) := by
  constructor
  · intro hne hno
    have hc : crawlReturn { buf := bundleReferences } = Except.ok bundleReferences := by
      cases bundleReferences with
      | nil => exact absurd rfl hne
      | cons x xs => simp [crawlReturn, stringQueue.GetAll]
    unfold FetchVersions
    rw [hc]
    simp only
    have hg : getVersions getVersionDetails (Except.ok arch) (Except.ok host)
        (Join bundleReferences "\n".toList) =
        Except.error (Err.text "no packages for this OS".toList) := by
      unfold getVersions
      rw [hre]
      simp only [hno, List.length_nil, if_true]
    rw [hg]
  · rintro rfl
    rfl

/-- Witness of C14 (amended): one collected reference that is no bundle of the host, on
Linux x86_64. -/
theorem FetchVersions_no_match_witness :
    compileVersionRegexp (Except.ok "x86_64".toList) (Except.ok OsType.OsLinux) =
      Except.ok (linuxRe "x86_64".toList) ∧
    ["/enterprise/readme.tar.gz".toList] ≠ [] ∧
    FindAllStringSubmatch (linuxRe "x86_64".toList)
      (TrimSpace (Join ["/enterprise/readme.tar.gz".toList] "\n".toList)) = [] ∧
    FetchVersions GetVersionDetails (Except.ok ())
        (crawlReturn { buf := ["/enterprise/readme.tar.gz".toList] })
        (Except.ok "x86_64".toList) (Except.ok OsType.OsLinux) =
      Except.error (Err.text "no packages for this OS".toList) :=
  ⟨rfl, by decide, by decide,
    (FetchVersions_no_match GetVersionDetails "x86_64".toList OsType.OsLinux
      (linuxRe "x86_64".toList) ["/enterprise/readme.tar.gz".toList] rfl).1
      (by decide) (by decide)⟩

/-! ## The download request -/

theorem splitSlash_ne_nil (s : List Char) : splitSlash s ≠ [] := by
  cases s with
  | nil => simp [splitSlash]
  | cons c s =>
    unfold splitSlash
    split_ifs
    · simp
    · split <;> simp

theorem Join_cons_head (c : Char) (h : List Char) (t : List (List Char)) (sep : List Char) :
    Join ((c :: h) :: t) sep = c :: Join (h :: t) sep := by
  cases t with
  | nil => rfl
  | cons b rest => simp [Join]

theorem Join_splitSlash (s : List Char) : Join (splitSlash s) "/".toList = s := by
  induction s with
  | nil => rfl
  | cons c s ih =>
    obtain ⟨h, t, ht⟩ := List.exists_cons_of_ne_nil (splitSlash_ne_nil s)
    unfold splitSlash
    split_ifs with hc
    · subst hc
      rw [ht] at ih ⊢
      simp only [Join, List.nil_append, ih]
      rfl
    · rw [ht] at ih ⊢
      simp only [Join_cons_head, ih]

theorem splitSlash_append_slash (x y : List Char) :
    splitSlash (x ++ '/' :: y) = splitSlash x ++ splitSlash y := by
  induction x with
  | nil => simp [splitSlash]
  | cons c x ih =>
    obtain ⟨h, t, ht⟩ := List.exists_cons_of_ne_nil (splitSlash_ne_nil x)
    show splitSlash (c :: (x ++ '/' :: y)) = splitSlash (c :: x) ++ splitSlash y
    by_cases hc : c = '/'
    · simp only [splitSlash, hc, if_true, ih, List.cons_append]
    · simp only [splitSlash, hc, if_false, ih, ht, List.cons_append]

theorem cleanStep_nil (rooted : Bool) (stack : List (List Char)) :
    cleanStep rooted stack [] = stack := by
  simp [cleanStep]

theorem cleanStep_plain (rooted : Bool) (stack : List (List Char)) (elem : List Char)
    (h : plainElem elem = true) : cleanStep rooted stack elem = elem :: stack := by
  simp only [plainElem, Bool.and_eq_true, Bool.not_eq_true', List.isEmpty_eq_false, bne_iff_ne,
    ne_eq] at h
  obtain ⟨⟨h1, h2⟩, h3⟩ := h
  unfold cleanStep
  rw [if_neg (by
    intro hor
    cases hor with
    | inl h0 => exact h1 h0
    | inr h0 => exact h2 h0), if_neg h3]

theorem foldl_cleanStep_plain (rooted : Bool) (elems : List (List Char))
    (h : ∀ e ∈ elems, plainElem e = true) :
    ∀ stack, elems.foldl (cleanStep rooted) stack = elems.reverse ++ stack := by
  induction elems with
  | nil => intro stack; rfl
  | cons e es ih =>
    intro stack
    simp only [List.foldl_cons, cleanStep_plain rooted stack e (h e (List.mem_cons_self _ _)),
      ih (fun x hx => h x (List.mem_cons_of_mem _ hx)), List.reverse_cons, List.append_assoc,
      List.singleton_append]

theorem head_of_splitSlash (s : List Char) (e : List Char) (es : List (List Char))
    (h : splitSlash s = [] :: e :: es) : s.head? = some '/' := by
  cases s with
  | nil => simp [splitSlash] at h
  | cons c s =>
    by_cases hc : c = '/'
    · simp [hc]
    · exfalso
      obtain ⟨h0, t, ht⟩ := List.exists_cons_of_ne_nil (splitSlash_ne_nil s)
      simp [splitSlash, hc, ht] at h

theorem Clean_doubled (x t : List Char) (h : cleanRooted (x ++ '/' :: t) = true) :
    Clean (x ++ '/' :: '/' :: t) = x ++ '/' :: t := by
  unfold cleanRooted at h
  have hs := splitSlash_append_slash x t
  have hj := Join_splitSlash (x ++ '/' :: t)
  cases hsp : splitSlash (x ++ '/' :: t) with
  | nil => rw [hsp] at h; simp at h
  | cons first elems =>
    rw [hsp] at h hj
    cases first with
    | cons a b => simp at h
    | nil =>
      simp only [Bool.and_eq_true, Bool.not_eq_true', List.isEmpty_eq_false,
        List.all_eq_true] at h
      obtain ⟨hne, hall⟩ := h
      obtain ⟨e, es, rfl⟩ := List.exists_cons_of_ne_nil hne
      have hhead := head_of_splitSlash _ e es hsp
      have hrooted : ((x ++ '/' :: '/' :: t).head? == some '/') = true := by
        cases x with
        | nil => rfl
        | cons c x => simpa using hhead
      have hsplit2 : splitSlash (x ++ '/' :: '/' :: t) = splitSlash x ++ [] :: splitSlash t := by
        rw [splitSlash_append_slash x ('/' :: t)]
        simp [splitSlash]
      have hfold : (splitSlash (x ++ '/' :: '/' :: t)).foldl (cleanStep true) [] =
          (e :: es).reverse := by
        rw [hsplit2, List.foldl_append, List.foldl_cons, cleanStep_nil, ← List.foldl_append,
          ← hs, hsp, List.foldl_cons, cleanStep_nil, foldl_cleanStep_plain true _ hall]
        simp
      unfold Clean
      simp only [hrooted, if_true, hfold, List.reverse_reverse]
      have hj2 : "/".toList ++ Join (e :: es) "/".toList = x ++ '/' :: t := by
        rw [← hj]
        simp [Join]
      rw [hj2]
      simp

theorem escapePath_plain (s : List Char) (h : ∀ c ∈ s, shouldEscapePath c = false) :
    escapePath s = s := by
  induction s with
  | nil => rfl
  | cons c s ih =>
    have hc := h c (List.mem_cons_self _ _)
    have := ih (fun x hx => h x (List.mem_cons_of_mem _ hx))
    unfold escapePath at this ⊢
    simp [hc, this]

theorem GetTarantoolEE_clean (x bundleName dst : List Char)
    (hclean : cleanRooted ((x ++ ['/']) ++ bundleName) = true)
    (hesc : ∀ c ∈ (x ++ ['/']) ++ bundleName, shouldEscapePath c = false) :
    GetTarantoolEE true true (Except.ok ()) bundleName (x ++ ['/']) dst =
      Except.ok ("https://download.tarantool.io".toList ++ ((x ++ ['/']) ++ bundleName)) := by
  have e1 : (x ++ ['/']) ++ bundleName = x ++ '/' :: bundleName := by simp
  rw [e1] at hclean hesc ⊢
  have hjoin : filepathJoin [x ++ ['/'], bundleName] = x ++ '/' :: bundleName := by
    have hne : (x ++ ['/']).isEmpty = false := by cases x <;> rfl
    have : Join [x ++ ['/'], bundleName] "/".toList = x ++ '/' :: '/' :: bundleName := by
      simp [Join]
    simp only [filepathJoin, List.dropWhile, hne, this]
    exact Clean_doubled x bundleName hclean
  have hstar : x ++ '/' :: bundleName ≠ "*".toList := by
    intro h
    have := congrArg (fun l => decide ('/' ∈ l)) h
    simp at this
  have hhead : (x ++ '/' :: bundleName).head? = some '/' := by
    unfold cleanRooted at hclean
    cases hsp : splitSlash (x ++ '/' :: bundleName) with
    | nil => rw [hsp] at hclean; simp at hclean
    | cons first elems =>
      rw [hsp] at hclean
      cases first with
      | cons a b => simp at hclean
      | nil =>
        cases elems with
        | nil => simp at hclean
        | cons e es => exact head_of_splitSlash _ e es hsp
  simp only [GetTarantoolEE, Bool.not_true, Bool.false_eq_true, if_false, hjoin, URL.String,
    hstar, escapePath_plain _ hesc, hhead, eeSourceURL]
  simp

theorem groups_str (w : List Char) : (Re.str w).groups = [] := by
  induction w with
  | nil => rfl
  | cons c w ih => simp [Re.str, Re.groups, ih]

theorem run_lookup (n : Nat) (r : Re) : n ∉ r.groups →
    ∀ (s : List Char) (caps : Caps) (m : List Char × Caps),
      m ∈ Re.run r s caps → m.2.lookup n = caps.lookup n := by
  induction r with
  | eps =>
    intro _ s caps m h
    simp only [Re.run, List.mem_singleton] at h
    rw [h]
  | chr p =>
    intro _ s caps m h
    cases s with
    | nil => simp [Re.run] at h
    | cons x rest =>
      simp only [Re.run] at h
      split_ifs at h
      · simp only [List.mem_singleton] at h
        rw [h]
      · simp at h
  | star p =>
    intro _ s caps m h
    simp only [Re.run, List.mem_map] at h
    obtain ⟨rest, -, rfl⟩ := h
    rfl
  | seq r1 r2 ih1 ih2 =>
    intro hn s caps m h
    simp only [Re.groups, List.mem_append, not_or] at hn
    simp only [Re.run, List.mem_flatMap] at h
    obtain ⟨m1, h1, h2⟩ := h
    rw [ih2 hn.2 _ _ _ h2, ih1 hn.1 _ _ _ h1]
  | alt r1 r2 ih1 ih2 =>
    intro hn s caps m h
    simp only [Re.groups, List.mem_append, not_or] at hn
    simp only [Re.run, List.mem_append] at h
    rcases h with h | h
    · exact ih1 hn.1 _ _ _ h
    · exact ih2 hn.2 _ _ _ h
  | opt r ih =>
    intro hn s caps m h
    simp only [Re.groups] at hn
    simp only [Re.run, List.mem_append, List.mem_singleton] at h
    rcases h with h | h
    · exact ih hn _ _ _ h
    · rw [h]
  | group k r ih =>
    intro hn s caps m h
    simp only [Re.groups, List.mem_cons, not_or] at hn
    simp only [Re.run, List.mem_map] at h
    obtain ⟨m0, h0, rfl⟩ := h
    have hk : (n == k) = false := beq_false_of_ne hn.1
    simp only [List.lookup, hk]
    exact ih hn.2 _ _ _ h0

theorem matchAt_dir_capture (body : Re) (t rest : List Char) (caps : Caps)
    (hbody : 1 ∉ body.groups)
    (h : matchAt (Re.seq dirRe (Re.group 2 body)) t = some (rest, caps)) :
    ∃ x, capture caps 1 = x ++ ['/'] := by
  have hmem := List.mem_of_mem_head? h
  simp only [Re.run, dirRe, List.mem_flatMap, List.mem_map] at hmem
  obtain ⟨m1, ⟨m0, hm0, hm1⟩, m2, hm2, heq⟩ := hmem
  have hsound := run_sound (Re.seq (Re.plus CharClass.any) (Re.chr (CharClass.lit '/'))) t []
    m0 (by simpa [Re.run] using hm0)
  obtain ⟨w, hw, u, v, huv, -, x, hx, hxt⟩ := hsound
  have hl := run_lookup 1 body hbody _ _ _ hm2
  injection heq with _ hcaps
  have hx2 : x = '/' := by simpa [CharClass.test] using hxt
  refine ⟨u, ?_⟩
  rw [← hcaps, ← hm1] at *
  simp only [capture, List.lookup] at hl ⊢
  have h21 : ((1 : Nat) == 2) = false := rfl
  simp only [h21, hl, beq_self_eq_true]
  rw [hw, take_consumed, huv, hx, hx2]

theorem groups_linux_body (arch : List Char) :
    1 ∉ (Re.seqs [nameRe, Re.opt revisionRe,
      Re.opt (Re.seqs [Re.opt (Re.seq sepRe gc64Re),
        Re.opt (Re.seqs [Re.chr CharClass.any, Re.str "linux".toList, Re.chr CharClass.any]),
        Re.str arch]),
      Re.chr CharClass.any, Re.str "tar".toList, Re.chr CharClass.any,
      Re.str "gz".toList]).groups := by
  simp [Re.seqs, Re.groups, groups_str, nameRe, revisionRe, sepRe, gc64Re]

theorem groups_macos_body (arch : List Char) :
    1 ∉ (Re.seqs [nameRe, revisionRe, sepRe, Re.str "macos".toList,
      Re.opt (Re.chr (CharClass.lit 'x')), sepRe, Re.str arch,
      Re.str ".tar.gz".toList]).groups := by
  simp [Re.seqs, Re.groups, groups_str, nameRe, revisionRe, sepRe, gc64Re]

theorem findAll_dir_capture (getArch : Except Err (List Char)) (getOs : Except Err OsType)
    (re : Re) (s : List Char) (caps : Caps)
    (hre : compileVersionRegexp getArch getOs = Except.ok re)
    (h : caps ∈ FindAllStringSubmatch re s) : ∃ x, capture caps 1 = x ++ ['/'] := by
  obtain ⟨t, rest, -, hm⟩ := mem_findAllFrom _ s 0 caps h
  unfold compileVersionRegexp at hre
  cases getArch with
  | error err => cases hre
  | ok arch =>
    cases getOs with
    | error err => cases hre
    | ok osType =>
      cases osType with
      | OsLinux =>
        injection hre with hre
        subst hre
        exact matchAt_dir_capture _ t rest caps (groups_linux_body arch) hm
      | OsMacos =>
        injection hre with hre
        subst hre
        exact matchAt_dir_capture _ t rest caps (groups_macos_body arch) hm

theorem collectVersions_fields (getVersionDetails : List Char → Except Err Version) :
    ∀ (entries : List Caps) (acc out : List EEVersion),
      collectVersions getVersionDetails entries acc = Except.ok out →
      ∀ v ∈ out, v ∈ acc ∨ ∃ entry ∈ entries, v.Prefix = capture entry 1 ∧
        v.VersionInfo.Tarball = capture entry 2 := by
  intro entries
  induction entries with
  | nil =>
    intro acc out h v hv
    simp only [collectVersions] at h
    injection h with h
    subst h
    exact Or.inl hv
  | cons entry rest ih =>
    intro acc out h v hv
    unfold collectVersions at h
    cases hg : getVersionDetails (capture entry 3) with
    | error err => rw [hg] at h; cases h
    | ok version =>
      rw [hg] at h
      rcases ih _ _ h v hv with hacc | ⟨e, he, hp⟩
      · rcases List.mem_append.1 hacc with hacc | hnew
        · exact Or.inl hacc
        · simp only [List.mem_singleton] at hnew
          subst hnew
          exact Or.inr ⟨entry, List.mem_cons_self _ _, rfl, rfl⟩
      · exact Or.inr ⟨e, List.mem_cons_of_mem _ he, hp⟩

theorem getVersions_dir_slash (getVersionDetails : List Char → Except Err Version)
    (getArch : Except Err (List Char)) (getOs : Except Err OsType)
    (data : List Char) (versions : List EEVersion)
    (h : getVersions getVersionDetails getArch getOs data = Except.ok versions)
    (v : EEVersion) (hv : v ∈ versions) : ∃ x, v.Prefix = x ++ ['/'] := by
  unfold getVersions at h
  cases hre : compileVersionRegexp getArch getOs with
  | error err => rw [hre] at h; cases h
  | ok re =>
    rw [hre] at h
    simp only at h
    split_ifs at h
    cases hc : collectVersions getVersionDetails
        (FindAllStringSubmatch re (TrimSpace data)) [] with
    | error err => rw [hc] at h; cases h
    | ok unsorted =>
      rw [hc] at h
      injection h with h
      subst h
      have hmem : v ∈ unsorted := (perm_sliceStable less unsorted).mem_iff.1 hv
      rcases collectVersions_fields _ _ _ _ hc v hmem with hnil | ⟨entry, he, hp, -⟩
      · simp at hnil
      · rw [hp]
        exact findAll_dir_capture getArch getOs re _ entry hre he

set_option maxRecDepth 100000 in
/-- C11 (as stated, refuted): `filepath.Join` cleans the joined path and `URL.String`
writes it escaped and rooted, so the requested URL is not always the origin followed by
`v.Prefix ++ v.VersionInfo.Tarball`. On Linux x86_64, with the parser modelled from §4.5:
for the reference `/enterprise//tarantool-enterprise-sdk-1.10.10-52-r419.linux.x86_64.tar.gz`
`v.Prefix` is `/enterprise//` and the doubled `/` is dropped from the URL; for a directory
`/enterprise/a b/` the blank is requested as `%20`; for `v.Prefix = enterprise/` a `/` is put
before the path. -/
theorem GetTarantoolEE_changes_path :
    ((getVersions GetVersionDetails (Except.ok "x86_64".toList) (Except.ok OsType.OsLinux)
        "/enterprise//tarantool-enterprise-sdk-1.10.10-52-r419.linux.x86_64.tar.gz".toList).map
        (fun versions => versions.map (fun v => (v.Prefix, v.VersionInfo.Tarball))) =
      Except.ok [("/enterprise//".toList,
        "tarantool-enterprise-sdk-1.10.10-52-r419.linux.x86_64.tar.gz".toList)] ∧
      GetTarantoolEE true true (Except.ok ())
          "tarantool-enterprise-sdk-1.10.10-52-r419.linux.x86_64.tar.gz".toList
          "/enterprise//".toList "/tmp".toList =
        Except.ok ("https://download.tarantool.io".toList ++ ("/enterprise/".toList ++
          "tarantool-enterprise-sdk-1.10.10-52-r419.linux.x86_64.tar.gz".toList)) ∧
      GetTarantoolEE true true (Except.ok ())
          "tarantool-enterprise-sdk-1.10.10-52-r419.linux.x86_64.tar.gz".toList
          "/enterprise//".toList "/tmp".toList ≠
        Except.ok ("https://download.tarantool.io".toList ++ ("/enterprise//".toList ++
          "tarantool-enterprise-sdk-1.10.10-52-r419.linux.x86_64.tar.gz".toList))) ∧
    ((getVersions GetVersionDetails (Except.ok "x86_64".toList) (Except.ok OsType.OsLinux)
        "/enterprise/a b/tarantool-enterprise-sdk-1.10.10-52-r419.linux.x86_64.tar.gz".toList).map
        (fun versions => versions.map (fun v => (v.Prefix, v.VersionInfo.Tarball))) =
      Except.ok [("/enterprise/a b/".toList,
        "tarantool-enterprise-sdk-1.10.10-52-r419.linux.x86_64.tar.gz".toList)] ∧
      GetTarantoolEE true true (Except.ok ())
          "tarantool-enterprise-sdk-1.10.10-52-r419.linux.x86_64.tar.gz".toList
          "/enterprise/a b/".toList "/tmp".toList =
        Except.ok ("https://download.tarantool.io".toList ++ ("/enterprise/a%20b/".toList ++
          "tarantool-enterprise-sdk-1.10.10-52-r419.linux.x86_64.tar.gz".toList))) ∧
    ((getVersions GetVersionDetails (Except.ok "x86_64".toList) (Except.ok OsType.OsLinux)
        "enterprise/tarantool-enterprise-sdk-1.10.10-52-r419.linux.x86_64.tar.gz".toList).map
        (fun versions => versions.map (fun v => (v.Prefix, v.VersionInfo.Tarball))) =
      Except.ok [("enterprise/".toList,
        "tarantool-enterprise-sdk-1.10.10-52-r419.linux.x86_64.tar.gz".toList)] ∧
      GetTarantoolEE true true (Except.ok ())
          "tarantool-enterprise-sdk-1.10.10-52-r419.linux.x86_64.tar.gz".toList
          "enterprise/".toList "/tmp".toList =
        Except.ok ("https://download.tarantool.io".toList ++ ("/enterprise/".toList ++
          "tarantool-enterprise-sdk-1.10.10-52-r419.linux.x86_64.tar.gz".toList))) := by
  refine ⟨⟨by decide, by decide, by decide⟩, ⟨by decide, by decide⟩, by decide, by decide⟩

/-- C11 (amended): for every version `v` returned by `getVersions`, whatever the version
parser, if the path `v.Prefix ++ v.VersionInfo.Tarball` is rooted and clean (it begins
with `/` and none of its elements is empty, `.` or `..`) and has no character that
`URL.String` escapes, then `GetTarantoolEE`, called with `bundleName = v.VersionInfo.Tarball`
and `bundleSource = v.Prefix` for an existing directory and with credentials, requests
exactly the origin `https://download.tarantool.io` followed by
`v.Prefix ++ v.VersionInfo.Tarball`. -/
theorem GetTarantoolEE_requests_prefix_tarball
    (getVersionDetails : List Char → Except Err Version)
    (getArch : Except Err (List Char)) (getOs : Except Err OsType)
    (data dst : List Char) (versions : List EEVersion) (v : EEVersion)
    (h : getVersions getVersionDetails getArch getOs data = Except.ok versions)
    (hv : v ∈ versions)
    (hclean : cleanRooted (v.Prefix ++ v.VersionInfo.Tarball) = true)
    (hesc : ∀ c ∈ v.Prefix ++ v.VersionInfo.Tarball, shouldEscapePath c = false) :
    GetTarantoolEE true true (Except.ok ()) v.VersionInfo.Tarball v.Prefix dst =
      Except.ok ("https://download.tarantool.io".toList ++
        (v.Prefix ++ v.VersionInfo.Tarball)) := by
  obtain ⟨x, hx⟩ := getVersions_dir_slash getVersionDetails getArch getOs data versions h v hv
  rw [hx] at hclean hesc ⊢
  exact GetTarantoolEE_clean x v.VersionInfo.Tarball dst hclean hesc

set_option maxRecDepth 100000 in
/-- Witness of C11 (amended): the path of the grammar scenario on Linux x86_64, with the
version parser modelled from §4.5. -/
theorem GetTarantoolEE_requests_prefix_tarball_witness :
    getVersions GetVersionDetails (Except.ok "x86_64".toList) (Except.ok OsType.OsLinux)
        "/enterprise/tarantool-enterprise-sdk-1.10.10-52-r419.linux.x86_64.tar.gz".toList =
      Except.ok [{ v419 with
        VersionInfo := { v419.VersionInfo with
          Tarball := "tarantool-enterprise-sdk-1.10.10-52-r419.linux.x86_64.tar.gz".toList }
        Prefix := "/enterprise/".toList }] ∧
    cleanRooted ("/enterprise/".toList ++
      "tarantool-enterprise-sdk-1.10.10-52-r419.linux.x86_64.tar.gz".toList) = true ∧
    (∀ c ∈ "/enterprise/".toList ++
      "tarantool-enterprise-sdk-1.10.10-52-r419.linux.x86_64.tar.gz".toList,
      shouldEscapePath c = false) ∧
    GetTarantoolEE true true (Except.ok ())
        "tarantool-enterprise-sdk-1.10.10-52-r419.linux.x86_64.tar.gz".toList
        "/enterprise/".toList "/tmp".toList =
      Except.ok ("https://download.tarantool.io".toList ++ ("/enterprise/".toList ++
        "tarantool-enterprise-sdk-1.10.10-52-r419.linux.x86_64.tar.gz".toList)) :=
  ⟨by decide, by decide, by decide,
    GetTarantoolEE_requests_prefix_tarball GetVersionDetails (Except.ok "x86_64".toList)
      (Except.ok OsType.OsLinux)
      "/enterprise/tarantool-enterprise-sdk-1.10.10-52-r419.linux.x86_64.tar.gz".toList
      "/tmp".toList _
      { v419 with
        VersionInfo := { v419.VersionInfo with
          Tarball := "tarantool-enterprise-sdk-1.10.10-52-r419.linux.x86_64.tar.gz".toList }
        Prefix := "/enterprise/".toList }
      (by decide) (List.mem_singleton.2 rfl) (by decide) (by decide)⟩

/-! ## Crawl coordination -/

theorem Pop_of_nil (q : stringQueue) (h : q.buf = []) :
    q.Pop = (([], some (Err.text emptyQueueError)), q) := by
  simp [stringQueue.Pop, h]

theorem Pop_of_cons (q : stringQueue) (x : List Char) (rest : List (List Char))
    (h : q.buf = x :: rest) : q.Pop = ((x, none), { buf := rest }) := by
  simp [stringQueue.Pop, h]

theorem startCrawl_inv (n : Nat) (osType : OsType) : CrawlInv n (startCrawl osType) where
  free_idle := fun _ _ => ⟨rfl, rfl⟩
  chan_idle := fun _ h => absurd rfl h
  cancelled_coord := fun h => by simp [startCrawl] at h
  done_cancelled := fun _ h => by simp [startCrawl] at h
  coord_inv := trivial

theorem not_cancelled_of_coord (n : Nat) (s : CrawlState) (h : CrawlInv n s)
    (hc : s.coord.cancelDone = false) : s.cancelled = false := by
  cases hx : s.cancelled with
  | false => rfl
  | true => rw [h.cancelled_coord hx] at hc; cases hc

theorem coordStep_inv (n : Nat) (s : CrawlState) (h : CrawlInv n s) :
    CrawlInv n (coordStep n s) := by
  have hnot := not_cancelled_of_coord n s h
  obtain ⟨hfree, hchan, hcancel, hdone, hcoord⟩ := h
  unfold coordStep
  cases hc : s.coord with
  | selectErr =>
    have hnc : s.cancelled = false := hnot (by rw [hc]; rfl)
    cases he : s.errChan with
    | nil => exact ⟨hfree, hchan, fun hx => by simp [hnc] at hx, hdone, by simp [coordInv]⟩
    | cons err rest => exact ⟨hfree, hchan, fun hx => by simp [hnc] at hx, hdone, trivial⟩
  | isSet i c =>
    rw [hc] at hcoord
    have hnc : s.cancelled = false := hnot (by rw [hc]; rfl)
    obtain ⟨hle, hall⟩ := hcoord
    simp only
    split_ifs with hi hf
    · exact ⟨hfree, hchan, fun hx => by simp [hnc] at hx, hdone, hi, hle, hf, hall⟩
    · refine ⟨hfree, hchan, fun hx => by simp [hnc] at hx, hdone, by omega, fun hx => ?_⟩
      omega
    · exact ⟨hfree, hchan, fun hx => by simp [hnc] at hx, hdone, trivial⟩
  | pop i c =>
    rw [hc] at hcoord
    have hnc : s.cancelled = false := hnot (by rw [hc]; rfl)
    obtain ⟨hi, hle, hf, hall⟩ := hcoord
    cases hb : s.prefixQueue.buf with
    | nil =>
      rw [Pop_of_nil _ hb]
      simp only
      have hall2 : c = i → ∀ j, j < i + 1 → s.freeAtomicSl j = true := by
        intro hci j hj
        rcases Nat.lt_succ_iff_lt_or_eq.1 hj with hj | hj
        · exact hall hci j hj
        · rw [hj]; exact hf
      split_ifs with hn
      · refine ⟨hfree, hchan, fun hx => by simp [hnc] at hx, hdone, ?_, hb⟩
        intro j hj
        exact hall2 (by omega) j (by omega)
      · refine ⟨hfree, hchan, fun hx => by simp [hnc] at hx, hdone, by omega, fun hx => ?_⟩
        exact hall2 (by omega)
    | cons x rest =>
      rw [Pop_of_cons _ x rest hb]
      exact ⟨hfree, hchan, fun hx => by simp [hnc] at hx, hdone, hi, hle, hf⟩
  | unset i c p =>
    rw [hc] at hcoord
    have hnc : s.cancelled = false := hnot (by rw [hc]; rfl)
    obtain ⟨hi, hle, hf⟩ := hcoord
    have hidle := hfree i hf
    refine ⟨?_, hchan, fun hx => by simp [hnc] at hx, hdone, hi, hle, by simp, ?_, hidle.2⟩
    · intro j hj
      simp only [Function.update_apply] at hj
      split_ifs at hj
      exact hfree j hj
    · have hw := hidle.1
      cases hwi : s.workers i with
      | waiting => rfl
      | done => have := hdone i hwi; rw [hnc] at this; cases this
      | _ => rw [hwi] at hw; cases hw
  | send i c p =>
    rw [hc] at hcoord
    have hnc : s.cancelled = false := hnot (by rw [hc]; rfl)
    obtain ⟨hi, hle, hf, hw, hch⟩ := hcoord
    simp only [hch]
    refine ⟨?_, ?_, fun hx => by simp [hnc] at hx, hdone, by omega, fun hx => by omega⟩
    · intro j hj
      have hji : j ≠ i := by
        intro hji
        rw [hji, hf] at hj
        cases hj
      simp only [Function.update_apply, hji, if_false]
      exact hfree j hj
    · intro j hj
      by_cases hji : j = i
      · rw [hji, hw]; rfl
      · simp only [Function.update_apply, hji, if_false] at hj
        exact hchan j hj
  | cancelAll =>
    rw [hc] at hcoord
    exact ⟨hfree, hchan, fun _ => rfl, fun _ _ => rfl, hcoord⟩
  | getAll =>
    rw [hc] at hcoord
    exact ⟨hfree, hchan, fun _ => rfl, hdone, hcoord.1, hcoord.2, rfl⟩
  | cancelErr err => exact ⟨hfree, hchan, fun _ => rfl, fun _ _ => rfl, trivial⟩
  | returnedAll res =>
    simp only
    exact ⟨hfree, hchan, hcancel, hdone, hcoord⟩
  | returnedErr err =>
    simp only
    exact ⟨hfree, hchan, hcancel, hdone, hcoord⟩


theorem coordInv_of_same (n : Nat) (s t : CrawlState) (pc : CoordPc)
    (hflags : ∀ j, s.freeAtomicSl j = true → t.freeAtomicSl j = true)
    (hqueues : pc.succeeded = true →
      t.prefixQueue = s.prefixQueue ∧ t.bundleRefsQueue = s.bundleRefsQueue)
    (hsend : ∀ i c p, pc = CoordPc.send i c p →
      t.freeAtomicSl i = s.freeAtomicSl i ∧ t.workers i = s.workers i ∧
        t.prefixChanSl i = s.prefixChanSl i)
    (h : coordInv n s pc) : coordInv n t pc := by
  cases pc with
  | isSet i c => exact ⟨h.1, fun hc j hj => hflags j (h.2 hc j hj)⟩
  | pop i c => exact ⟨h.1, h.2.1, hflags i h.2.2.1, fun hc j hj => hflags j (h.2.2.2 hc j hj)⟩
  | unset i c p => exact ⟨h.1, h.2.1, hflags i h.2.2⟩
  | send i c p =>
    obtain ⟨h1, h2, h3⟩ := hsend i c p rfl
    exact ⟨h.1, h.2.1, by rw [h1]; exact h.2.2.1, by rw [h2]; exact h.2.2.2.1,
      by rw [h3]; exact h.2.2.2.2⟩
  | cancelAll =>
    obtain ⟨h1, -⟩ := hqueues rfl
    exact ⟨fun j hj => hflags j (h.1 j hj), by rw [h1]; exact h.2⟩
  | getAll =>
    obtain ⟨h1, -⟩ := hqueues rfl
    exact ⟨fun j hj => hflags j (h.1 j hj), by rw [h1]; exact h.2⟩
  | returnedAll res =>
    obtain ⟨h1, h2⟩ := hqueues rfl
    exact ⟨fun j hj => hflags j (h.1 j hj), by rw [h1]; exact h.2.1, by rw [h2]; exact h.2.2⟩
  | selectErr => trivial
  | cancelErr err => trivial
  | returnedErr err => trivial

theorem not_succeeded_of_busy (n : Nat) (s : CrawlState) (i : Nat) (hi : i < n)
    (hf : s.freeAtomicSl i = false) (h : coordInv n s s.coord) :
    s.coord.succeeded = false := by
  cases hc : s.coord with
  | cancelAll => rw [hc] at h; rw [h.1 i hi] at hf; cases hf
  | getAll => rw [hc] at h; rw [h.1 i hi] at hf; cases hf
  | returnedAll res => rw [hc] at h; rw [h.1 i hi] at hf; cases hf
  | _ => rfl

theorem flag_of_not_idle (n : Nat) (s : CrawlState) (h : CrawlInv n s) (i : Nat)
    (hw : (s.workers i).idle = false) : s.freeAtomicSl i = false := by
  cases hf : s.freeAtomicSl i with
  | false => rfl
  | true => rw [(h.free_idle i hf).1] at hw; cases hw

theorem chan_of_not_idle (n : Nat) (s : CrawlState) (h : CrawlInv n s) (i : Nat)
    (hw : (s.workers i).idle = false) : s.prefixChanSl i = none := by
  by_contra hne
  rw [h.chan_idle i hne] at hw
  cases hw

/-- A step of a worker that holds a path and does not touch its flag. -/
theorem busy_step_inv (n : Nat) (s : CrawlState) (h : CrawlInv n s) (i : Nat) (hi : i < n)
    (hw : (s.workers i).idle = false) (pc : WorkerPc) (hpc : pc ≠ WorkerPc.done)
    (q r : stringQueue) (errs : List Err) :
    CrawlInv n { s with workers := Function.update s.workers i pc, prefixQueue := q,
                        bundleRefsQueue := r, errChan := errs } := by
  have hf := flag_of_not_idle n s h i hw
  have hch := chan_of_not_idle n s h i hw
  refine ⟨?_, ?_, h.cancelled_coord, ?_, ?_⟩
  · intro j hj
    have hji : j ≠ i := by
      intro hji
      rw [hji] at hj
      exact absurd (hf ▸ hj : false = true) (by decide)
    simp only [Function.update_apply, hji, if_false]
    exact h.free_idle j hj
  · intro j hj
    have hji : j ≠ i := by
      intro hji
      rw [hji] at hj
      exact hj hch
    simp only [Function.update_apply, hji, if_false]
    exact h.chan_idle j hj
  · intro j hj
    by_cases hji : j = i
    · simp only [Function.update_apply, hji, if_true] at hj
      exact absurd hj hpc
    · simp only [Function.update_apply, hji, if_false] at hj
      exact h.done_cancelled j hj
  · refine coordInv_of_same n s _ _ (fun j hj => hj) ?_ ?_ h.coord_inv
    · intro hs
      have := not_succeeded_of_busy n s i hi hf h.coord_inv
      rw [this] at hs
      cases hs
    · intro i0 c p hc
      have hinv := h.coord_inv
      rw [show s.coord = CoordPc.send i0 c p from hc] at hinv
      have hne : i0 ≠ i := by
        intro he
        rw [he] at hinv
        rw [hinv.2.2.2.1] at hw
        cases hw
      simp only [Function.update_apply, hne, if_false]
      exact ⟨trivial, trivial, trivial⟩


theorem done_step_inv (n : Nat) (s : CrawlState) (h : CrawlInv n s) (i : Nat)
    (hc : s.cancelled = true) :
    CrawlInv n { s with workers := Function.update s.workers i WorkerPc.done } := by
  refine ⟨?_, ?_, h.cancelled_coord, ?_, ?_⟩
  · intro j hj
    refine ⟨?_, (h.free_idle j hj).2⟩
    by_cases hji : j = i
    · simp [Function.update_apply, hji, WorkerPc.idle]
    · simp only [Function.update_apply, hji, if_false]
      exact (h.free_idle j hj).1
  · intro j hj
    by_cases hji : j = i
    · simp [Function.update_apply, hji, WorkerPc.idle]
    · simp only [Function.update_apply, hji, if_false]
      exact h.chan_idle j hj
  · intro j _
    exact hc
  · refine coordInv_of_same n s _ _ (fun j hj => hj) (fun _ => ⟨rfl, rfl⟩) ?_ h.coord_inv
    intro i0 c p hpc
    have := h.cancelled_coord hc
    rw [show s.coord = CoordPc.send i0 c p from hpc] at this
    cases this

theorem workerStep_inv (searchCtx : SearchEECtx) (getOs : Except Err OsType) (n i : Nat)
    (res : HttpResult) (takeDone : Bool) (s : CrawlState) (h : CrawlInv n s) (hi : i < n) :
    CrawlInv n (workerStep searchCtx getOs i res takeDone s) := by
  unfold workerStep
  cases hw : s.workers i with
  | waiting =>
    simp only
    cases hch : s.prefixChanSl i with
    | none =>
      simp only
      split_ifs with hc
      · exact done_step_inv n s h i hc
      · exact h
    | some path =>
      simp only
      split_ifs with hc
      · simp only [Bool.and_eq_true] at hc
        exact done_step_inv n s h i hc.1
      · have hf : s.freeAtomicSl i = false := by
          cases hf : s.freeAtomicSl i with
          | false => rfl
          | true => rw [(h.free_idle i hf).2] at hch; cases hch
        refine ⟨?_, ?_, h.cancelled_coord, ?_, ?_⟩
        · intro j hj
          have hji : j ≠ i := by
            intro hji
            rw [hji] at hj
            exact absurd (hf ▸ hj : false = true) (by decide)
          simp only [Function.update_apply, hji, if_false]
          exact h.free_idle j hj
        · intro j hj
          by_cases hji : j = i
          · simp [Function.update_apply, hji] at hj
          · simp only [Function.update_apply, hji, if_false] at hj ⊢
            exact h.chan_idle j hj
        · intro j hj
          by_cases hji : j = i
          · simp [Function.update_apply, hji] at hj
          · simp only [Function.update_apply, hji, if_false] at hj
            exact h.done_cancelled j hj
        · refine coordInv_of_same n s _ _ (fun j hj => hj) (fun _ => ⟨rfl, rfl⟩) ?_ h.coord_inv
          intro i0 c p hpc
          have hinv := h.coord_inv
          rw [show s.coord = CoordPc.send i0 c p from hpc] at hinv
          have hne : i0 ≠ i := by
            intro he
            subst he
            have hnone : s.prefixChanSl i0 = none := hinv.2.2.2.2
            rw [hch] at hnone
            cases hnone
          simp only [Function.update_apply, hne, if_false]
          exact ⟨trivial, trivial, trivial⟩
  | fetching path =>
    have hidle : (s.workers i).idle = false := by rw [hw]; rfl
    simp only
    cases findReferences searchCtx res getOs with
    | error err =>
      exact busy_step_inv n s h i hi hidle (WorkerPc.sendErr err) (by simp) _ _ _
    | ok refs =>
      exact busy_step_inv n s h i hi hidle (WorkerPc.pushPrefixes refs.1 refs.2) (by simp) _ _ _
  | pushPrefixes foundReferences crawlUrls =>
    have hidle : (s.workers i).idle = false := by rw [hw]; rfl
    exact busy_step_inv n s h i hi hidle (WorkerPc.pushResults foundReferences) (by simp) _ _ _
  | pushResults foundReferences =>
    have hidle : (s.workers i).idle = false := by rw [hw]; rfl
    exact busy_step_inv n s h i hi hidle WorkerPc.setFree (by simp) _ _ _
  | sendErr err =>
    have hidle : (s.workers i).idle = false := by rw [hw]; rfl
    exact busy_step_inv n s h i hi hidle WorkerPc.failed (by simp) _ _ _
  | setFree =>
    have hidle : (s.workers i).idle = false := by rw [hw]; rfl
    have hch := chan_of_not_idle n s h i hidle
    simp only
    refine ⟨?_, ?_, h.cancelled_coord, ?_, ?_⟩
    · intro j hj
      by_cases hji : j = i
      · simp only [Function.update_apply, hji, if_true]
        exact ⟨rfl, hch⟩
      · simp only [Function.update_apply, hji, if_false] at hj ⊢
        exact h.free_idle j hj
    · intro j hj
      by_cases hji : j = i
      · simp only [Function.update_apply, hji, if_true]
        rfl
      · simp only [Function.update_apply, hji, if_false]
        exact h.chan_idle j hj
    · intro j hj
      by_cases hji : j = i
      · simp [Function.update_apply, hji] at hj
      · simp only [Function.update_apply, hji, if_false] at hj
        exact h.done_cancelled j hj
    · refine coordInv_of_same n s _ _ ?_ (fun _ => ⟨rfl, rfl⟩) ?_ h.coord_inv
      · intro j hj
        simp only [Function.update_apply]
        split_ifs
        · rfl
        · exact hj
      · intro i0 c p hpc
        have hinv := h.coord_inv
        rw [show s.coord = CoordPc.send i0 c p from hpc] at hinv
        have hne : i0 ≠ i := by
          intro he
          subst he
          have hwait : s.workers i0 = WorkerPc.waiting := hinv.2.2.2.1
          rw [hw] at hwait
          cases hwait
        simp only [Function.update_apply, hne, if_false]
        exact ⟨trivial, trivial, trivial⟩
  | failed => exact h
  | done => exact h

theorem crawlStep_inv (searchCtx : SearchEECtx) (getOs : Except Err OsType) (n : Nat)
    (s : CrawlState) (e : CrawlEvent) (h : CrawlInv n s) :
    CrawlInv n (crawlStep searchCtx getOs n s e) := by
  cases e with
  | coordinator => exact coordStep_inv n s h
  | worker i res takeDone =>
    simp only [crawlStep]
    split_ifs with hi
    · exact workerStep_inv searchCtx getOs n i res takeDone s h hi
    · exact h

theorem crawlRun_inv (searchCtx : SearchEECtx) (getOs : Except Err OsType) (n : Nat)
    (events : List CrawlEvent) : ∀ s, CrawlInv n s →
    CrawlInv n (crawlRun searchCtx getOs n events s) := by
  induction events with
  | nil => intro s h; exact h
  | cons e rest ih =>
    intro s h
    exact ih _ (crawlStep_inv searchCtx getOs n s e h)


theorem succeeded_step (searchCtx : SearchEECtx) (getOs : Except Err OsType) (n : Nat)
    (s : CrawlState) (e : CrawlEvent) (h : CrawlInv n s) (hret : s.coord.succeeded = true) :
    (crawlStep searchCtx getOs n s e).coord.succeeded = true ∧
      (crawlStep searchCtx getOs n s e).prefixQueue = s.prefixQueue ∧
      (crawlStep searchCtx getOs n s e).bundleRefsQueue = s.bundleRefsQueue := by
  cases e with
  | coordinator =>
    simp only [crawlStep, coordStep]
    cases hc : s.coord with
    | cancelAll => exact ⟨rfl, rfl, rfl⟩
    | getAll => exact ⟨rfl, rfl, rfl⟩
    | returnedAll res => simp [hc, CoordPc.succeeded]
    | _ => rw [hc] at hret; cases hret
  | worker i res takeDone =>
    simp only [crawlStep]
    split_ifs with hi
    · have hf : s.freeAtomicSl i = true := by
        cases hf : s.freeAtomicSl i with
        | true => rfl
        | false =>
          rw [not_succeeded_of_busy n s i hi hf h.coord_inv] at hret
          cases hret
      obtain ⟨hidle, hch⟩ := h.free_idle i hf
      unfold workerStep
      cases hw : s.workers i with
      | waiting =>
        simp only [hch]
        split_ifs
        · exact ⟨hret, rfl, rfl⟩
        · exact ⟨hret, rfl, rfl⟩
      | done => exact ⟨hret, rfl, rfl⟩
      | _ => rw [hw] at hidle; cases hidle
    · exact ⟨hret, rfl, rfl⟩

theorem succeeded_run (searchCtx : SearchEECtx) (getOs : Except Err OsType) (n : Nat)
    (events : List CrawlEvent) : ∀ s, CrawlInv n s → s.coord.succeeded = true →
    (crawlRun searchCtx getOs n events s).coord.succeeded = true ∧
      (crawlRun searchCtx getOs n events s).prefixQueue = s.prefixQueue ∧
      (crawlRun searchCtx getOs n events s).bundleRefsQueue = s.bundleRefsQueue := by
  induction events with
  | nil => intro s _ hret; exact ⟨hret, rfl, rfl⟩
  | cons e rest ih =>
    intro s h hret
    obtain ⟨h1, h2, h3⟩ := succeeded_step searchCtx getOs n s e h hret
    obtain ⟨k1, k2, k3⟩ := ih _ (crawlStep_inv searchCtx getOs n s e h) h1
    exact ⟨k1, k2.trans h2, k3.trans h3⟩

/-- C13: in every run of `collectBundleReferences` with its `vProcCount` workers, under
every schedule of the atomic steps of the dispatch loop and the workers and whatever the
requests answer, when the dispatch loop is at its success return
(`countFree == vProcCount`) or behind it, every worker is idle (it waits at its `select`
or has returned on `ctx.Done()`, so it has pushed the results of every path handed to
it), its channel is empty and its flag is set, and the traversal queue is empty; the
value returned is the content of the results queue; and in whatever steps follow, neither
queue changes. -/
theorem collectBundleReferences_returns_when_idle (searchCtx : SearchEECtx)
    (getOs : Except Err OsType) (gomaxprocs : Nat) (osType : OsType)
    (events : List CrawlEvent) (s : CrawlState)
    (hs : crawlRun searchCtx getOs (vProcCount gomaxprocs) events (startCrawl osType) = s)
    (hret : s.coord.succeeded = true) :
    (∀ i, i < vProcCount gomaxprocs →
      (s.workers i).idle = true ∧ s.prefixChanSl i = none ∧ s.freeAtomicSl i = true) ∧
    s.prefixQueue.buf = [] ∧
    (∀ res, s.coord = CoordPc.returnedAll res → res = crawlReturn s.bundleRefsQueue) ∧
    ∀ more : List CrawlEvent,
      (crawlRun searchCtx getOs (vProcCount gomaxprocs) more s).prefixQueue = s.prefixQueue ∧
      (crawlRun searchCtx getOs (vProcCount gomaxprocs) more s).bundleRefsQueue =
        s.bundleRefsQueue := by
  have hinv : CrawlInv (vProcCount gomaxprocs) s := by
    rw [← hs]
    exact crawlRun_inv searchCtx getOs _ events _ (startCrawl_inv _ osType)
  have hcoord := hinv.coord_inv
  have hflags : ∀ i, i < vProcCount gomaxprocs → s.freeAtomicSl i = true := by
    intro i hi
    cases hf : s.freeAtomicSl i with
    | true => rfl
    | false =>
      rw [not_succeeded_of_busy _ s i hi hf hcoord] at hret
      cases hret
  refine ⟨fun i hi => ⟨(hinv.free_idle i (hflags i hi)).1, (hinv.free_idle i (hflags i hi)).2,
    hflags i hi⟩, ?_, ?_, ?_⟩
  · cases hc : s.coord with
    | cancelAll => rw [hc] at hcoord; exact hcoord.2
    | getAll => rw [hc] at hcoord; exact hcoord.2
    | returnedAll res => rw [hc] at hcoord; exact hcoord.2.1
    | _ => rw [hc] at hret; cases hret
  · intro res hc
    rw [hc] at hcoord
    exact hcoord.2.2
  · intro more
    exact (succeeded_run searchCtx getOs _ more s hinv hret).2

/-- Witness of C13: five workers on Linux under `sampleSchedule`; the dispatch loop
returns the one bundle reference that worker 0 found. -/
theorem collectBundleReferences_returns_when_idle_witness :
    (crawlRun { Dbg := false, Dev := false } (Except.ok OsType.OsLinux) (vProcCount 1)
        sampleSchedule (startCrawl OsType.OsLinux)).coord =
      CoordPc.returnedAll (Except.ok
        ["/enterprise/tarantool-enterprise-sdk-1.10.10-52-r419.linux.x86_64.tar.gz".toList]) ∧
    (∀ i, i < vProcCount 1 →
      ((crawlRun { Dbg := false, Dev := false } (Except.ok OsType.OsLinux) (vProcCount 1)
        sampleSchedule (startCrawl OsType.OsLinux)).workers i).idle = true ∧
      (crawlRun { Dbg := false, Dev := false } (Except.ok OsType.OsLinux) (vProcCount 1)
        sampleSchedule (startCrawl OsType.OsLinux)).prefixChanSl i = none ∧
      (crawlRun { Dbg := false, Dev := false } (Except.ok OsType.OsLinux) (vProcCount 1)
        sampleSchedule (startCrawl OsType.OsLinux)).freeAtomicSl i = true) ∧
    (crawlRun { Dbg := false, Dev := false } (Except.ok OsType.OsLinux) (vProcCount 1)
        sampleSchedule (startCrawl OsType.OsLinux)).prefixQueue.buf = [] :=
  ⟨by decide,
    (collectBundleReferences_returns_when_idle { Dbg := false, Dev := false }
      (Except.ok OsType.OsLinux) 1 OsType.OsLinux sampleSchedule _ rfl (by decide)).1,
    (collectBundleReferences_returns_when_idle { Dbg := false, Dev := false }
      (Except.ok OsType.OsLinux) 1 OsType.OsLinux sampleSchedule _ rfl (by decide)).2.1⟩

end InstallEE
